import Mathlib

/-!
# ttauri template engine: node evaluation model

A shallow embedding of the document nodes (`veer_string_node`, `veer_if_node`,
`veer_block_node`, `stencil_block_node`, `stencil_top_node`) and of the expression node
`formula_logical_and_node`, of `huffman_tree`, of the base64 encoding and of
`PipelineImage::DeviceShared::getAtlasPositionFromPage`, followed by the properties proved
about them.

Conventions of the embedding

* `std::string` is a `List Char`, `std::vector<T>` is a `List T`.  The code compares the
  characters of a text only with the space, the tab and the line-feed.
* A member function that takes the evaluation context by reference and may throw is a
  function from the context to a pair: what it returned or raised, and the context it left
  behind (`result`).  The context survives a raised exception, as it does in C++.
* Calls through a virtual function or a `std::function` whose body is not part of the
  embedded class are passed in as function arguments, so every theorem holds for whatever
  those callees do.
* An access outside a vector, or a violated `tt_assume`, has no defined behaviour in C++; the
  embedding returns `none` there, as it does where a `tt_assert` fails.
* The evaluation context and the post-process context are declared outside the embedded
  files; they are modelled from the specification.
* In `huffman_tree` an `int` has 32 bits: an `int` operation whose result `int` does not
  hold, and a shift by a count outside 0..31, has no defined behaviour and gives `none`.
  `numeric_cast<T>` is declared outside the embedded files and is a function argument.  A
  state is the index of the entry it points at.
* For the question whether `evaluate` changes a node, the document lies in a store: the
  nodes are the entries of a list, a pointer to a node is its position, and every member
  function is handed the whole store and hands it back.
* In the base64 functions a byte is a number below 256 and the bit operations are those of
  the natural numbers.
* The constants of `Page` are declared outside the embedded files; they are parameters of
  `getAtlasPositionFromPage`, whose `/` and `%` round towards zero as in C++.
-/

namespace tt

/-! ## Types shared by the nodes -/

/-- Modelled from the spec: the source location attached to every node (`parse_location`
is declared outside the embedded files).  The spec describes it as a
file/line/column-equivalent token. -/
structure parse_location where
  file : String
  line : Nat
  column : Nat
deriving DecidableEq, Repr

/-- Modelled from the spec: the runtime value `datum` (declared outside the embedded
files).  The spec lists the variants Undefined, Boolean, String, Number, Vector-of-Value and
the control signals Break, Continue and Return(payload).  A default-constructed datum
(`datum{}`, `return {}`) is `undefined`. -/
inductive datum where
  | undefined : datum
  | boolean (b : Bool) : datum
  | string (s : List Char) : datum
  | number (n : Int) : datum
  | vector (xs : List datum) : datum
  | break_ : datum
  | continue_ : datum
  | return_ (payload : datum) : datum

/-- Tag test `datum::is_undefined()`. -/
def datum.is_undefined : datum → Bool
  | datum.undefined => true
  | _ => false

/-- Tag test `datum::is_break()`. -/
def datum.is_break : datum → Bool
  | datum.break_ => true
  | _ => false

/-- Tag test `datum::is_continue()`. -/
def datum.is_continue : datum → Bool
  | datum.continue_ => true
  | _ => false

/-- Modelled from the spec: the conversion of a datum to `bool`, as far as the spec fixes
it: Undefined and boolean false are falsy, so are the empty string and zero; a non-empty
string is truthy.  The spec leaves vectors and control signals open; they are falsy here.
The nodes below take the conversion as an argument, this definition only instantiates it
in concrete evaluations. -/
def datum.to_bool : datum → Bool
  | datum.boolean b => b
  | datum.string s => !s.isEmpty
  | datum.number n => n != 0
  | _ => false

/-- The exception classes the embedded code names: `invalid_operation_error` and
`parse_error` derive from the engine's `error`; `other_error` stands for its remaining
subclasses; `bad_function_call` is what calling an empty `std::function` throws. -/
inductive exception_class where
  | invalid_operation_error
  | parse_error
  | other_error
  | bad_function_call
deriving DecidableEq, Repr

/-- Modelled from the spec: a raised error (the `error` class is declared outside the
embedded files): its class, its message and the source location it carries, if any. -/
structure error where
  cls : exception_class
  message : String
  location : Option parse_location
deriving DecidableEq, Repr

/-- Constructor `invalid_operation_error(message)`: no location yet. -/
def invalid_operation_error (message : String) : error :=
  { cls := exception_class.invalid_operation_error, message := message, location := none }

/-- Member `error::set_location(location)`. -/
def error.set_location (e : error) (location : parse_location) : error :=
  { e with location := some location }

/-- Modelled from the spec: `error::merge_location(location)` attaches the location to an
error that lacks one and leaves an error that has a location as it is. -/
def error.merge_location (e : error) (location : parse_location) : error :=
  match e.location with
  | some _ => e
  | none => { e with location := some location }

/-- What running a member function against a context of type `σ` gives: the returned value
or the raised error, and the context afterwards. -/
abbrev result (σ α : Type) : Type := Except error α × σ

/-! ## veer_string_node -/

/-- Node `veer_string_node`: a literal text. -/
structure veer_string_node where
  location : parse_location
  text : List Char
deriving DecidableEq, Repr

/-- Member `std::string::resize(n)`: truncates to `n` characters, or pads with NUL. -/
def string_resize (text : List Char) (n : Nat) : List Char :=
  text.take n ++ List.replicate (n - text.length) (Char.ofNat 0)

/-- The reverse scan of `veer_string_node::left_align`.  The first argument is what the
reverse iterator still has to visit (last character first), the second is
`new_text_length`.  The answer is `some n` when the loop is left by `break` or by reaching
`crend()` with `new_text_length = n`, and `none` when the function returns from inside the
loop. -/
def veer_string_node.left_align_scan : List Char → Nat → Option Nat
  | [], new_text_length => some new_text_length
  | c :: rest, new_text_length =>
    if c = ' ' ∨ c = '\t' then
      veer_string_node.left_align_scan rest (new_text_length - 1)
    else if c = '\n' then
      some new_text_length
    else
      none

/-- Member `veer_string_node::left_align`. -/
def veer_string_node.left_align (node : veer_string_node) : veer_string_node :=
  match veer_string_node.left_align_scan node.text.reverse node.text.length with
  | some new_text_length => { node with text := string_resize node.text new_text_length }
  | none => node

/-- Member `veer_string_node::should_left_align`. -/
def veer_string_node.should_left_align (_node : veer_string_node) : Bool := false

/-- A character that `left_align` strips: a space or a tab. -/
def is_blank (c : Char) : Prop := c = ' ' ∨ c = '\t'

instance (c : Char) : Decidable (is_blank c) := by
  unfold is_blank; exact inferInstance

/-! ## veer_if_node -/

/-- Node `veer_if_node`.  `N` is the type of the child nodes (`std::unique_ptr<veer_node>`),
`E` the type of the condition expressions (`std::unique_ptr<expression_node>`). -/
structure veer_if_node (N E : Type) where
  location : parse_location
  children_groups : List (List N)
  expressions : List E
  expression_locations : List parse_location

/-- The `for` loop and the code after it of `veer_if_node::evaluate`.  The first numeric
argument counts the iterations still to run (`ssize(expressions) - i`), the second is `i`.

* `truthy` is the conversion of a datum to `bool`;
* `evaluate_expression_without_output` and `evaluate_children` are the two static helpers
  of `veer_node` the loop calls. -/
def veer_if_node.evaluate_loop {N E σ : Type} (truthy : datum → Bool)
    (evaluate_expression_without_output : σ → E → parse_location → result σ datum)
    (evaluate_children : σ → List N → result σ datum)
    (node : veer_if_node N E) : Nat → Nat → σ → Option (result σ datum)
  | 0, _, context =>
    if node.children_groups.length > node.expressions.length then
      match node.children_groups[node.expressions.length]? with
      | some children => some (evaluate_children context children)
      | none => none
    else
      some (Except.ok datum.undefined, context)
  | remaining + 1, i, context =>
    match node.expressions[i]?, node.expression_locations[i]? with
    | some expression, some expression_location =>
      match evaluate_expression_without_output context expression expression_location with
      | (Except.error e, context1) => some (Except.error e, context1)
      | (Except.ok condition, context1) =>
        if truthy condition then
          match node.children_groups[i]? with
          | some children => some (evaluate_children context1 children)
          | none => none
        else
          veer_if_node.evaluate_loop truthy evaluate_expression_without_output
            evaluate_children node remaining (i + 1) context1
    | _, _ => none

/-- Member `veer_if_node::evaluate`. -/
def veer_if_node.evaluate {N E σ : Type} (truthy : datum → Bool)
    (evaluate_expression_without_output : σ → E → parse_location → result σ datum)
    (evaluate_children : σ → List N → result σ datum)
    (node : veer_if_node N E) (context : σ) : Option (result σ datum) :=
  if node.expressions.length = node.expression_locations.length then
    veer_if_node.evaluate_loop truthy evaluate_expression_without_output evaluate_children
      node node.expressions.length 0 context
  else
    none

/-- A call an If node makes while it is evaluated. -/
inductive if_call (N E : Type) where
  | expression (e : E) (l : parse_location) : if_call N E
  | children (g : List N) : if_call N E
deriving DecidableEq, Repr

/-- The condition evaluator `ee`, made to note each call at the end of a log kept next to
the context. -/
def recording_expression {N E σ : Type} (ee : σ → E → parse_location → result σ datum) :
    σ × List (if_call N E) → E → parse_location → result (σ × List (if_call N E)) datum :=
  fun s e l => ((ee s.1 e l).1, ((ee s.1 e l).2, s.2 ++ [if_call.expression e l]))

/-- The children evaluator `ec`, made to note each call at the end of a log kept next to
the context. -/
def recording_children {N E σ : Type} (ec : σ → List N → result σ datum) :
    σ × List (if_call N E) → List N → result (σ × List (if_call N E)) datum :=
  fun s g => ((ec s.1 g).1, ((ec s.1 g).2, s.2 ++ [if_call.children g]))

/-- The calls `veer_if_node::evaluate` makes, in order: the log left by running it on the
recording evaluators, started with an empty log. -/
def veer_if_node.calls {N E σ : Type} (truthy : datum → Bool)
    (ee : σ → E → parse_location → result σ datum) (ec : σ → List N → result σ datum)
    (node : veer_if_node N E) (context : σ) : Option (List (if_call N E)) :=
  (veer_if_node.evaluate truthy (recording_expression ee) (recording_children ec) node
    (context, [])).map (fun r => r.2.2)

/-- The children groups evaluated according to a log of calls. -/
def branches_evaluated {N E : Type} : List (if_call N E) → List (List N)
  | [] => []
  | if_call.children g :: rest => g :: branches_evaluated rest
  | if_call.expression _ _ :: rest => branches_evaluated rest

/-- The log entries for testing the given conditions in order. -/
def condition_calls {N E : Type} (conditions : List (E × parse_location)) : List (if_call N E) :=
  conditions.map (fun p => if_call.expression p.1 p.2)

/-- The statement "each of these conditions, tested in order, evaluates without error to a
falsy value": the context left by the last one when that is so, `none` otherwise. -/
def all_falsy {E σ : Type} (truthy : datum → Bool)
    (ee : σ → E → parse_location → result σ datum) : List (E × parse_location) → σ → Option σ
  | [], context => some context
  | (e, l) :: rest, context =>
    match ee context e l with
    | (Except.ok v, context1) => if truthy v then none else all_falsy truthy ee rest context1
    | (Except.error _, _) => none

/-- A condition evaluator for concrete evaluations: every expression is a literal datum
that evaluates to itself and leaves the context alone. -/
def literal_condition {σ : Type} : σ → datum → parse_location → result σ datum :=
  fun context e _ => (Except.ok e, context)

/-- A children evaluator for concrete evaluations: the context is the output text and
every child is a text node that writes its text. -/
def write_texts : List Char → List veer_string_node → result (List Char) datum :=
  fun output children => (Except.ok datum.undefined, output ++ (children.map (fun n => n.text)).flatten)

/-- The If node of the example "conditions false, true, true plus an else branch": its
four children groups hold the texts a, b, c and d. -/
def example_if_false_true_true_else : veer_if_node veer_string_node datum :=
  { location := ⟨"f", 1, 1⟩
    children_groups := [[⟨⟨"f", 1, 9⟩, ['a']⟩], [⟨⟨"f", 2, 9⟩, ['b']⟩],
                        [⟨⟨"f", 3, 9⟩, ['c']⟩], [⟨⟨"f", 4, 9⟩, ['d']⟩]]
    expressions := [datum.boolean false, datum.boolean true, datum.boolean true]
    expression_locations := [⟨"f", 1, 1⟩, ⟨"f", 2, 1⟩, ⟨"f", 3, 1⟩] }

/-- An If node with the two conditions false and undefined, and no else branch. -/
def example_if_false_undefined : veer_if_node veer_string_node datum :=
  { location := ⟨"f", 1, 1⟩
    children_groups := [[⟨⟨"f", 1, 9⟩, ['a']⟩], [⟨⟨"f", 2, 9⟩, ['b']⟩]]
    expressions := [datum.boolean false, datum.undefined]
    expression_locations := [⟨"f", 1, 1⟩, ⟨"f", 2, 1⟩] }

/-- An If node with the single condition false and an else branch. -/
def example_if_false_else : veer_if_node veer_string_node datum :=
  { location := ⟨"f", 1, 1⟩
    children_groups := [[⟨⟨"f", 1, 9⟩, ['a']⟩], [⟨⟨"f", 2, 9⟩, ['b']⟩]]
    expressions := [datum.boolean false]
    expression_locations := [⟨"f", 1, 1⟩] }

/-! ## formula_logical_and_node -/

/-- Node `formula_logical_and_node`, with the operands of its base class
`formula_binary_operator_node`.  `F` is the type of the operands
(`std::unique_ptr<formula_node>`). -/
structure formula_logical_and_node (F : Type) where
  location : parse_location
  lhs : F
  rhs : F

/-- Member `formula_logical_and_node::evaluate`.  `truthy` is the conversion of a datum to
`bool`, `operand_evaluate` the virtual `formula_node::evaluate` of the operands. -/
def formula_logical_and_node.evaluate {F σ : Type} (truthy : datum → Bool)
    (operand_evaluate : σ → F → result σ datum)
    (node : formula_logical_and_node F) (context : σ) : result σ datum :=
  match operand_evaluate context node.lhs with
  | (Except.error e, context1) => (Except.error e, context1)
  | (Except.ok lhs_, context1) =>
    if truthy lhs_ then
      operand_evaluate context1 node.rhs
    else
      (Except.ok lhs_, context1)

/-- The operand evaluator, made to note each operand it is called on at the end of a log
kept next to the context. -/
def recording_operand {F σ : Type} (operand_evaluate : σ → F → result σ datum) :
    σ × List F → F → result (σ × List F) datum :=
  fun s x => ((operand_evaluate s.1 x).1, ((operand_evaluate s.1 x).2, s.2 ++ [x]))

/-- The operands `formula_logical_and_node::evaluate` evaluates, in order. -/
def formula_logical_and_node.operands_evaluated {F σ : Type} (truthy : datum → Bool)
    (operand_evaluate : σ → F → result σ datum)
    (node : formula_logical_and_node F) (context : σ) : List F :=
  (formula_logical_and_node.evaluate truthy (recording_operand operand_evaluate) node
    (context, [])).2.2

/-- An operand evaluator for concrete evaluations: the operand `some v` yields `v`, the
operand `none` raises; the context counts the evaluations. -/
def counting_operand : Nat → Option datum → result Nat datum
  | count, some v => (Except.ok v, count + 1)
  | count, none => (Except.error (invalid_operation_error "operand raised"), count + 1)

/-! ## veer_block_node and stencil_block_node -/

/-- The type `function_type` of the post-process context: a callable taking the evaluation
context and an argument vector. -/
abbrev function_type (σ : Type) : Type := σ → List datum → result σ datum

/-- Node `veer_block_node`.  `N` is the type of the child nodes, `σ` the type of the
evaluation context.  An empty `std::function` is `none`. -/
structure veer_block_node (N σ : Type) where
  location : parse_location
  name : String
  children : List N
  function : Option (function_type σ)
  super_function : Option (function_type σ)

/-- Member `veer_block_node::evaluate`. -/
def veer_block_node.evaluate {N σ : Type} (node : veer_block_node N σ) (context : σ) :
    result σ datum :=
  match node.function with
  | none =>
    (Except.error { cls := exception_class.bad_function_call, message := "bad_function_call",
                    location := none }, context)
  | some function =>
    match function context [] with
    | (Except.error e, context1) =>
      if e.cls = exception_class.invalid_operation_error then
        (Except.error (e.merge_location node.location), context1)
      else
        (Except.error e, context1)
    | (Except.ok tmp, context1) =>
      if tmp.is_break then
        (Except.error ((invalid_operation_error
          "Found #break not inside a loop statement.").set_location node.location), context1)
      else if tmp.is_continue then
        (Except.error ((invalid_operation_error
          "Found #continue not inside a loop statement.").set_location node.location), context1)
      else if tmp.is_undefined then
        (Except.ok datum.undefined, context1)
      else
        (Except.error ((invalid_operation_error
          "Can not use a #return statement inside a #block.").set_location node.location),
          context1)

/-- Node `stencil_block_node`: stencil_block_node.hpp is veer_block_node.hpp with
`stencil_node` for `veer_node` and `formula_` for `expression_` in the type names. -/
abbrev stencil_block_node (N σ : Type) : Type := veer_block_node N σ

/-- Member `stencil_block_node::evaluate`, the same text as `veer_block_node::evaluate`. -/
def stencil_block_node.evaluate {N σ : Type} (node : stencil_block_node N σ) (context : σ) :
    result σ datum :=
  veer_block_node.evaluate node context

/-- A block whose resolved function yields Break and leaves the context alone. -/
def example_block_break : veer_block_node veer_string_node (List Char) :=
  { location := ⟨"f", 7, 1⟩
    name := "x"
    children := []
    function := some (fun context _ => (Except.ok datum.break_, context))
    super_function := none }

/-! ## Evaluation context -/

/-- Modelled from the spec: one frame of the variable scope, "a mapping from name to
Value" (the scope type is declared outside the embedded files). -/
abbrev scope : Type := List (String × datum)

/-- Modelled from the spec: the runtime evaluation context (`expression_evaluation_context`,
declared outside the embedded files), "a stack of variable scopes and an output sink".  The
innermost frame is the head of `local_stack`. -/
structure expression_evaluation_context where
  output : List Char
  local_stack : List scope

/-- Modelled from the spec: `context.write(text)` of the evaluation context, which writes
the text "verbatim to the output sink". -/
def expression_evaluation_context.write (context : expression_evaluation_context)
    (text : List Char) : expression_evaluation_context :=
  { context with output := context.output ++ text }

/-- Modelled from the spec: `context.push()` of the evaluation context, which pushes "a new
scope frame". -/
def expression_evaluation_context.push (context : expression_evaluation_context) :
    expression_evaluation_context :=
  { context with local_stack := [] :: context.local_stack }

/-- Modelled from the spec: `context.pop()` of the evaluation context, which "pops the
frame": the innermost frame is removed.  The spec does not say what a pop on an empty stack
does; here it leaves the empty stack, and no theorem below pops an empty stack. -/
def expression_evaluation_context.pop (context : expression_evaluation_context) :
    expression_evaluation_context :=
  { context with local_stack := context.local_stack.tail }

/-- The stencil files name the evaluation context `formula_evaluation_context`. -/
abbrev formula_evaluation_context : Type := expression_evaluation_context

/-- Member `veer_string_node::evaluate`. -/
def veer_string_node.evaluate (node : veer_string_node)
    (context : expression_evaluation_context) : result expression_evaluation_context datum :=
  (Except.ok datum.undefined, context.write node.text)

/-- A children evaluator for concrete evaluations on the evaluation context: every child is
a text node and the children are evaluated in order. -/
def evaluate_text_children : expression_evaluation_context → List veer_string_node →
    result expression_evaluation_context datum
  | context, [] => (Except.ok datum.undefined, context)
  | context, child :: rest => evaluate_text_children (child.evaluate context).2 rest

/-! ## veer_if_node: the structural builders -/

/-- Constructor `veer_if_node(location, expression)`. -/
def veer_if_node.construct {N E : Type} (location : parse_location) (expression : E) :
    veer_if_node N E :=
  { location := location
    children_groups := [[]]
    expressions := [expression]
    expression_locations := [location] }

/-- Member `veer_if_node::found_elif`: the returned flag and the node afterwards. -/
def veer_if_node.found_elif {N E : Type} (node : veer_if_node N E)
    (_location : parse_location) (expression : E) : Bool × veer_if_node N E :=
  if node.children_groups.length ≠ node.expressions.length then
    (false, node)
  else
    (true, { node with
      expressions := node.expressions ++ [expression]
      expression_locations := node.expression_locations ++ [_location]
      children_groups := node.children_groups ++ [[]] })

/-- Member `veer_if_node::found_else`: the returned flag and the node afterwards. -/
def veer_if_node.found_else {N E : Type} (node : veer_if_node N E)
    (_location : parse_location) : Bool × veer_if_node N E :=
  if node.children_groups.length ≠ node.expressions.length then
    (false, node)
  else
    (true, { node with children_groups := node.children_groups ++ [[]] })

/-- Member `veer_if_node::append`: the returned flag and the node afterwards.
`append_child` is the static helper of `veer_node` that adds a child to a child sequence;
it is handed `children_groups.back()`, which does not exist for an empty vector. -/
def veer_if_node.append {N E : Type} (append_child : List N → N → List N)
    (node : veer_if_node N E) (x : N) : Option (Bool × veer_if_node N E) :=
  match node.children_groups.getLast? with
  | none => none
  | some back =>
    some (true, { node with
      children_groups := node.children_groups.dropLast ++ [append_child back x] })

/-! ## stencil_top_node -/

/-- Whether an exception class derives from the engine's `error`, so that `catch (error &e)`
catches it. -/
def exception_class.is_error : exception_class → Bool
  | exception_class.bad_function_call => false
  | _ => true

/-- Node `stencil_top_node`.  `N` is the type of the child nodes. -/
structure stencil_top_node (N : Type) where
  location : parse_location
  children : List N

/-- Member `stencil_top_node::evaluate`.  `evaluate_children` is the static helper of
`stencil_node`. -/
def stencil_top_node.evaluate {N σ : Type} (evaluate_children : σ → List N → result σ datum)
    (node : stencil_top_node N) (context : σ) : result σ datum :=
  match evaluate_children context node.children with
  | (Except.ok value, context1) => (Except.ok value, context1)
  | (Except.error e, context1) =>
    if e.cls.is_error then
      (Except.error (e.merge_location node.location), context1)
    else
      (Except.error e, context1)

/-! ## veer_block_node and stencil_block_node: evaluate_call -/

/-- Member `veer_block_node::evaluate_call`.  `evaluate_children` is the static helper of
`veer_node`.  When the children raise, the exception leaves the function at once: the
`context.pop()` after the call is not reached. -/
def veer_block_node.evaluate_call {N : Type}
    (evaluate_children : expression_evaluation_context → List N →
      result expression_evaluation_context datum)
    (node : veer_block_node N expression_evaluation_context)
    (context : expression_evaluation_context) (_arguments : List datum) :
    result expression_evaluation_context datum :=
  match evaluate_children context.push node.children with
  | (Except.error e, context1) => (Except.error e, context1)
  | (Except.ok tmp, context1) =>
    if tmp.is_break then
      (Except.error ((invalid_operation_error
        "Found #break not inside a loop statement.").set_location node.location),
        context1.pop)
    else if tmp.is_continue then
      (Except.error ((invalid_operation_error
        "Found #continue not inside a loop statement.").set_location node.location),
        context1.pop)
    else if tmp.is_undefined then
      (Except.ok datum.undefined, context1.pop)
    else
      (Except.error ((invalid_operation_error
        "Can not use a #return statement inside a #block.").set_location node.location),
        context1.pop)

/-- Member `stencil_block_node::evaluate_call`, the same text as
`veer_block_node::evaluate_call`. -/
def stencil_block_node.evaluate_call {N : Type}
    (evaluate_children : formula_evaluation_context → List N →
      result formula_evaluation_context datum)
    (node : stencil_block_node N formula_evaluation_context)
    (context : formula_evaluation_context) (arguments : List datum) :
    result formula_evaluation_context datum :=
  veer_block_node.evaluate_call evaluate_children node context arguments

/-! ## Post-process context -/

/-- Modelled from the spec: the post-process context (`expression_post_process_context`,
declared outside the embedded files), "a name→function registry with a super stack".
`functions` gives the function registered under a name, if there is one; the head of
`super_stack` is its top. -/
structure expression_post_process_context (σ : Type) where
  functions : String → Option (function_type σ)
  super_stack : List (Option (function_type σ))

/-- Modelled from the spec: `set_function(name, fn) -> previous_fn_or_none` "registers a
block's callable under `name`, returning whatever was registered under that name before
(possibly none)". -/
def expression_post_process_context.set_function {σ : Type}
    (context : expression_post_process_context σ) (name : String) (fn : function_type σ) :
    Option (function_type σ) × expression_post_process_context σ :=
  (context.functions name,
   { context with functions := fun n => if n = name then some fn else context.functions n })

/-- Modelled from the spec: `get_function(name) -> fn` fetches "the final
(last-registered-wins) function for a name"; for a name never registered the answer is
`none`, the empty function the `tt_assert` of `post_process` rejects. -/
def expression_post_process_context.get_function {σ : Type}
    (context : expression_post_process_context σ) (name : String) :
    Option (function_type σ) :=
  context.functions name

/-- Modelled from the spec: `push_super(fn)` puts the function on the super stack. -/
def expression_post_process_context.push_super {σ : Type}
    (context : expression_post_process_context σ) (fn : Option (function_type σ)) :
    expression_post_process_context σ :=
  { context with super_stack := fn :: context.super_stack }

/-- Modelled from the spec: `pop_super()` removes the top of the super stack; "a pop with
an empty stack is a fatal programming-invariant violation", which is `none` here. -/
def expression_post_process_context.pop_super {σ : Type}
    (context : expression_post_process_context σ) :
    Option (expression_post_process_context σ) :=
  match context.super_stack with
  | [] => none
  | _ :: rest => some { context with super_stack := rest }

/-- The stencil files name the post-process context `formula_post_process_context`. -/
abbrev formula_post_process_context (σ : Type) : Type := expression_post_process_context σ

/-! ## veer_block_node and stencil_block_node: construction and post_process -/

/-- Constructor `veer_block_node(location, context, name_expression)`: the new node and
the post-process context afterwards.  `name` is `name_expression->get_name()`.  `body` is
the lambda handed to `set_function`: it captures `this` by reference, so what it does is
`evaluate_call` on the node as it is when the lambda is called, not as it is here. -/
def veer_block_node.construct {N σ : Type} (location : parse_location)
    (context : expression_post_process_context σ) (name : String) (body : function_type σ) :
    veer_block_node N σ × expression_post_process_context σ :=
  ({ location := location
     name := name
     children := []
     function := none
     super_function := (context.set_function name body).1 },
   (context.set_function name body).2)

/-- The statement `if (ssize(children) > 0) { children.back()->left_align(); }` that opens
every `post_process`.  `child_left_align` is the virtual `left_align` of the children. -/
def left_align_last {N : Type} (child_left_align : N → N) (children : List N) : List N :=
  match children.getLast? with
  | none => children
  | some back => children.dropLast ++ [child_left_align back]

/-- The loop `for (child: children) { child->post_process(context); }`.
`child_post_process` is the virtual `post_process` of the children: it may change the child
and the context and may raise; a raise ends the loop. -/
def post_process_children {N P : Type} (child_post_process : N → P → result (N × P) Unit) :
    List N → P → result (List N × P) Unit
  | [], context => (Except.ok (), ([], context))
  | child :: rest, context =>
    match child_post_process child context with
    | (Except.error e, (child1, context1)) => (Except.error e, (child1 :: rest, context1))
    | (Except.ok _, (child1, context1)) =>
      match post_process_children child_post_process rest context1 with
      | (r, (rest1, context2)) => (r, (child1 :: rest1, context2))

/-- Member `veer_block_node::post_process`: what it returned or raised, the node and the
context afterwards.  The answer is `none` when the `tt_assert(function)` fails or
`pop_super` meets an empty stack.  When a child raises, the exception leaves the function
at once: `context.pop_super()` is not reached. -/
def veer_block_node.post_process {N σ : Type} (child_left_align : N → N)
    (child_post_process : N → expression_post_process_context σ →
      result (N × expression_post_process_context σ) Unit)
    (node : veer_block_node N σ) (context : expression_post_process_context σ) :
    Option (result (veer_block_node N σ × expression_post_process_context σ) Unit) :=
  let children0 := left_align_last child_left_align node.children
  match context.get_function node.name with
  | none => none
  | some function =>
    match post_process_children child_post_process children0
        (context.push_super node.super_function) with
    | (Except.error e, (children1, context1)) =>
      some (Except.error e,
        ({ node with children := children1, function := some function }, context1))
    | (Except.ok _, (children1, context1)) =>
      match context1.pop_super with
      | none => none
      | some context2 =>
        some (Except.ok (),
          ({ node with children := children1, function := some function }, context2))

/-- Constructor `stencil_block_node(...)`, the same text as that of `veer_block_node`. -/
def stencil_block_node.construct {N σ : Type} (location : parse_location)
    (context : formula_post_process_context σ) (name : String) (body : function_type σ) :
    stencil_block_node N σ × formula_post_process_context σ :=
  veer_block_node.construct location context name body

/-- Member `stencil_block_node::post_process`, the same text as
`veer_block_node::post_process`. -/
def stencil_block_node.post_process {N σ : Type} (child_left_align : N → N)
    (child_post_process : N → formula_post_process_context σ →
      result (N × formula_post_process_context σ) Unit)
    (node : stencil_block_node N σ) (context : formula_post_process_context σ) :
    Option (result (stencil_block_node N σ × formula_post_process_context σ) Unit) :=
  veer_block_node.post_process child_left_align child_post_process node context

/-- The children's `post_process`, made to note each call (the child and the context it is
called with) at the end of a log kept next to the context. -/
def recording_post_process {N P : Type} (child_post_process : N → P → result (N × P) Unit) :
    N → P × List (N × P) → result (N × (P × List (N × P))) Unit :=
  fun child s =>
    ((child_post_process child s.1).1,
     ((child_post_process child s.1).2.1,
      ((child_post_process child s.1).2.2, s.2 ++ [(child, s.1)])))

/-- The calls of the children's `post_process` the loop makes, in order: each child visited
with the context it was visited in. -/
def children_visited {N P : Type} (child_post_process : N → P → result (N × P) Unit)
    (children : List N) (context : P) : List (N × P) :=
  (post_process_children (recording_post_process child_post_process) children
    (context, [])).2.2.2

/-- A `post_process` of children for concrete evaluations: the children are text nodes,
which have nothing to post-process. -/
def text_post_process {P : Type} : veer_string_node → P → result (veer_string_node × P) Unit :=
  fun child context => (Except.ok (), (child, context))

/-! ## post_process of stencil_top_node and veer_if_node -/

/-- Member `stencil_top_node::post_process`: what it returned or raised, the node and the
context afterwards.  `child_left_align` and `child_post_process` are the virtual
`left_align` and `post_process` of the children. -/
def stencil_top_node.post_process {N P : Type} (child_left_align : N → N)
    (child_post_process : N → P → result (N × P) Unit)
    (node : stencil_top_node N) (context : P) : result (stencil_top_node N × P) Unit :=
  match post_process_children child_post_process
      (left_align_last child_left_align node.children) context with
  | (r, (children1, context1)) => (r, ({ node with children := children1 }, context1))

/-- The first loop of `veer_if_node::post_process`, over the expressions.  The first
numeric argument counts the iterations still to run, the second is `i`.
`post_process_expression` is the static helper of `veer_node`: it may change the
expression and the context and may raise. -/
def veer_if_node.post_process_expressions {E P : Type}
    (post_process_expression : E → parse_location → P → result (E × P) Unit) :
    Nat → Nat → List E → List parse_location → P → Option (result (List E × P) Unit)
  | 0, _, expressions, _, context => some (Except.ok (), (expressions, context))
  | remaining + 1, i, expressions, expression_locations, context =>
    match expressions[i]?, expression_locations[i]? with
    | some expression, some expression_location =>
      match post_process_expression expression expression_location context with
      | (Except.error e, (expression1, context1)) =>
        some (Except.error e, (expressions.set i expression1, context1))
      | (Except.ok _, (expression1, context1)) =>
        veer_if_node.post_process_expressions post_process_expression remaining (i + 1)
          (expressions.set i expression1) expression_locations context1
    | _, _ => none

/-- The second loop of `veer_if_node::post_process`, over the children groups: for each
group the last child is left-aligned and then the children are post-processed. -/
def veer_if_node.post_process_groups {N P : Type} (child_left_align : N → N)
    (child_post_process : N → P → result (N × P) Unit) :
    List (List N) → P → result (List (List N) × P) Unit
  | [], context => (Except.ok (), ([], context))
  | children :: rest, context =>
    match post_process_children child_post_process
        (left_align_last child_left_align children) context with
    | (Except.error e, (children1, context1)) =>
      (Except.error e, (children1 :: rest, context1))
    | (Except.ok _, (children1, context1)) =>
      match veer_if_node.post_process_groups child_left_align child_post_process rest
          context1 with
      | (r, (rest1, context2)) => (r, (children1 :: rest1, context2))

/-- Member `veer_if_node::post_process`: what it returned or raised, the node and the
context afterwards; `none` when the `tt_assert` on the two lengths fails. -/
def veer_if_node.post_process {N E P : Type}
    (post_process_expression : E → parse_location → P → result (E × P) Unit)
    (child_left_align : N → N) (child_post_process : N → P → result (N × P) Unit)
    (node : veer_if_node N E) (context : P) : Option (result (veer_if_node N E × P) Unit) :=
  if node.expressions.length = node.expression_locations.length then
    match veer_if_node.post_process_expressions post_process_expression
        node.expressions.length 0 node.expressions node.expression_locations context with
    | none => none
    | some (Except.error e, (expressions1, context1)) =>
      some (Except.error e, ({ node with expressions := expressions1 }, context1))
    | some (Except.ok _, (expressions1, context1)) =>
      match veer_if_node.post_process_groups child_left_align child_post_process
          node.children_groups context1 with
      | (r, (groups1, context2)) =>
        some (r, ({ node with expressions := expressions1, children_groups := groups1 },
          context2))
  else
    none

/-- The helper `post_process_expression` on a context that carries a log of visited
children next to it: the log is passed on as it is. -/
def beside_log {N E P : Type}
    (post_process_expression : E → parse_location → P → result (E × P) Unit) :
    E → parse_location → P × List (N × P) → result (E × (P × List (N × P))) Unit :=
  fun e l s =>
    ((post_process_expression e l s.1).1,
     ((post_process_expression e l s.1).2.1, ((post_process_expression e l s.1).2.2, s.2)))

/-- The children `stencil_top_node::post_process` post-processes, in order, each as it is
when its `post_process` is called. -/
def stencil_top_node.visited {N P : Type} (child_left_align : N → N)
    (child_post_process : N → P → result (N × P) Unit)
    (node : stencil_top_node N) (context : P) : List N :=
  ((stencil_top_node.post_process child_left_align
    (recording_post_process child_post_process) node (context, [])).2.2.2).map Prod.fst

/-- The children `veer_if_node::post_process` post-processes, in order, each as it is when
its `post_process` is called. -/
def veer_if_node.visited {N E P : Type}
    (post_process_expression : E → parse_location → P → result (E × P) Unit)
    (child_left_align : N → N) (child_post_process : N → P → result (N × P) Unit)
    (node : veer_if_node N E) (context : P) : Option (List N) :=
  (veer_if_node.post_process (beside_log post_process_expression) child_left_align
    (recording_post_process child_post_process) node (context, [])).map
      (fun r => r.2.2.2.map Prod.fst)

/-- An expression post-processor for concrete evaluations: nothing to do. -/
def no_post_process_expression {E P : Type} : E → parse_location → P → result (E × P) Unit :=
  fun e _ context => (Except.ok (), (e, context))

/-! ## Documents of Text nodes and If nodes over Text nodes -/

/-- Modelled from the spec: the static helper `evaluate_children` of the node base class
(`veer_node.hpp` and `stencil_node.hpp` are not among the files): it "runs all children in
order", a child that raises ends the run with its error, and the control signal or value of
a child that does not yield Undefined is what the run returns at once ("checked after every
child evaluation"); otherwise the aggregate is Undefined.  `child_evaluate` is the virtual
`evaluate` of the children, `none` where it has no defined behaviour. -/
def evaluate_children {N σ : Type} (child_evaluate : σ → N → Option (result σ datum)) :
    σ → List N → Option (result σ datum)
  | context, [] => some (Except.ok datum.undefined, context)
  | context, child :: rest =>
    match child_evaluate context child with
    | none => none
    | some (Except.error e, context1) => some (Except.error e, context1)
    | some (Except.ok value, context1) =>
      if value.is_undefined then
        evaluate_children child_evaluate context1 rest
      else
        some (Except.ok value, context1)

/-- A child of a document: a Text node, or an If node whose children are Text nodes. -/
inductive document_child (E : Type) where
  | text (node : veer_string_node) : document_child E
  | if_node (node : veer_if_node veer_string_node E) : document_child E

/-- The virtual call `child->evaluate(context)` on a child of a document: the `evaluate` of
the Text node, or that of the If node with `evaluate_children` running over Text nodes. -/
def document_child.evaluate {E : Type} (truthy : datum → Bool)
    (evaluate_expression_without_output : expression_evaluation_context → E →
      parse_location → result expression_evaluation_context datum)
    (context : expression_evaluation_context) :
    document_child E → Option (result expression_evaluation_context datum)
  | document_child.text node => some (node.evaluate context)
  | document_child.if_node node =>
    veer_if_node.evaluate truthy evaluate_expression_without_output evaluate_text_children
      node context

/-- The branch of an If-chain the spec selects: "the first truthy one's children"; "if none
are truthy, the else branch (if present)"; no children "if neither".  `value` gives the
value of a condition; the children groups are matched with the conditions in order, the
group left over after the last condition is the else branch. -/
def selected_branch {N E : Type} (truthy : datum → Bool) (value : E → datum) :
    List E → List (List N) → List N
  | [], groups => groups.headD []
  | e :: rest, groups =>
    if truthy (value e) then groups.headD []
    else selected_branch truthy value rest groups.tail

/-- The text a child of a document is expected to write: the text of a Text node, the texts
of the selected branch of an If node. -/
def document_child.selected_text {E : Type} (truthy : datum → Bool) (value : E → datum) :
    document_child E → List Char
  | document_child.text node => node.text
  | document_child.if_node node =>
    ((selected_branch truthy value node.expressions node.children_groups).map
      (fun n => n.text)).flatten

/-- A Top-level children evaluator for concrete evaluations of documents: the modelled
`evaluate_children` over the children of a document whose conditions are literals. -/
def evaluate_document_children : expression_evaluation_context →
    List (document_child datum) → result expression_evaluation_context datum :=
  fun context children =>
    (evaluate_children (document_child.evaluate datum.to_bool literal_condition) context
      children).getD (Except.ok datum.undefined, context)

/-- The document of the scenario: Top[Text("Hello "), If(true, [Text("World")],
else [Text("Nobody")])]. -/
def example_hello_world : stencil_top_node (document_child datum) :=
  { location := ⟨"f", 1, 1⟩
    children :=
      [document_child.text ⟨⟨"f", 1, 1⟩, ['H', 'e', 'l', 'l', 'o', ' ']⟩,
       document_child.if_node
         { location := ⟨"f", 1, 7⟩
           children_groups := [[⟨⟨"f", 1, 9⟩, ['W', 'o', 'r', 'l', 'd']⟩],
                               [⟨⟨"f", 2, 9⟩, ['N', 'o', 'b', 'o', 'd', 'y']⟩]]
           expressions := [datum.boolean true]
           expression_locations := [⟨"f", 1, 7⟩] }] }

/-! ## evaluate on a document held in a store -/

/-- Node `veer_block_node` as it lies in a document store.  A child pointer is the position
of the child in the store.  A `std::function` member is empty (`none`) or holds the lambda
of the Block constructor, `[&](context, arguments) { return this->evaluate_call(context,
arguments); }`, which is kept as the position of the Block that `this` points at. -/
structure stored_block_node where
  location : parse_location
  name : String
  children : List Nat
  function : Option Nat
  super_function : Option Nat
deriving DecidableEq, Repr

/-- A document node in the store: one of the four node kinds, its child pointers being
positions in the store.  `E` is the type of the condition expressions. -/
inductive stored_node (E : Type) where
  | text (node : veer_string_node) : stored_node E
  | if_node (node : veer_if_node Nat E) : stored_node E
  | block (node : stored_block_node) : stored_node E
  | top (node : stencil_top_node Nat) : stored_node E

/-- Everything a call of `evaluate` can reach: the evaluation context and the nodes of the
document.  A member function is handed the whole of it and hands the whole of it back, so
that an assignment to a member of any node would show in `nodes`. -/
structure document (E : Type) where
  context : expression_evaluation_context
  nodes : List (stored_node E)

/-- Member `veer_block_node::evaluate_call` on the Block at position `this` of the store.
`child_evaluate` is the virtual `evaluate` of the children.  The members `children` and
`location` are read where the code reads them: `children` before the call of
`evaluate_children`, `location` after it. -/
def document.evaluate_call {E : Type}
    (child_evaluate : document E → Nat → Option (result (document E) datum))
    (d : document E) (this : Nat) (_arguments : List datum) :
    Option (result (document E) datum) :=
  match d.nodes[this]? with
  | some (stored_node.block node) =>
    match evaluate_children child_evaluate { d with context := d.context.push }
        node.children with
    | none => none
    | some (Except.error e, d1) => some (Except.error e, d1)
    | some (Except.ok tmp, d1) =>
      match d1.nodes[this]? with
      | some (stored_node.block node1) =>
        if tmp.is_break then
          some (Except.error ((invalid_operation_error
            "Found #break not inside a loop statement.").set_location node1.location),
            { d1 with context := d1.context.pop })
        else if tmp.is_continue then
          some (Except.error ((invalid_operation_error
            "Found #continue not inside a loop statement.").set_location node1.location),
            { d1 with context := d1.context.pop })
        else if tmp.is_undefined then
          some (Except.ok datum.undefined, { d1 with context := d1.context.pop })
        else
          some (Except.error ((invalid_operation_error
            "Can not use a #return statement inside a #block.").set_location
              node1.location), { d1 with context := d1.context.pop })
      | _ => none
  | _ => none

/-- The `for` loop and the code after it of `veer_if_node::evaluate` on the If node at
position `this` of the store; the members are read anew in every iteration, as the code
does.  The first numeric argument counts the iterations still to run, the second is `i`.
`evaluate_expression_without_output` is the static helper of `veer_node`. -/
def document.evaluate_loop {E : Type} (truthy : datum → Bool)
    (evaluate_expression_without_output :
      document E → E → parse_location → result (document E) datum)
    (child_evaluate : document E → Nat → Option (result (document E) datum))
    (this : Nat) : Nat → Nat → document E → Option (result (document E) datum)
  | 0, _, d =>
    match d.nodes[this]? with
    | some (stored_node.if_node node) =>
      if node.children_groups.length > node.expressions.length then
        match node.children_groups[node.expressions.length]? with
        | some children => evaluate_children child_evaluate d children
        | none => none
      else
        some (Except.ok datum.undefined, d)
    | _ => none
  | remaining + 1, i, d =>
    match d.nodes[this]? with
    | some (stored_node.if_node node) =>
      match node.expressions[i]?, node.expression_locations[i]? with
      | some expression, some expression_location =>
        match evaluate_expression_without_output d expression expression_location with
        | (Except.error e, d1) => some (Except.error e, d1)
        | (Except.ok condition, d1) =>
          if truthy condition then
            match d1.nodes[this]? with
            | some (stored_node.if_node node1) =>
              match node1.children_groups[i]? with
              | some children => evaluate_children child_evaluate d1 children
              | none => none
            | _ => none
          else
            document.evaluate_loop truthy evaluate_expression_without_output child_evaluate
              this remaining (i + 1) d1
      | _, _ => none
    | _ => none

/-- The virtual member `evaluate` on the node at position `this` of the store: the bodies
of `veer_string_node::evaluate`, `veer_if_node::evaluate`, `veer_block_node::evaluate` and
`stencil_top_node::evaluate`, each handed the whole document and handing it back.  The
first argument bounds the depth of the calls; the answer is `none` when the bound is
reached, when a pointer leads outside the store or to a node of another kind than the code
expects, or when an assertion of the code fails. -/
def document.evaluate {E : Type} (truthy : datum → Bool)
    (evaluate_expression_without_output :
      document E → E → parse_location → result (document E) datum) :
    Nat → document E → Nat → Option (result (document E) datum)
  | 0, _, _ => none
  | depth + 1, d, this =>
    match d.nodes[this]? with
    | none => none
    | some (stored_node.text node) =>
      match node.evaluate d.context with
      | (r, context1) => some (r, { d with context := context1 })
    | some (stored_node.if_node node) =>
      if node.expressions.length = node.expression_locations.length then
        document.evaluate_loop truthy evaluate_expression_without_output
          (document.evaluate truthy evaluate_expression_without_output depth) this
          node.expressions.length 0 d
      else
        none
    | some (stored_node.top node) =>
      match evaluate_children
          (document.evaluate truthy evaluate_expression_without_output depth) d
          node.children with
      | none => none
      | some (Except.ok value, d1) => some (Except.ok value, d1)
      | some (Except.error e, d1) =>
        match d1.nodes[this]? with
        | some (stored_node.top node1) =>
          if e.cls.is_error then
            some (Except.error (e.merge_location node1.location), d1)
          else
            some (Except.error e, d1)
        | _ => none
    | some (stored_node.block node) =>
      match node.function with
      | none =>
        some (Except.error { cls := exception_class.bad_function_call,
                             message := "bad_function_call", location := none }, d)
      | some callee =>
        match document.evaluate_call
            (document.evaluate truthy evaluate_expression_without_output depth) d callee
            [] with
        | none => none
        | some (r, d1) =>
          match d1.nodes[this]? with
          | some (stored_node.block node1) =>
            match r with
            | Except.error e =>
              if e.cls = exception_class.invalid_operation_error then
                some (Except.error (e.merge_location node1.location), d1)
              else
                some (Except.error e, d1)
            | Except.ok tmp =>
              if tmp.is_break then
                some (Except.error ((invalid_operation_error
                  "Found #break not inside a loop statement.").set_location
                    node1.location), d1)
              else if tmp.is_continue then
                some (Except.error ((invalid_operation_error
                  "Found #continue not inside a loop statement.").set_location
                    node1.location), d1)
              else if tmp.is_undefined then
                some (Except.ok datum.undefined, d1)
              else
                some (Except.error ((invalid_operation_error
                  "Can not use a #return statement inside a #block.").set_location
                    node1.location), d1)
          | _ => none

/-- The helper `evaluate_expression_without_output` for the examples, on a document: the
expression is a literal datum and evaluates to itself. -/
def literal_condition_in_document :
    document datum → datum → parse_location → result (document datum) datum :=
  fun d e _ => (Except.ok e, d)

/-- The nodes of an example document: the Top node at position 0 holds the Text node
"Hello ", an If node with the condition true over "World" and the else branch "Nobody", and
a Block named "greet" over the Text node "Hi"; the Block is resolved to its own lambda. -/
def example_document_nodes : List (stored_node datum) :=
  [stored_node.top { location := ⟨"f", 1, 1⟩, children := [1, 2, 5] },
   stored_node.text ⟨⟨"f", 1, 1⟩, ['H', 'e', 'l', 'l', 'o', ' ']⟩,
   stored_node.if_node { location := ⟨"f", 1, 7⟩
                         children_groups := [[3], [4]]
                         expressions := [datum.boolean true]
                         expression_locations := [⟨"f", 1, 7⟩] },
   stored_node.text ⟨⟨"f", 1, 8⟩, ['W', 'o', 'r', 'l', 'd']⟩,
   stored_node.text ⟨⟨"f", 2, 9⟩, ['N', 'o', 'b', 'o', 'd', 'y']⟩,
   stored_node.block { location := ⟨"f", 3, 1⟩, name := "greet", children := [6],
                       function := some 5, super_function := none },
   stored_node.text ⟨⟨"f", 3, 9⟩, ['H', 'i']⟩]

/-! ## Evaluators and nodes for concrete evaluations -/

/-- The first datum of a list that is not Undefined, Undefined if there is none. -/
def first_defined : List datum → datum
  | [] => datum.undefined
  | d :: rest => if d.is_undefined then first_defined rest else d

/-- A children evaluator for concrete evaluations: every child is a datum that it yields,
the aggregate value is the first one that is not Undefined, the context is left alone. -/
def yield_children {σ : Type} : σ → List datum → result σ datum :=
  fun context children => (Except.ok (first_defined children), context)

/-- A children evaluator for concrete evaluations on the evaluation context: the child
`some t` is the text node `t`, the child `none` raises; the children are evaluated in order
up to the first that raises. -/
def evaluate_children_or_raise : expression_evaluation_context →
    List (Option veer_string_node) → result expression_evaluation_context datum
  | context, [] => (Except.ok datum.undefined, context)
  | context, some t :: rest => evaluate_children_or_raise (t.evaluate context).2 rest
  | context, none :: _ => (Except.error (invalid_operation_error "child raised"), context)

/-- A Top node whose only child yields Break. -/
def example_top_break : stencil_top_node datum :=
  { location := ⟨"f", 1, 1⟩, children := [datum.break_] }

/-- A block at line 7 whose only child yields the string "a" and whose resolved function
yields the string "a" too. -/
def example_block_string : veer_block_node datum expression_evaluation_context :=
  { location := ⟨"f", 7, 1⟩
    name := "x"
    children := [datum.string ['a']]
    function := some (fun context _ => (Except.ok (datum.string ['a']), context))
    super_function := none }

/-- A block whose two children are the text "a" and a child that raises. -/
def example_block_raising :
    veer_block_node (Option veer_string_node) expression_evaluation_context :=
  { location := ⟨"f", 7, 1⟩
    name := "x"
    children := [some ⟨⟨"f", 7, 9⟩, ['a']⟩, none]
    function := none
    super_function := none }

/-- A block whose only child is the text "b". -/
def example_block_text : veer_block_node veer_string_node expression_evaluation_context :=
  { location := ⟨"f", 7, 1⟩
    name := "x"
    children := [⟨⟨"f", 7, 9⟩, ['b']⟩]
    function := none
    super_function := none }

/-- Block A of the override example: named "x", with the text child "A". -/
def example_block_a : veer_block_node veer_string_node expression_evaluation_context :=
  { location := ⟨"a", 1, 1⟩
    name := "x"
    children := [⟨⟨"a", 1, 9⟩, ['A']⟩]
    function := none
    super_function := none }

/-- The body of block A: `evaluate_call` on block A. -/
def example_body_a : function_type expression_evaluation_context :=
  fun context arguments =>
    veer_block_node.evaluate_call evaluate_text_children example_block_a context arguments

/-- Block B of the override example: named "x" like block A, constructed after it, with
the text child "B". -/
def example_block_b : veer_block_node veer_string_node expression_evaluation_context :=
  { location := ⟨"b", 1, 1⟩
    name := "x"
    children := [⟨⟨"b", 1, 9⟩, ['B']⟩]
    function := none
    super_function := some example_body_a }

/-- The body of block B: `evaluate_call` on block B. -/
def example_body_b : function_type expression_evaluation_context :=
  fun context arguments =>
    veer_block_node.evaluate_call evaluate_text_children example_block_b context arguments

/-- A post-process context in which nothing is registered. -/
def empty_post_process_context (σ : Type) : expression_post_process_context σ :=
  { functions := fun _ => none, super_stack := [] }

/-- The post-process context after block A and then block B were constructed on the empty
one. -/
def example_registry : expression_post_process_context expression_evaluation_context :=
  (veer_block_node.construct (N := veer_string_node) ⟨"b", 1, 1⟩
    (veer_block_node.construct (N := veer_string_node) ⟨"a", 1, 1⟩
      (empty_post_process_context expression_evaluation_context) "x" example_body_a).2
    "x" example_body_b).2

/-- A block at line 7 whose resolved function raises a parse error that carries no
location. -/
def example_block_parse_error : veer_block_node veer_string_node (List Char) :=
  { location := ⟨"f", 7, 1⟩
    name := "x"
    children := []
    function := some (fun context _ =>
      (Except.error { cls := exception_class.parse_error, message := "unexpected token",
                      location := none }, context))
    super_function := none }

/-! ## huffman_tree -/

/-- Constructor `parse_error(message)`: no location yet. -/
def parse_error (message : String) : error :=
  { cls := exception_class.parse_error, message := message, location := none }

/-- Class `huffman_tree<T>`: the vector `tree`.  The vector is private: every entry was
stored by the constructor or by `add`, through `numeric_cast<T>` from an `int`, so an entry
is an integer that both `T` and `int` hold and reading it into an `int` keeps it. -/
structure huffman_tree where
  tree : List Int
deriving DecidableEq, Repr

/-- Constructor `huffman_tree()`: one node pair, both entries unassigned. -/
def huffman_tree.construct : huffman_tree :=
  { tree := [0, 0] }

/-- Member `huffman_tree::start`.  A state is a pointer into `tree`; it is kept as the
index it points at, counted from `tree.data()`. -/
def huffman_tree.start (_t : huffman_tree) : Int := 0

/-- The read `tree[offset]` or `*state` at an integer index: `none` outside the vector. -/
def huffman_tree.read (tree : List Int) (offset : Int) : Option Int :=
  if 0 ≤ offset then tree[offset.toNat]? else none

/-- The write `tree[offset] = value` at an integer index inside the vector. -/
def huffman_tree.write (tree : List Int) (offset : Int) (value : Int) : List Int :=
  tree.set offset.toNat value

/-- The expression `(code >> n) & 1`: bit `n` of `code` in two's complement. -/
def huffman_tree.code_bit (code : Int) (n : Nat) : Int :=
  (code >>> n) % 2

/-- Member `huffman_tree::get`: the returned value or the raised error, and the state
afterwards; `none` when the state points outside the vector. -/
def huffman_tree.get (t : huffman_tree) (code_bit : Bool) (state : Int) :
    Option (Except error Int × Int) :=
  match huffman_tree.read t.tree (state + (if code_bit then 1 else 0)) with
  | none => none
  | some value =>
    if value = 0 then
      some (Except.error (parse_error "Code not in huffman tree."),
        state + (if code_bit then 1 else 0))
    else
      some (Except.ok (value - 1), state + (if code_bit then 1 else 0) - value)

/-- The least value of `int`, which has 32 bits. -/
def int_min : Int := -2147483648

/-- The largest value of `int`, which has 32 bits. -/
def int_max : Int := 2147483647

/-- A number that `int` holds.  An `int` operation whose result `int` does not hold has no
defined behaviour. -/
def in_int (x : Int) : Prop := int_min ≤ x ∧ x ≤ int_max

/-- Whether `int` holds a number can be computed. -/
instance in_int_decidable (x : Int) : Decidable (in_int x) :=
  inferInstanceAs (Decidable (int_min ≤ x ∧ x ≤ int_max))

/-- The conversion `static_cast<int>(x)` of an integer of a wider type: the number itself
when `int` holds it, the number modulo 2^32 otherwise. -/
def static_cast_int (x : Int) : Int := (x - int_min) % 4294967296 + int_min

/-- What one turn of the loop of `huffman_tree::add` does once `offset += select` is done:
`int value = tree[offset]`, the `tt_assume(value <= 0)`, for `value == 0` the new node pair
(`value = -(static_cast<int>(ssize(tree)) - offset)`, `tree[offset] = numeric_cast<T>(value)`
and the two `push_back(0)`), and `offset -= value`.  The answer is `offset` and `tree`
afterwards, `none` when `tree[offset]` is outside the vector, when the `tt_assume` fails,
when `int` does not hold the result of an operation or when `numeric_cast<T>` fails.
`numeric_cast` is the function of `numeric_cast.hpp`, which is not among the files. -/
def huffman_tree.add_descend (numeric_cast : Int → Option Int) (offset : Int)
    (tree : List Int) : Option (Int × List Int) :=
  match huffman_tree.read tree offset with
  | none => none
  | some value =>
    if 0 < value then
      none
    else if value = 0 then
      if in_int (static_cast_int tree.length - offset) ∧
          in_int (-(static_cast_int tree.length - offset)) ∧
          in_int (offset - -(static_cast_int tree.length - offset)) then
        match numeric_cast (-(static_cast_int tree.length - offset)) with
        | none => none
        | some stored =>
          some (offset - -(static_cast_int tree.length - offset),
            huffman_tree.write tree offset stored ++ [0, 0])
      else
        none
    else if in_int (offset - value) then
      some (offset - value, tree)
    else
      none

/-- The `while (--code_length > 0)` loop of `huffman_tree::add`.  The first numeric
argument is the value `code_length` has after the decrement in the loop condition, which is
also the number of iterations still to run; then come `offset` and `tree`.  The shift
`code >> code_length` has no defined behaviour from a count of 32 on, and neither has
`offset += select` when `int` does not hold the sum: the answer is `none` there and where
`add_descend` answers `none`. -/
def huffman_tree.add_loop (numeric_cast : Int → Option Int) (code : Int) :
    Nat → Int → List Int → Option (Int × List Int)
  | 0, offset, tree => some (offset, tree)
  | code_length + 1, offset, tree =>
    if code_length + 1 < 32 ∧
        in_int (offset + huffman_tree.code_bit code (code_length + 1)) then
      match huffman_tree.add_descend numeric_cast
          (offset + huffman_tree.code_bit code (code_length + 1)) tree with
      | none => none
      | some (offset1, tree1) => huffman_tree.add_loop numeric_cast code code_length offset1 tree1
    else
      none

/-- Member `huffman_tree::add`: the tree afterwards.  The three arguments are `int`s: a
number that `int` does not hold cannot be passed.  The answer is `none` there, when one of
the three `tt_assume` fails, when an index is outside the vector, when `int` does not hold
`offset + select` or `symbol + 1`, and when `numeric_cast<T>` fails. -/
def huffman_tree.add (numeric_cast : Int → Option Int) (t : huffman_tree)
    (symbol code code_length : Int) : Option huffman_tree :=
  if in_int symbol ∧ in_int code ∧ in_int code_length ∧ 1 ≤ code_length then
    match huffman_tree.add_loop numeric_cast code (code_length.toNat - 1) 0 t.tree with
    | none => none
    | some (offset, tree) =>
      if in_int (offset + huffman_tree.code_bit code 0) then
        match huffman_tree.read tree (offset + huffman_tree.code_bit code 0) with
        | none => none
        | some value =>
          if value = 0 ∧ in_int (symbol + 1) then
            match numeric_cast (symbol + 1) with
            | none => none
            | some stored =>
              some { tree := huffman_tree.write tree (offset + huffman_tree.code_bit code 0)
                       stored }
          else
            none
      else
        none
  else
    none

/-- A `numeric_cast<T>` for the examples, for a type `T` whose least and largest values are
given: it keeps a value that `T` holds and fails its assertion on any other value. -/
def checked_cast (least largest : Int) (value : Int) : Option Int :=
  if least ≤ value ∧ value ≤ largest then some value else none

/-! ### Adding entries and decoding them -/

/-- One call `add(symbol, code, code_length)`: its three arguments. -/
structure huffman_code where
  symbol : Int
  code : Int
  code_length : Int
deriving DecidableEq, Repr

/-- The `n` low bits of `code`, most significant first, each as the `bool` that is handed
to `get`: bit `k` is `(code >> k) & 1`. -/
def huffman_tree.code_bits (code : Int) : Nat → List Bool
  | 0 => []
  | n + 1 => decide (huffman_tree.code_bit code n = 1) :: huffman_tree.code_bits code n

/-- The `code_length` bits of an entry, most significant first. -/
def huffman_code.bits (e : huffman_code) : List Bool :=
  huffman_tree.code_bits e.code e.code_length.toNat

/-- Calls of `add`, one entry after the other; `none` as soon as one call has no defined
behaviour. -/
def huffman_tree.add_all (numeric_cast : Int → Option Int) :
    huffman_tree → List huffman_code → Option huffman_tree
  | t, [] => some t
  | t, e :: rest =>
    match huffman_tree.add numeric_cast t e.symbol e.code e.code_length with
    | none => none
    | some t1 => huffman_tree.add_all numeric_cast t1 rest

/-- The number of entries that adding the given codes can append to the vector: two for
each bit of a code but its last. -/
def huffman_tree.room (entries : List huffman_code) : Int :=
  (entries.map (fun e => 2 * (e.code_length - 1))).sum

/-- Calls of `get`, one bit after the other, on the state the call before left: the values
returned, `none` when a call raises or reads outside the vector. -/
def huffman_tree.feed (t : huffman_tree) : Int → List Bool → Option (List Int)
  | _, [] => some []
  | state, b :: rest =>
    match t.get b state with
    | some (Except.ok value, state1) =>
      (t.feed state1 rest).map (fun values => value :: values)
    | _ => none

/-- The node pair reached from the pair at `p` by following the negative entries selected
by the bits; `none` when an entry on the way is not negative or outside the vector. -/
def huffman_tree.walk (tree : List Int) : Nat → List Bool → Option Nat
  | p, [] => some p
  | p, b :: bs =>
    match tree[p + b.toNat]? with
    | some v =>
      if v < 0 then huffman_tree.walk tree (p + b.toNat + (-v).toNat) bs else none
    | none => none

/-- The bits the loop of `add` consumes when it starts with `code_length = k + 1`: bits
`k` down to `1` of `code`. -/
def huffman_tree.upper_bits (code : Int) : Nat → List Bool
  | 0 => []
  | k + 1 => decide (huffman_tree.code_bit code (k + 1) = 1) :: huffman_tree.upper_bits code k

/-- The tree is laid out along addresses: `addr i` is the bit string that selects entry
`i`; the first pair is selected by one bit, and a negative entry leads to a pair inside the
vector whose two entries are selected by one more bit. -/
def huffman_tree.addressed (tree : List Int) (addr : Nat → List Bool) : Prop :=
  2 ≤ tree.length ∧ addr 0 = [false] ∧ addr 1 = [true] ∧
  ∀ (i : Nat) (v : Int), tree[i]? = some v → v < 0 →
    i + (-v).toNat + 1 < tree.length ∧
    addr (i + (-v).toNat) = addr i ++ [false] ∧
    addr (i + (-v).toNat + 1) = addr i ++ [true]

/-- Every positive entry is the symbol + 1 of an entry of `leaves` whose bits are the
address; every negative entry has as address a proper prefix of the bits of an entry of
`inner`. -/
def huffman_tree.holds (tree : List Int) (addr : Nat → List Bool)
    (leaves inner : List huffman_code) : Prop :=
  (∀ (i : Nat) (v : Int), tree[i]? = some v → 0 < v →
    ∃ e ∈ leaves, e.bits = addr i ∧ v = e.symbol + 1) ∧
  (∀ (i : Nat) (v : Int), tree[i]? = some v → v < 0 →
    ∃ e ∈ inner, addr i <+: e.bits ∧ addr i ≠ e.bits)

/-- The second vector keeps every non-zero entry of the first. -/
def huffman_tree.keeps (tree tree1 : List Int) : Prop :=
  ∀ (i : Nat) (v : Int), tree[i]? = some v → v ≠ 0 → tree1[i]? = some v

/-- The bits of the entry lead through negative entries to a pair whose selected entry is
the symbol + 1. -/
def huffman_tree.stores (tree : List Int) (e : huffman_code) : Prop :=
  ∃ bs b q, e.bits = bs ++ [b] ∧ huffman_tree.walk tree 0 bs = some q ∧
    tree[q + b.toNat]? = some (e.symbol + 1)

/-- The addresses after a pair is appended at position `n` below the entry with address
`a`. -/
def huffman_tree.new_address (addr : Nat → List Bool) (n : Nat) (a : List Bool) :
    Nat → List Bool :=
  fun j => if j = n then a ++ [false] else if j = n + 1 then a ++ [true] else addr j

/-- The tree holds exactly the entries of `S`: it is laid out along addresses, its leaves
are entries of `S`, its negative entries lie on the way to entries of `S`, and every entry
of `S` is stored. -/
def huffman_tree.built (tree : List Int) (S : List huffman_code) : Prop :=
  (∃ addr, huffman_tree.addressed tree addr ∧ huffman_tree.holds tree addr S S) ∧
  ∀ e ∈ S, huffman_tree.stores tree e

/-- Neither entry has a bit string that starts with the bit string of the other: the pair
is prefix-free. -/
def huffman_code.separate (a b : huffman_code) : Prop :=
  ¬ a.bits <+: b.bits ∧ ¬ b.bits <+: a.bits

/-- Whether two entries are separate can be computed from their bits. -/
instance huffman_code.separate_decidable (a b : huffman_code) :
    Decidable (huffman_code.separate a b) :=
  inferInstanceAs (Decidable (¬ a.bits <+: b.bits ∧ ¬ b.bits <+: a.bits))

/-! ### from_lengths and the canonical code -/

/-- Struct `symbol_length_t` of `from_lengths`. -/
structure symbol_length_t where
  symbol : Int
  length : Int
deriving DecidableEq, Repr

/-- The comparison lambda handed to `std::sort` in `from_lengths`. -/
def symbol_length_t.before (a b : symbol_length_t) : Bool :=
  if a.length = b.length then decide (a.symbol < b.symbol) else decide (a.length < b.length)

/-- The first loop of `from_lengths`: the entry `(symbol, lengths[symbol])` for every
symbol, counted on from `symbol`. -/
def huffman_tree.symbol_lengths : Int → List Int → List symbol_length_t
  | _, [] => []
  | symbol, length :: rest =>
    { symbol := symbol, length := length } :: huffman_tree.symbol_lengths (symbol + 1) rest

/-- The call of `std::sort` in `from_lengths`: afterwards the comparison puts no element
before an earlier one.  The comparison is a strict total order on entries of different
symbols, so there is one such arrangement. -/
def huffman_tree.sort (symbol_lengths : List symbol_length_t) : List symbol_length_t :=
  symbol_lengths.insertionSort (fun a b => b.before a = false)

/-- The second loop of `from_lengths`, with `code`, `prev_length` and the tree `r`.
`code` is never negative here.  The subtraction `entry.length - prev_length` must stay
inside `int`; the shift `code <<= n` has no defined behaviour for a count below 0 or from 32
on, and it is followed only where `int` holds `code * 2 ^ n`, which is then its result;
`++code` has no defined behaviour when `int` does not hold the sum.  The answer is `none`
in each of these cases and where `add` answers `none`. -/
def huffman_tree.from_lengths_loop (numeric_cast : Int → Option Int) :
    List symbol_length_t → Int → Int → huffman_tree → Option huffman_tree
  | [], _, _, r => some r
  | entry :: rest, code, prev_length, r =>
    if entry.length ≠ 0 then
      if in_int (entry.length - prev_length) ∧ 0 ≤ entry.length - prev_length ∧
          entry.length - prev_length < 32 ∧
          in_int (code * 2 ^ (entry.length - prev_length).toNat) then
        match huffman_tree.add numeric_cast r entry.symbol
            (code * 2 ^ (entry.length - prev_length).toNat) entry.length with
        | none => none
        | some r1 =>
          if in_int (code * 2 ^ (entry.length - prev_length).toNat + 1) then
            huffman_tree.from_lengths_loop numeric_cast rest
              (code * 2 ^ (entry.length - prev_length).toNat + 1) entry.length r1
          else
            none
      else
        none
    else
      huffman_tree.from_lengths_loop numeric_cast rest code entry.length r

/-- Static member `huffman_tree::from_lengths(lengths, nr_symbols)`, the table given as the
list of its `nr_symbols` lengths.  The lengths are `int`s, and the symbols are counted in an
`int`: the answer is `none` when `int` does not hold a length or the number of symbols. -/
def huffman_tree.from_lengths (numeric_cast : Int → Option Int) (lengths : List Int) :
    Option huffman_tree :=
  if (∀ l ∈ lengths, in_int l) ∧ (lengths.length : Int) ≤ int_max then
    huffman_tree.from_lengths_loop numeric_cast
      (huffman_tree.sort (huffman_tree.symbol_lengths 0 lengths)) 0 0 huffman_tree.construct
  else
    none

/-- The canonical code as the specification words it, after a first coded symbol: each next
symbol gets (previous code + 1) shifted left by the increase in length. -/
def huffman_tree.canonical_next (previous : huffman_code) :
    List symbol_length_t → List huffman_code
  | [] => []
  | s :: rest =>
    { symbol := s.symbol,
      code := (previous.code + 1) * 2 ^ (s.length - previous.code_length).toNat,
      code_length := s.length }
    :: huffman_tree.canonical_next
        { symbol := s.symbol,
          code := (previous.code + 1) * 2 ^ (s.length - previous.code_length).toNat,
          code_length := s.length } rest

/-- The canonical code of a length table as the specification words it: the symbols of
length 0 get no code; the others, ordered by (length, symbol), get the code 0 for the first
and (previous code + 1) shifted left by the increase in length for each next one. -/
def huffman_tree.canonical_codes (lengths : List Int) : List huffman_code :=
  match (huffman_tree.sort (huffman_tree.symbol_lengths 0 lengths)).filter
      (fun s => decide (s.length ≠ 0)) with
  | [] => []
  | s :: rest =>
    { symbol := s.symbol, code := 0, code_length := s.length }
    :: huffman_tree.canonical_next { symbol := s.symbol, code := 0, code_length := s.length }
        rest

/-- The Kraft sum of a length table: the sum over the non-zero lengths of 2^-length. -/
def huffman_tree.kraft_sum (lengths : List Int) : ℚ :=
  ((lengths.filter (fun l => decide (l ≠ 0))).map (fun l => (2 : ℚ) ^ (-l))).sum

/-- The number of entries that `from_lengths` can append to the vector for a length table:
two for each bit but the last of every code, which is twice length - 1 for every non-zero
length. -/
def huffman_tree.length_room (lengths : List Int) : Int :=
  ((lengths.filter (fun l => decide (l ≠ 0))).map (fun l => 2 * (l - 1))).sum

/-- The number a bit string spells, most significant bit first. -/
def huffman_tree.bits_value : List Bool → Nat
  | [] => 0
  | b :: bs => b.toNat * 2 ^ bs.length + huffman_tree.bits_value bs

/-! ### The structural invariant of the tree vector -/

/-- The structural invariant of the vector `tree`: an even length of at least 2, and every
negative entry at an index `i` refers, by `i - entry`, to the even index of a later node pair
that lies wholly inside the vector. -/
def huffman_tree.pairs (tree : List Int) : Prop :=
  2 ≤ tree.length ∧ tree.length % 2 = 0 ∧
  ∀ (i : Nat) (v : Int), tree[i]? = some v → v < 0 →
    ((i : Int) - v) % 2 = 0 ∧ (i : Int) < (i : Int) - v ∧
    (i : Int) - v + 1 < (tree.length : Int)

/-- Calls of `get`, one bit after the other on the state the call before left, for as long
as the value returned is negative: what the calls returned or raised.  The answer is `none`
when a call reads outside the vector. -/
def huffman_tree.get_while_negative (t : huffman_tree) :
    Int → List Bool → Option (List (Except error Int))
  | _, [] => some []
  | state, b :: rest =>
    match t.get b state with
    | none => none
    | some (Except.error e, _) => some [Except.error e]
    | some (Except.ok value, state1) =>
      if value < 0 then
        (t.get_while_negative state1 rest).map (fun results => Except.ok value :: results)
      else
        some [Except.ok value]

/-! ## base64 -/

/-- Function `static int base64_decode(char value)`: the 6-bit value of an alphabet
character, -1 for a character that is skipped, -2 for any other character. -/
def base64_decode_char (value : Char) : Int :=
  if 'A'.toNat ≤ value.toNat ∧ value.toNat ≤ 'Z'.toNat then
    (value.toNat : Int) - 'A'.toNat
  else if 'a'.toNat ≤ value.toNat ∧ value.toNat ≤ 'z'.toNat then
    (value.toNat : Int) - 'a'.toNat + 26
  else if '0'.toNat ≤ value.toNat ∧ value.toNat ≤ '9'.toNat then
    (value.toNat : Int) - '0'.toNat + 52
  else if value = '+' ∨ value = '-' then
    62
  else if value = '/' ∨ value = '_' then
    63
  else if value = ' ' ∨ value = '\n' ∨ value = '\r' ∨ value = '=' then
    -1
  else
    -2

/-- The `for` loop of `base64_decode(std::string_view src)`, with the variables `group`,
`group_size` and `dst`; a byte is a natural number.  The answer is the raised error or the
three variables after the loop. -/
def base64_decode_loop : List Char → Nat → Nat → List Nat →
    Except error (Nat × Nat × List Nat)
  | [], group, group_size, dst => Except.ok (group, group_size, dst)
  | c :: rest, group, group_size, dst =>
    if base64_decode_char c = -2 then
      Except.error (parse_error "Unexpected character")
    else if base64_decode_char c = -1 then
      if group_size = 4 then
        base64_decode_loop rest 0 0
          (dst ++ [group >>> 16, (group >>> 8) &&& 0xff, group &&& 0xff])
      else
        base64_decode_loop rest group group_size dst
    else
      if group_size + 1 = 4 then
        base64_decode_loop rest 0 0
          (dst ++ [((group <<< 6) ||| (base64_decode_char c).toNat) >>> 16,
                   (((group <<< 6) ||| (base64_decode_char c).toNat) >>> 8) &&& 0xff,
                   ((group <<< 6) ||| (base64_decode_char c).toNat) &&& 0xff])
      else
        base64_decode_loop rest ((group <<< 6) ||| (base64_decode_char c).toNat)
          (group_size + 1) dst

/-- Function `bstring base64_decode(std::string_view src)`: the bytes returned or the error
raised; `none` stands for the `tt_no_default` of the final switch. -/
def base64_decode (src : List Char) : Option (Except error (List Nat)) :=
  match base64_decode_loop src 0 0 [] with
  | Except.error e => some (Except.error e)
  | Except.ok (group, group_size, dst) =>
    if group_size = 0 then
      some (Except.ok dst)
    else if group_size = 1 then
      some (Except.error (parse_error "Unexpected number of characters"))
    else if group_size = 2 then
      some (Except.ok (dst ++ [(group <<< 12) >>> 16]))
    else if group_size = 3 then
      some (Except.ok (dst ++ [(group <<< 6) >>> 16, ((group <<< 6) >>> 8) &&& 0xff]))
    else
      none

/-- Function `static char base64_encode(int value)`.  At every call `value` is below 64,
where the cast to `char` changes nothing. -/
def base64_encode_char (value : Nat) : Char :=
  if value < 26 then
    Char.ofNat (value + 'A'.toNat)
  else if value < 52 then
    Char.ofNat (value - 26 + 'a'.toNat)
  else if value < 62 then
    Char.ofNat (value - 52 + '0'.toNat)
  else if value < 63 then
    '+'
  else
    '/'

/-- Function `std::string base64_encode(span<std::byte const> src)`: the loop over the full
groups of three bytes, then the one or two bytes left over.  The three reads `*(i++)` of a
full group are taken in the order they are written. -/
def base64_encode : List Nat → List Char
  | [] => []
  | [b0] =>
    [base64_encode_char ((b0 <<< 16) >>> 18),
     base64_encode_char (((b0 <<< 16) >>> 12) &&& 0x3f), '=', '=']
  | [b0, b1] =>
    [base64_encode_char (((b0 <<< 16) ||| (b1 <<< 8)) >>> 18),
     base64_encode_char ((((b0 <<< 16) ||| (b1 <<< 8)) >>> 12) &&& 0x3f),
     base64_encode_char ((((b0 <<< 16) ||| (b1 <<< 8)) >>> 6) &&& 0x3f), '=']
  | b0 :: b1 :: b2 :: rest =>
    [base64_encode_char (((b0 <<< 16) ||| (b1 <<< 8) ||| b2) >>> 18),
     base64_encode_char ((((b0 <<< 16) ||| (b1 <<< 8) ||| b2) >>> 12) &&& 0x3f),
     base64_encode_char ((((b0 <<< 16) ||| (b1 <<< 8) ||| b2) >>> 6) &&& 0x3f),
     base64_encode_char (((b0 <<< 16) ||| (b1 <<< 8) ||| b2) &&& 0x3f)]
      ++ base64_encode rest

/-- A character the claim about `base64_decode` counts as an alphabet character, one
that carries a 6-bit value: a letter, a digit, '+', '-', '/' or '_'. -/
def base64_alphabet (c : Char) : Bool :=
  decide (('A'.toNat ≤ c.toNat ∧ c.toNat ≤ 'Z'.toNat) ∨
    ('a'.toNat ≤ c.toNat ∧ c.toNat ≤ 'z'.toNat) ∨
    ('0'.toNat ≤ c.toNat ∧ c.toNat ≤ '9'.toNat) ∨
    c = '+' ∨ c = '-' ∨ c = '/' ∨ c = '_')

/-- A character the claim about `base64_decode` lets pass without a value: space,
line-feed, carriage return or '='. -/
def base64_skipped (c : Char) : Bool :=
  decide (c = ' ' ∨ c = '\n' ∨ c = '\r' ∨ c = '=')

/-- A character of the standard base64 alphabet, as the claim about `base64_encode` lists
it: a letter, a digit, '+' or '/'. -/
def base64_standard (c : Char) : Bool :=
  decide (('A'.toNat ≤ c.toNat ∧ c.toNat ≤ 'Z'.toNat) ∨
    ('a'.toNat ≤ c.toNat ∧ c.toNat ≤ 'z'.toNat) ∨
    ('0'.toNat ≤ c.toNat ∧ c.toNat ≤ '9'.toNat) ∨
    c = '+' ∨ c = '/')

/-- The sequence of 6-bit values the alphabet characters of an input carry, in the order
of the input. -/
def base64_values (src : List Char) : List Int :=
  (src.filter base64_alphabet).map base64_decode_char

/-- Two characters that are the same, or '+' and its URL-safe form '-', or '/' and its
URL-safe form '_'. -/
def base64_url_safe_of (a b : Char) : Prop :=
  a = b ∨ (a = '+' ∧ b = '-') ∨ (a = '/' ∧ b = '_')

/-! ## veer_if_node: sequences of builder calls -/

/-- A call of one of the three members that build up an If node while a document is
parsed. -/
inductive if_builder_call (N E : Type) where
  | found_elif (location : parse_location) (expression : E) : if_builder_call N E
  | found_else (location : parse_location) : if_builder_call N E
  | append (x : N) : if_builder_call N E

/-- The node after a sequence of builder calls, made one after the other; `none` when an
`append` finds no children group for `children_groups.back()`. -/
def veer_if_node.build {N E : Type} (append_child : List N → N → List N) :
    veer_if_node N E → List (if_builder_call N E) → Option (veer_if_node N E)
  | node, [] => some node
  | node, if_builder_call.found_elif location expression :: rest =>
    veer_if_node.build append_child (node.found_elif location expression).2 rest
  | node, if_builder_call.found_else location :: rest =>
    veer_if_node.build append_child (node.found_else location).2 rest
  | node, if_builder_call.append x :: rest =>
    match node.append append_child x with
    | none => none
    | some (_, node1) => veer_if_node.build append_child node1 rest

/-- The structural invariant of an If node: as many expression locations as expressions,
at least one expression, and as many children groups as expressions or one more. -/
def veer_if_node.well_formed {N E : Type} (node : veer_if_node N E) : Prop :=
  node.expressions.length = node.expression_locations.length ∧
  1 ≤ node.expressions.length ∧
  (node.children_groups.length = node.expressions.length ∨
    node.children_groups.length = node.expressions.length + 1)

/-! ## PipelineImage::DeviceShared -/

/-- The static constants of `Page` that `DeviceShared` uses.  `PipelineImage_Page.hpp` is
declared outside the embedded files, so the constants are parameters of the embedding. -/
structure PipelineImage.Page_constants where
  border : Int
  widthIncludingBorder : Int
  heightIncludingBorder : Int
deriving DecidableEq, Repr

/-- Struct `Page`, as far as `getAtlasPositionFromPage` reads it: the page number. -/
structure PipelineImage.Page where
  nr : Int
deriving DecidableEq, Repr

/-- The vector `ivec{x, y, z, w}` that `getAtlasPositionFromPage` returns; the components
are integers without a bound. -/
structure ivec where
  x : Int
  y : Int
  z : Int
  w : Int
deriving DecidableEq, Repr

/-- Constant `DeviceShared::atlasNrHorizontalPages`. -/
def PipelineImage.DeviceShared.atlasNrHorizontalPages : Int := 16

/-- Constant `DeviceShared::atlasNrVerticalPages`. -/
def PipelineImage.DeviceShared.atlasNrVerticalPages : Int := 16

/-- Constant `DeviceShared::atlasImageWidth`. -/
def PipelineImage.DeviceShared.atlasImageWidth (P : PipelineImage.Page_constants) : Int :=
  PipelineImage.DeviceShared.atlasNrHorizontalPages * P.widthIncludingBorder

/-- Constant `DeviceShared::atlasImageHeight`. -/
def PipelineImage.DeviceShared.atlasImageHeight (P : PipelineImage.Page_constants) : Int :=
  PipelineImage.DeviceShared.atlasNrVerticalPages * P.heightIncludingBorder

/-- Constant `DeviceShared::atlasNrPagesPerImage`. -/
def PipelineImage.DeviceShared.atlasNrPagesPerImage : Int :=
  PipelineImage.DeviceShared.atlasNrHorizontalPages
    * PipelineImage.DeviceShared.atlasNrVerticalPages

/-- Static member `DeviceShared::getAtlasPositionFromPage(page)`.  The operators `/` and
`%` of C++ round towards zero (`Int.tdiv`, `Int.tmod`). -/
def PipelineImage.DeviceShared.getAtlasPositionFromPage (P : PipelineImage.Page_constants)
    (page : PipelineImage.Page) : ivec :=
  let imageIndex := Int.tdiv page.nr PipelineImage.DeviceShared.atlasNrPagesPerImage
  let pageNrInsideImage := Int.tmod page.nr PipelineImage.DeviceShared.atlasNrPagesPerImage
  let pageY := Int.tdiv pageNrInsideImage PipelineImage.DeviceShared.atlasNrVerticalPages
  let pageX := Int.tmod pageNrInsideImage PipelineImage.DeviceShared.atlasNrVerticalPages
  let x := pageX * P.widthIncludingBorder + P.border
  let y := pageY * P.heightIncludingBorder + P.border
  { x := x, y := y, z := imageIndex, w := 1 }

/-! ## Theorems: veer_string_node -/

theorem left_align_scan_blanks (ws : List Char) (hws : ∀ c ∈ ws, is_blank c)
    (rest : List Char) (n : Nat) :
    veer_string_node.left_align_scan (ws ++ rest) n
      = veer_string_node.left_align_scan rest (n - ws.length) := by
  induction ws generalizing n with
  | nil => simp
  | cons c ws ih =>
    have hc : c = ' ' ∨ c = '\t' := hws c (List.mem_cons_self _ _)
    have hrest : ∀ d ∈ ws, is_blank d := fun d hd => hws d (List.mem_cons_of_mem _ hd)
    simp only [List.cons_append, veer_string_node.left_align_scan, hc, if_true]
    rw [List.append_eq, ih hrest, List.length_cons]
    congr 1
    omega

theorem left_align_scan_kept (r : List Char) (n m : Nat) (hlen : r.length ≤ n)
    (h : veer_string_node.left_align_scan r n = some m) :
    m ≤ n ∧ n - m ≤ r.length ∧ veer_string_node.left_align_scan (r.drop (n - m)) m = some m := by
  induction r generalizing n with
  | nil =>
    simp only [veer_string_node.left_align_scan, Option.some.injEq] at h
    subst h
    simp [veer_string_node.left_align_scan]
  | cons c rest ih =>
    simp only [List.length_cons] at hlen
    by_cases hc : c = ' ' ∨ c = '\t'
    · simp only [veer_string_node.left_align_scan, hc, if_true] at h
      obtain ⟨h1, h2, h3⟩ := ih (n - 1) (by omega) h
      have hn : n - m = (n - 1 - m) + 1 := by omega
      refine ⟨by omega, by simp only [List.length_cons]; omega, ?_⟩
      rw [hn, List.drop_succ_cons]
      exact h3
    · by_cases hn : c = '\n'
      · subst hn
        simp only [veer_string_node.left_align_scan, hc, if_false, if_true,
          Option.some.injEq] at h
        subst h
        simp [veer_string_node.left_align_scan]
      · simp [veer_string_node.left_align_scan, hc, hn] at h

/-- C4: a text whose last line-feed is followed only by spaces and tabs (possibly none) is
cut by `left_align` to its part up to and including that line-feed. -/
theorem left_align_truncates_after_last_line_feed (location : parse_location)
    (before ws : List Char) (hws : ∀ c ∈ ws, is_blank c) :
    veer_string_node.left_align { location := location, text := before ++ '\n' :: ws }
      = { location := location, text := before ++ ['\n'] } := by
  have hrev : ∀ c ∈ ws.reverse, is_blank c := fun c hc => hws c (List.mem_reverse.mp hc)
  have hscan : veer_string_node.left_align_scan (before ++ '\n' :: ws).reverse
      (before ++ '\n' :: ws).length = some (before.length + 1) := by
    rw [List.reverse_append, List.reverse_cons, List.append_assoc,
      left_align_scan_blanks _ hrev]
    simp only [List.singleton_append, veer_string_node.left_align_scan, List.length_append,
      List.length_cons, List.length_reverse]
    simp only [show ¬ ('\n' = ' ' ∨ '\n' = '\t') by decide, if_false, if_true,
      Option.some.injEq]
    omega
  simp only [veer_string_node.left_align, hscan, string_resize]
  have htake : List.take (before.length + 1) (before ++ '\n' :: ws) = before ++ ['\n'] := by
    have : before ++ '\n' :: ws = (before ++ ['\n']) ++ ws := by simp
    rw [this, List.take_left']
    simp
  rw [htake]
  simp

/-- Witness of C4 on the text "a\n \t". -/
theorem left_align_truncates_after_last_line_feed_witness :
    (∀ c ∈ [' ', '\t'], is_blank c) ∧
    veer_string_node.left_align
        { location := ⟨"f", 1, 1⟩, text := ['a'] ++ '\n' :: [' ', '\t'] }
      = { location := ⟨"f", 1, 1⟩, text := ['a'] ++ ['\n'] } :=
  ⟨by decide, left_align_truncates_after_last_line_feed ⟨"f", 1, 1⟩ ['a'] [' ', '\t'] (by decide)⟩

/-- C5: a text whose last character other than a space or tab is not a line-feed is left
exactly as it is by `left_align`, trailing spaces and tabs included. -/
theorem left_align_keeps_unfinished_line (location : parse_location)
    (before ws : List Char) (c : Char) (hws : ∀ d ∈ ws, is_blank d)
    (hc : ¬ is_blank c) (hlf : c ≠ '\n') :
    veer_string_node.left_align { location := location, text := before ++ c :: ws }
      = { location := location, text := before ++ c :: ws } := by
  have hrev : ∀ d ∈ ws.reverse, is_blank d := fun d hd => hws d (List.mem_reverse.mp hd)
  have hc2 : ¬ (c = ' ' ∨ c = '\t') := hc
  have hscan : veer_string_node.left_align_scan (before ++ c :: ws).reverse
      (before ++ c :: ws).length = none := by
    rw [List.reverse_append, List.reverse_cons, List.append_assoc,
      left_align_scan_blanks _ hrev]
    simp [veer_string_node.left_align_scan, hc2, hlf]
  simp only [veer_string_node.left_align, hscan]

/-- Witness of C5 on the text "abc  ". -/
theorem left_align_keeps_unfinished_line_witness :
    (∀ d ∈ [' ', ' '], is_blank d) ∧ ¬ is_blank 'c' ∧ 'c' ≠ '\n' ∧
    veer_string_node.left_align
        { location := ⟨"f", 1, 1⟩, text := ['a', 'b'] ++ 'c' :: [' ', ' '] }
      = { location := ⟨"f", 1, 1⟩, text := ['a', 'b'] ++ 'c' :: [' ', ' '] } :=
  ⟨by decide, by decide, by decide,
    left_align_keeps_unfinished_line ⟨"f", 1, 1⟩ ['a', 'b'] [' ', ' '] 'c'
      (by decide) (by decide) (by decide)⟩

/-- C6: `left_align` is idempotent: applying it twice gives the same node as applying it
once. -/
theorem left_align_idempotent (node : veer_string_node) :
    veer_string_node.left_align (veer_string_node.left_align node)
      = veer_string_node.left_align node := by
  cases hscan : veer_string_node.left_align_scan node.text.reverse node.text.length with
  | none => simp only [veer_string_node.left_align, hscan]
  | some m =>
    obtain ⟨h1, -, h3⟩ := left_align_scan_kept _ _ _ (by simp) hscan
    have hres : string_resize node.text m = node.text.take m := by
      simp [string_resize, Nat.sub_eq_zero_of_le h1]
    have hlen : (node.text.take m).length = m := by simp [h1]
    have hrev : (node.text.take m).reverse = node.text.reverse.drop (node.text.length - m) := by
      rw [List.drop_reverse]
      congr 2
      omega
    have hstep : veer_string_node.left_align node
        = { location := node.location, text := node.text.take m } := by
      simp only [veer_string_node.left_align, hscan, hres]
    rw [hstep]
    simp only [veer_string_node.left_align, hlen, hrev, h3, string_resize]
    simp [hlen]

/-- C7, as the code behaves: `left_align` turns the six-character text space, space, tab,
line-feed, space, space into the four-character text space, space, tab, line-feed: the tab
before the line-feed is kept. -/
theorem left_align_boundary_example (location : parse_location) :
    veer_string_node.left_align
        { location := location, text := [' ', ' ', '\t', '\n', ' ', ' '] }
      = { location := location, text := [' ', ' ', '\t', '\n'] } := by
  simp [veer_string_node.left_align, veer_string_node.left_align_scan, string_resize]

/-- C7 as stated fails: the result of `left_align` on space, space, tab, line-feed, space,
space is not the three-character text space, space, line-feed. -/
theorem left_align_boundary_example_not_three_chars :
    (veer_string_node.left_align
        { location := ⟨"f", 1, 1⟩, text := [' ', ' ', '\t', '\n', ' ', ' '] }).text
      ≠ [' ', ' ', '\n'] := by
  decide

/-! ## Theorems: veer_if_node -/

theorem evaluate_loop_skip_falsy {N E σ : Type} (truthy : datum → Bool)
    (ee : σ → E → parse_location → result σ datum) (ec : σ → List N → result σ datum)
    (node : veer_if_node N E) (ps : List (E × parse_location)) :
    ∀ (i n : Nat) (c c' : σ),
      (∀ j p, ps[j]? = some p →
        node.expressions[i + j]? = some p.1 ∧ node.expression_locations[i + j]? = some p.2) →
      all_falsy truthy ee ps c = some c' →
      veer_if_node.evaluate_loop truthy ee ec node (ps.length + n) i c
        = veer_if_node.evaluate_loop truthy ee ec node n (i + ps.length) c' := by
  induction ps with
  | nil =>
    intro i n c c' _ h
    simp only [all_falsy, Option.some.injEq] at h
    subst h
    simp
  | cons p rest ih =>
    intro i n c c' hidx h
    obtain ⟨e, l⟩ := p
    have h0 := hidx 0 (e, l) (by simp)
    simp only [Nat.add_zero] at h0
    have hsucc : ((e, l) :: rest).length + n = (rest.length + n) + 1 := by
      simp only [List.length_cons]; omega
    rw [hsucc]
    simp only [all_falsy] at h
    rcases hee : ee c e l with ⟨r, c1⟩
    rw [hee] at h
    cases r with
    | error err => simp at h
    | ok v =>
      simp only at h
      cases hv : truthy v with
      | true => simp [hv] at h
      | false =>
        simp only [hv, Bool.false_eq_true, if_false] at h
        have hrest : ∀ j p, rest[j]? = some p →
            node.expressions[i + 1 + j]? = some p.1 ∧
              node.expression_locations[i + 1 + j]? = some p.2 := by
          intro j p hp
          have := hidx (j + 1) p (by simpa using hp)
          rwa [show i + (j + 1) = i + 1 + j by omega] at this
        simp only [veer_if_node.evaluate_loop, h0.1, h0.2, hee, hv, Bool.false_eq_true,
          if_false]
        rw [ih (i + 1) n c1 c' hrest h, List.length_cons,
          show i + 1 + rest.length = i + (rest.length + 1) by omega]

theorem zip_take_entries {N E : Type} (node : veer_if_node N E) (k : Nat) :
    ∀ j p, ((node.expressions.zip node.expression_locations).take k)[j]? = some p →
      node.expressions[0 + j]? = some p.1 ∧ node.expression_locations[0 + j]? = some p.2 := by
  intro j p hp
  rw [List.getElem?_take] at hp
  split at hp
  · simpa [List.getElem?_zip_eq_some] using hp
  · simp at hp

theorem evaluate_at_first_truthy {N E σ : Type} (truthy : datum → Bool)
    (ee : σ → E → parse_location → result σ datum) (ec : σ → List N → result σ datum)
    (node : veer_if_node N E) (context : σ) (i : Nat) (e : E) (l : parse_location)
    (g : List N) (c_i : σ) (v : datum) (c' : σ)
    (hlen : node.expressions.length = node.expression_locations.length)
    (he : node.expressions[i]? = some e) (hl : node.expression_locations[i]? = some l)
    (hg : node.children_groups[i]? = some g)
    (hfalsy : all_falsy truthy ee
      ((node.expressions.zip node.expression_locations).take i) context = some c_i)
    (hcond : ee c_i e l = (Except.ok v, c')) (hv : truthy v = true) :
    veer_if_node.evaluate truthy ee ec node context = some (ec c' g) := by
  have hi : i < node.expressions.length := by
    rcases List.getElem?_eq_some.mp he with ⟨h, -⟩
    exact h
  have htake : ((node.expressions.zip node.expression_locations).take i).length = i := by
    simp only [List.length_take, List.length_zip]
    omega
  have hsplit : node.expressions.length
      = ((node.expressions.zip node.expression_locations).take i).length
        + ((node.expressions.length - i - 1) + 1) := by
    rw [htake]; omega
  simp only [veer_if_node.evaluate, hlen, if_true]
  rw [← hlen, hsplit]
  rw [evaluate_loop_skip_falsy truthy ee ec node _ 0 _ context c_i
    (zip_take_entries node i) hfalsy]
  rw [htake, Nat.zero_add]
  simp only [veer_if_node.evaluate_loop, he, hl, hcond, hv, if_true, hg]

theorem evaluate_after_all_falsy {N E σ : Type} (truthy : datum → Bool)
    (ee : σ → E → parse_location → result σ datum) (ec : σ → List N → result σ datum)
    (node : veer_if_node N E) (context c_n : σ)
    (hlen : node.expressions.length = node.expression_locations.length)
    (hfalsy : all_falsy truthy ee
      (node.expressions.zip node.expression_locations) context = some c_n) :
    veer_if_node.evaluate truthy ee ec node context
      = veer_if_node.evaluate_loop truthy ee ec node 0 node.expressions.length c_n := by
  have hzip : (node.expressions.zip node.expression_locations).length
      = node.expressions.length := by
    simp only [List.length_zip]; omega
  have hentries := zip_take_entries node (node.expressions.zip node.expression_locations).length
  rw [List.take_length] at hentries
  have hskip := evaluate_loop_skip_falsy truthy ee ec node _ 0 0 context c_n hentries hfalsy
  rw [hzip, Nat.add_zero, Nat.zero_add] at hskip
  simp only [veer_if_node.evaluate, hlen, if_true]
  rw [← hlen]
  exact hskip

theorem all_falsy_recording {N E σ : Type} (truthy : datum → Bool)
    (ee : σ → E → parse_location → result σ datum) (ps : List (E × parse_location)) :
    ∀ (c c' : σ) (log : List (if_call N E)), all_falsy truthy ee ps c = some c' →
      all_falsy truthy (recording_expression ee) ps (c, log)
        = some (c', log ++ condition_calls ps) := by
  induction ps with
  | nil =>
    intro c c' log h
    simp only [all_falsy, Option.some.injEq] at h
    subst h
    simp [all_falsy, condition_calls]
  | cons p rest ih =>
    intro c c' log h
    obtain ⟨e, l⟩ := p
    simp only [all_falsy] at h
    rcases hee : ee c e l with ⟨r, c1⟩
    rw [hee] at h
    cases r with
    | error err => simp at h
    | ok v =>
      simp only at h
      cases hv : truthy v with
      | true => simp [hv] at h
      | false =>
        simp only [hv, Bool.false_eq_true, if_false] at h
        simp only [all_falsy, recording_expression, hee, hv, Bool.false_eq_true, if_false]
        rw [ih c1 c' _ h]
        simp [condition_calls]

theorem all_falsy_keeps {E σ ω : Type} (truthy : datum → Bool)
    (ee : σ → E → parse_location → result σ datum) (out : σ → ω)
    (hout : ∀ c e l, out (ee c e l).2 = out c) (ps : List (E × parse_location)) :
    ∀ (c c' : σ), all_falsy truthy ee ps c = some c' → out c' = out c := by
  induction ps with
  | nil =>
    intro c c' h
    simp only [all_falsy, Option.some.injEq] at h
    subst h
    rfl
  | cons p rest ih =>
    intro c c' h
    obtain ⟨e, l⟩ := p
    simp only [all_falsy] at h
    have hstep := hout c e l
    rcases hee : ee c e l with ⟨r, c1⟩
    rw [hee] at h hstep
    cases r with
    | error err => simp at h
    | ok v =>
      simp only at h
      cases hv : truthy v with
      | true => simp [hv] at h
      | false =>
        simp only [hv, Bool.false_eq_true, if_false] at h
        rw [ih c1 c' h]
        exact hstep

theorem all_falsy_none_first_truthy {E σ : Type} (truthy : datum → Bool)
    (ee : σ → E → parse_location → result σ datum) (ps : List (E × parse_location)) :
    ∀ (c : σ),
      (∀ i e l c_i, ps[i]? = some (e, l) → all_falsy truthy ee (ps.take i) c = some c_i →
        ∃ v c', ee c_i e l = (Except.ok v, c')) →
      all_falsy truthy ee ps c = none →
      ∃ i e l c_i v c', ps[i]? = some (e, l) ∧ all_falsy truthy ee (ps.take i) c = some c_i ∧
        ee c_i e l = (Except.ok v, c') ∧ truthy v = true := by
  induction ps with
  | nil =>
    intro c _ h
    simp [all_falsy] at h
  | cons p rest ih =>
    intro c hok h
    obtain ⟨e, l⟩ := p
    obtain ⟨v, c1, hee⟩ := hok 0 e l c (by simp) (by simp [all_falsy])
    simp only [all_falsy, hee] at h
    cases hv : truthy v with
    | true => exact ⟨0, e, l, c, v, c1, by simp, by simp [all_falsy], hee, hv⟩
    | false =>
      simp only [hv, Bool.false_eq_true, if_false] at h
      have hok1 : ∀ i e' l' c_i, rest[i]? = some (e', l') →
          all_falsy truthy ee (rest.take i) c1 = some c_i →
          ∃ v' c', ee c_i e' l' = (Except.ok v', c') := by
        intro i e' l' c_i hp hfalsy
        refine hok (i + 1) e' l' c_i (by simpa using hp) ?_
        simp only [List.take_succ_cons, all_falsy, hee, hv, Bool.false_eq_true, if_false]
        exact hfalsy
      obtain ⟨i, e', l', c_i, v', c', h1, h2, h3, h4⟩ := ih c1 hok1 h
      refine ⟨i + 1, e', l', c_i, v', c', by simpa using h1, ?_, h3, h4⟩
      simp only [List.take_succ_cons, all_falsy, hee, hv, Bool.false_eq_true, if_false]
      exact h2

theorem branches_evaluated_append {N E : Type} (xs ys : List (if_call N E)) :
    branches_evaluated (xs ++ ys) = branches_evaluated xs ++ branches_evaluated ys := by
  induction xs with
  | nil => simp [branches_evaluated]
  | cons x rest ih =>
    cases x with
    | expression e l => simpa [branches_evaluated] using ih
    | children g => simpa [branches_evaluated] using ih

theorem branches_evaluated_condition_calls {N E : Type} (ps : List (E × parse_location)) :
    branches_evaluated (condition_calls ps : List (if_call N E)) = [] := by
  induction ps with
  | nil => simp [branches_evaluated, condition_calls]
  | cons p rest ih => simpa [branches_evaluated, condition_calls] using ih

theorem calls_at_first_truthy {N E σ : Type} (truthy : datum → Bool)
    (ee : σ → E → parse_location → result σ datum) (ec : σ → List N → result σ datum)
    (node : veer_if_node N E) (context : σ) (i : Nat) (e : E) (l : parse_location)
    (g : List N) (c_i : σ) (v : datum) (c' : σ)
    (hlen : node.expressions.length = node.expression_locations.length)
    (he : node.expressions[i]? = some e) (hl : node.expression_locations[i]? = some l)
    (hg : node.children_groups[i]? = some g)
    (hfalsy : all_falsy truthy ee
      ((node.expressions.zip node.expression_locations).take i) context = some c_i)
    (hcond : ee c_i e l = (Except.ok v, c')) (hv : truthy v = true) :
    veer_if_node.calls truthy ee ec node context
      = some (condition_calls ((node.expressions.zip node.expression_locations).take i)
          ++ [if_call.expression e l, if_call.children g]) := by
  have hrec := all_falsy_recording truthy ee _ context c_i ([] : List (if_call N E)) hfalsy
  have hcond' : recording_expression ee
      (c_i, ([] : List (if_call N E))
        ++ condition_calls ((node.expressions.zip node.expression_locations).take i))
      e l = (Except.ok v, (c', [] ++ condition_calls
        ((node.expressions.zip node.expression_locations).take i)
        ++ [if_call.expression e l])) := by
    simp [recording_expression, hcond]
  simp only [veer_if_node.calls]
  rw [evaluate_at_first_truthy truthy (recording_expression ee) (recording_children ec) node
    (context, []) i e l g _ v _ hlen he hl hg hrec hcond' hv]
  simp [recording_children]

theorem calls_after_all_falsy {N E σ : Type} (truthy : datum → Bool)
    (ee : σ → E → parse_location → result σ datum) (ec : σ → List N → result σ datum)
    (node : veer_if_node N E) (context c_n : σ)
    (hlen : node.expressions.length = node.expression_locations.length)
    (hfalsy : all_falsy truthy ee
      (node.expressions.zip node.expression_locations) context = some c_n) :
    (∀ g, node.children_groups[node.expressions.length]? = some g →
      veer_if_node.calls truthy ee ec node context
        = some (condition_calls (node.expressions.zip node.expression_locations)
            ++ [if_call.children g])) ∧
    (node.children_groups.length ≤ node.expressions.length →
      veer_if_node.calls truthy ee ec node context
        = some (condition_calls (node.expressions.zip node.expression_locations))) := by
  have hrec := all_falsy_recording truthy ee _ context c_n ([] : List (if_call N E)) hfalsy
  constructor
  · intro g hg
    have hlt : node.children_groups.length > node.expressions.length := by
      rcases List.getElem?_eq_some.mp hg with ⟨h, -⟩
      exact h
    simp only [veer_if_node.calls]
    rw [evaluate_after_all_falsy truthy (recording_expression ee) (recording_children ec)
      node (context, []) _ hlen hrec]
    simp [veer_if_node.evaluate_loop, hlt, hg, recording_children]
  · intro hle
    have hnot : ¬ node.children_groups.length > node.expressions.length := by omega
    simp only [veer_if_node.calls]
    rw [evaluate_after_all_falsy truthy (recording_expression ee) (recording_children ec)
      node (context, []) _ hlen hrec]
    simp [veer_if_node.evaluate_loop, hnot]

/-- C1: when the conditions before index `i` evaluate, in order and without error, to
falsy values and condition `i` evaluates to a truthy value, `veer_if_node::evaluate`
evaluates children group `i` in the context left by condition `i` and returns what that
gives; the calls it makes are exactly the tests of conditions `0 … i` followed by the
evaluation of group `i`, so no later condition and no other group is evaluated. -/
theorem if_evaluate_first_truthy_branch {N E σ : Type} (truthy : datum → Bool)
    (ee : σ → E → parse_location → result σ datum) (ec : σ → List N → result σ datum)
    (node : veer_if_node N E) (context : σ) (i : Nat) (e : E) (l : parse_location)
    (g : List N) (c_i : σ) (v : datum) (c' : σ)
    (hlen : node.expressions.length = node.expression_locations.length)
    (he : node.expressions[i]? = some e) (hl : node.expression_locations[i]? = some l)
    (hg : node.children_groups[i]? = some g)
    (hfalsy : all_falsy truthy ee
      ((node.expressions.zip node.expression_locations).take i) context = some c_i)
    (hcond : ee c_i e l = (Except.ok v, c')) (hv : truthy v = true) :
    veer_if_node.evaluate truthy ee ec node context = some (ec c' g) ∧
    veer_if_node.calls truthy ee ec node context
      = some (condition_calls ((node.expressions.zip node.expression_locations).take i)
          ++ [if_call.expression e l, if_call.children g]) ∧
    (veer_if_node.calls truthy ee ec node context).map branches_evaluated = some [g] := by
  have hcalls := calls_at_first_truthy truthy ee ec node context i e l g c_i v c' hlen he hl hg
    hfalsy hcond hv
  refine ⟨evaluate_at_first_truthy truthy ee ec node context i e l g c_i v c' hlen he hl hg
    hfalsy hcond hv, hcalls, ?_⟩
  rw [hcalls]
  simp [branches_evaluated_append, branches_evaluated_condition_calls, branches_evaluated]

/-- Witness of C1: with the conditions false, true, true and an else branch only the second
branch runs: the output is "b" and the calls are two tests and one group. -/
theorem if_evaluate_first_truthy_branch_witness :
    veer_if_node.evaluate datum.to_bool literal_condition write_texts
        example_if_false_true_true_else []
      = some (Except.ok datum.undefined, ['b']) ∧
    veer_if_node.calls datum.to_bool literal_condition write_texts
        example_if_false_true_true_else []
      = some [if_call.expression (datum.boolean false) ⟨"f", 1, 1⟩,
              if_call.expression (datum.boolean true) ⟨"f", 2, 1⟩,
              if_call.children [⟨⟨"f", 2, 9⟩, ['b']⟩]] ∧
    (veer_if_node.calls datum.to_bool literal_condition write_texts
        example_if_false_true_true_else []).map branches_evaluated
      = some [[⟨⟨"f", 2, 9⟩, ['b']⟩]] :=
  if_evaluate_first_truthy_branch datum.to_bool literal_condition write_texts
    example_if_false_true_true_else [] 1 (datum.boolean true) ⟨"f", 2, 1⟩
    [⟨⟨"f", 2, 9⟩, ['b']⟩] [] (datum.boolean true) [] rfl rfl rfl rfl rfl rfl rfl

/-- C2: when every condition evaluates, in order and without error, to a falsy value, then
(1) if there is a children group after those of the conditions (the else branch),
`veer_if_node::evaluate` evaluates exactly that group and returns what it gives, and
(2) if there is none, it returns Undefined, evaluates no group, and leaves the context as
the last condition left it, so whatever the condition evaluator does not touch (the output
sink) is as it was before the call. -/
theorem if_evaluate_no_truthy_condition {N E σ : Type} (truthy : datum → Bool)
    (ee : σ → E → parse_location → result σ datum) (ec : σ → List N → result σ datum)
    (node : veer_if_node N E) (context c_n : σ)
    (hlen : node.expressions.length = node.expression_locations.length)
    (hfalsy : all_falsy truthy ee
      (node.expressions.zip node.expression_locations) context = some c_n) :
    (∀ g, node.children_groups[node.expressions.length]? = some g →
      veer_if_node.evaluate truthy ee ec node context = some (ec c_n g) ∧
      veer_if_node.calls truthy ee ec node context
        = some (condition_calls (node.expressions.zip node.expression_locations)
            ++ [if_call.children g])) ∧
    (node.children_groups.length ≤ node.expressions.length →
      veer_if_node.evaluate truthy ee ec node context = some (Except.ok datum.undefined, c_n) ∧
      veer_if_node.calls truthy ee ec node context
        = some (condition_calls (node.expressions.zip node.expression_locations)) ∧
      ∀ (ω : Type) (out : σ → ω), (∀ c e l, out (ee c e l).2 = out c) →
        out c_n = out context) := by
  have hcalls := calls_after_all_falsy truthy ee ec node context c_n hlen hfalsy
  constructor
  · intro g hg
    have hlt : node.children_groups.length > node.expressions.length := by
      rcases List.getElem?_eq_some.mp hg with ⟨h, -⟩
      exact h
    refine ⟨?_, hcalls.1 g hg⟩
    rw [evaluate_after_all_falsy truthy ee ec node context c_n hlen hfalsy]
    simp only [veer_if_node.evaluate_loop, hlt, if_true, hg]
  · intro hle
    have hnot : ¬ node.children_groups.length > node.expressions.length := by omega
    refine ⟨?_, hcalls.2 hle, ?_⟩
    · rw [evaluate_after_all_falsy truthy ee ec node context c_n hlen hfalsy]
      simp only [veer_if_node.evaluate_loop, hnot, if_false]
    · intro ω out hout
      exact all_falsy_keeps truthy ee out hout _ context c_n hfalsy

/-- Witness of C2: the condition false with an else branch writes the else text "b"; the
conditions false and undefined without an else branch return Undefined and write
nothing. -/
theorem if_evaluate_no_truthy_condition_witness :
    (veer_if_node.evaluate datum.to_bool literal_condition write_texts
        example_if_false_else []
      = some (Except.ok datum.undefined, ['b'])) ∧
    (veer_if_node.evaluate datum.to_bool literal_condition write_texts
        example_if_false_undefined []
      = some (Except.ok datum.undefined, [])) :=
  ⟨((if_evaluate_no_truthy_condition datum.to_bool literal_condition write_texts
      example_if_false_else [] [] rfl rfl).1 [⟨⟨"f", 2, 9⟩, ['b']⟩] rfl).1,
   ((if_evaluate_no_truthy_condition datum.to_bool literal_condition write_texts
      example_if_false_undefined [] [] rfl rfl).2 (by decide)).1⟩

/-- C3 as stated fails: the If node with the conditions false and undefined and no else
branch has well-formed vectors and conditions that evaluate without error, and its
evaluation evaluates the children of no branch, not of one. -/
theorem if_evaluate_exactly_one_branch_fails :
    example_if_false_undefined.expressions.length
      = example_if_false_undefined.expression_locations.length ∧
    (veer_if_node.calls datum.to_bool literal_condition write_texts
        example_if_false_undefined []).map (fun log => (branches_evaluated log).length)
      = some 0 ∧
    (veer_if_node.calls datum.to_bool literal_condition write_texts
        example_if_false_undefined []).map (fun log => (branches_evaluated log).length)
      ≠ some 1 := by
  have h : (veer_if_node.calls datum.to_bool literal_condition write_texts
        example_if_false_undefined []).map (fun log => (branches_evaluated log).length)
      = some 0 := rfl
  refine ⟨rfl, h, ?_⟩
  rw [h]
  decide

/-- C3, as the code behaves: for an If node whose vectors are well formed and a context in
which no condition raises when its turn comes (the conditions before it having evaluated to
falsy values), `veer_if_node::evaluate` evaluates the children of at most one branch; it
evaluates none exactly when there is no else branch and every condition is falsy, and so
exactly one in every other case. -/
theorem if_evaluate_at_most_one_branch {N E σ : Type} (truthy : datum → Bool)
    (ee : σ → E → parse_location → result σ datum) (ec : σ → List N → result σ datum)
    (node : veer_if_node N E) (context : σ)
    (hlen : node.expressions.length = node.expression_locations.length)
    (hgroups : node.expressions.length ≤ node.children_groups.length)
    (hok : ∀ i e l c_i,
      (node.expressions.zip node.expression_locations)[i]? = some (e, l) →
      all_falsy truthy ee
        ((node.expressions.zip node.expression_locations).take i) context = some c_i →
      ∃ v c', ee c_i e l = (Except.ok v, c')) :
    ∃ log, veer_if_node.calls truthy ee ec node context = some log ∧
      (branches_evaluated log).length ≤ 1 ∧
      ((branches_evaluated log).length = 0 ↔
        (node.children_groups.length = node.expressions.length ∧
          (all_falsy truthy ee
            (node.expressions.zip node.expression_locations) context).isSome = true)) := by
  cases hall : all_falsy truthy ee (node.expressions.zip node.expression_locations) context with
  | none =>
    obtain ⟨i, e, l, c_i, v, c', hp, hfalsy, hcond, hv⟩ :=
      all_falsy_none_first_truthy truthy ee _ context hok hall
    obtain ⟨he, hl⟩ := List.getElem?_zip_eq_some.mp hp
    have hi : i < node.expressions.length := by
      rcases List.getElem?_eq_some.mp he with ⟨h, -⟩
      exact h
    have hig : i < node.children_groups.length := by omega
    have hg : node.children_groups[i]? = some (node.children_groups[i]) :=
      List.getElem?_eq_getElem hig
    refine ⟨_, calls_at_first_truthy truthy ee ec node context i e l _ c_i v c' hlen he hl hg
      hfalsy hcond hv, ?_, ?_⟩
    · simp [branches_evaluated_append, branches_evaluated_condition_calls, branches_evaluated]
    · simp [branches_evaluated_append, branches_evaluated_condition_calls, branches_evaluated]
  | some c_n =>
    have hcalls := calls_after_all_falsy truthy ee ec node context c_n hlen hall
    by_cases helse : node.expressions.length < node.children_groups.length
    · have hg : node.children_groups[node.expressions.length]?
          = some (node.children_groups[node.expressions.length]) :=
        List.getElem?_eq_getElem helse
      refine ⟨_, hcalls.1 _ hg, ?_, ?_⟩
      · simp [branches_evaluated_append, branches_evaluated_condition_calls,
          branches_evaluated]
      · simp [branches_evaluated_append, branches_evaluated_condition_calls,
          branches_evaluated]
        omega
    · have hle : node.children_groups.length ≤ node.expressions.length := by omega
      refine ⟨_, hcalls.2 hle, ?_, ?_⟩
      · simp [branches_evaluated_condition_calls]
      · simp [branches_evaluated_condition_calls]
        omega

/-- Witness of C3 as amended, on the If node with the conditions false, true, true and an
else branch. -/
theorem if_evaluate_at_most_one_branch_witness :
    ∃ log, veer_if_node.calls datum.to_bool literal_condition write_texts
        example_if_false_true_true_else [] = some log ∧
      (branches_evaluated log).length ≤ 1 ∧
      ((branches_evaluated log).length = 0 ↔
        (example_if_false_true_true_else.children_groups.length
            = example_if_false_true_true_else.expressions.length ∧
          (all_falsy datum.to_bool literal_condition
            (example_if_false_true_true_else.expressions.zip
              example_if_false_true_true_else.expression_locations)
            ([] : List Char)).isSome = true)) :=
  if_evaluate_at_most_one_branch datum.to_bool literal_condition write_texts
    example_if_false_true_true_else [] rfl (by decide)
    (fun _ e _ c_i _ _ => ⟨e, c_i, rfl⟩)

/-! ## Theorems: formula_logical_and_node -/

/-- C8: when the left operand evaluates to the value `v`, `formula_logical_and_node::evaluate`
returns that very value `v` if `v` is falsy, and whatever evaluating the right operand gives
if `v` is truthy. -/
theorem logical_and_evaluate_value {F σ : Type} (truthy : datum → Bool)
    (operand_evaluate : σ → F → result σ datum) (node : formula_logical_and_node F)
    (context : σ) (v : datum) (context1 : σ)
    (hlhs : operand_evaluate context node.lhs = (Except.ok v, context1)) :
    (truthy v = false →
      formula_logical_and_node.evaluate truthy operand_evaluate node context
        = (Except.ok v, context1)) ∧
    (truthy v = true →
      formula_logical_and_node.evaluate truthy operand_evaluate node context
        = operand_evaluate context1 node.rhs) := by
  constructor
  · intro hv
    simp only [formula_logical_and_node.evaluate, hlhs, hv, Bool.false_eq_true, if_false]
  · intro hv
    simp only [formula_logical_and_node.evaluate, hlhs, hv, if_true]

/-- Witness of C8: a false left operand is returned as it is; after the truthy left operand
"a" the value of the right operand is returned. -/
theorem logical_and_evaluate_value_witness :
    formula_logical_and_node.evaluate datum.to_bool counting_operand
        { location := ⟨"f", 1, 1⟩, lhs := some (datum.boolean false),
          rhs := some (datum.number 7) } 0
      = (Except.ok (datum.boolean false), 1) ∧
    formula_logical_and_node.evaluate datum.to_bool counting_operand
        { location := ⟨"f", 1, 1⟩, lhs := some (datum.string ['a']),
          rhs := some (datum.number 7) } 0
      = (Except.ok (datum.number 7), 2) :=
  ⟨(logical_and_evaluate_value datum.to_bool counting_operand
      { location := ⟨"f", 1, 1⟩, lhs := some (datum.boolean false),
        rhs := some (datum.number 7) } 0 (datum.boolean false) 1 rfl).1 rfl,
   (logical_and_evaluate_value datum.to_bool counting_operand
      { location := ⟨"f", 1, 1⟩, lhs := some (datum.string ['a']),
        rhs := some (datum.number 7) } 0 (datum.string ['a']) 1 rfl).2 rfl⟩

/-- C9: when the left operand evaluates to a falsy value `v` (Undefined, for one), then for
every right operand, whatever its evaluation would do, `formula_logical_and_node::evaluate`
returns `v` in the context the left operand left, and the only operand it evaluates is the
left one. -/
theorem logical_and_short_circuit {F σ : Type} (truthy : datum → Bool)
    (operand_evaluate : σ → F → result σ datum) (location : parse_location) (lhs : F)
    (context : σ) (v : datum) (context1 : σ)
    (hlhs : operand_evaluate context lhs = (Except.ok v, context1))
    (hv : truthy v = false) :
    ∀ rhs : F,
      formula_logical_and_node.evaluate truthy operand_evaluate
          { location := location, lhs := lhs, rhs := rhs } context
        = (Except.ok v, context1) ∧
      formula_logical_and_node.operands_evaluated truthy operand_evaluate
          { location := location, lhs := lhs, rhs := rhs } context
        = [lhs] := by
  intro rhs
  constructor
  · simp only [formula_logical_and_node.evaluate, hlhs, hv, Bool.false_eq_true, if_false]
  · simp [formula_logical_and_node.operands_evaluated, formula_logical_and_node.evaluate,
      recording_operand, hlhs, hv]

/-- Witness of C9: with an Undefined left operand and a right operand that would raise, the
result is Undefined, one operand was evaluated, and it is the left one. -/
theorem logical_and_short_circuit_witness :
    datum.to_bool datum.undefined = false ∧
    formula_logical_and_node.evaluate datum.to_bool counting_operand
        { location := ⟨"f", 1, 1⟩, lhs := some datum.undefined, rhs := none } 0
      = (Except.ok datum.undefined, 1) ∧
    formula_logical_and_node.operands_evaluated datum.to_bool counting_operand
        { location := ⟨"f", 1, 1⟩, lhs := some datum.undefined, rhs := none } 0
      = [some datum.undefined] :=
  ⟨rfl, logical_and_short_circuit datum.to_bool counting_operand ⟨"f", 1, 1⟩
    (some datum.undefined) 0 datum.undefined 1 rfl rfl none⟩

/-! ## Theorems: veer_block_node and stencil_block_node -/

/-- C10: when the resolved function of a Block yields the value `v`, `evaluate` raises an
invalid-operation error carrying the Block's own location if `v` is Break, if `v` is
Continue and if `v` is a Return value (and for every other `v` that is not Undefined), and
returns Undefined if `v` is Undefined; whenever `evaluate` returns normally, what it returns
is Undefined.  `stencil_block_node::evaluate` gives the same result as
`veer_block_node::evaluate` on every node and context. -/
theorem block_evaluate_control_signals {N σ : Type} (node : veer_block_node N σ)
    (context : σ) :
    (∀ (f : function_type σ) (v : datum) (context1 : σ),
      node.function = some f → f context [] = (Except.ok v, context1) →
      (v = datum.break_ →
        veer_block_node.evaluate node context
          = (Except.error { cls := exception_class.invalid_operation_error,
                            message := "Found #break not inside a loop statement.",
                            location := some node.location }, context1)) ∧
      (v = datum.continue_ →
        veer_block_node.evaluate node context
          = (Except.error { cls := exception_class.invalid_operation_error,
                            message := "Found #continue not inside a loop statement.",
                            location := some node.location }, context1)) ∧
      (∀ payload, v = datum.return_ payload →
        veer_block_node.evaluate node context
          = (Except.error { cls := exception_class.invalid_operation_error,
                            message := "Can not use a #return statement inside a #block.",
                            location := some node.location }, context1)) ∧
      (v = datum.undefined →
        veer_block_node.evaluate node context = (Except.ok datum.undefined, context1)) ∧
      (v.is_undefined = false →
        ∃ e, veer_block_node.evaluate node context = (Except.error e, context1) ∧
          e.cls = exception_class.invalid_operation_error ∧
          e.location = some node.location)) ∧
    (∀ (r : datum) (context2 : σ),
      veer_block_node.evaluate node context = (Except.ok r, context2) →
      r = datum.undefined) ∧
    stencil_block_node.evaluate node context = veer_block_node.evaluate node context := by
  refine ⟨?_, ?_, rfl⟩
  · intro f v context1 hf hcall
    refine ⟨?_, ?_, ?_, ?_, ?_⟩
    · intro hv
      subst hv
      simp [veer_block_node.evaluate, hf, hcall, datum.is_break, invalid_operation_error,
        error.set_location]
    · intro hv
      subst hv
      simp [veer_block_node.evaluate, hf, hcall, datum.is_break, datum.is_continue,
        invalid_operation_error, error.set_location]
    · intro payload hv
      subst hv
      simp [veer_block_node.evaluate, hf, hcall, datum.is_break, datum.is_continue,
        datum.is_undefined, invalid_operation_error, error.set_location]
    · intro hv
      subst hv
      simp [veer_block_node.evaluate, hf, hcall, datum.is_break, datum.is_continue,
        datum.is_undefined]
    · intro hv
      simp only [veer_block_node.evaluate, hf, hcall, hv]
      split
      · exact ⟨_, rfl, rfl, rfl⟩
      · split
        · exact ⟨_, rfl, rfl, rfl⟩
        · exact ⟨_, rfl, rfl, rfl⟩
  · intro r context2 h
    unfold veer_block_node.evaluate at h
    split at h
    · simp at h
    · split at h
      · split at h <;> simp at h
      · split at h
        · simp at h
        · split at h
          · simp at h
          · split at h
            · simp only [Prod.mk.injEq, Except.ok.injEq] at h
              exact h.1.symm
            · simp at h

/-- Witness of C10: a Block at line 7 whose resolved function yields Break raises the
invalid-operation error "Found #break not inside a loop statement." located at line 7. -/
theorem block_evaluate_control_signals_witness :
    veer_block_node.evaluate example_block_break []
      = (Except.error { cls := exception_class.invalid_operation_error,
                        message := "Found #break not inside a loop statement.",
                        location := some ⟨"f", 7, 1⟩ }, []) :=
  ((block_evaluate_control_signals example_block_break []).1
    (fun context _ => (Except.ok datum.break_, context)) datum.break_ [] rfl rfl).1 rfl

/-- C11 as stated fails: a Block whose resolved function yields the string "a" raises from
`evaluate`, and a Block whose children yield the string "a" raises from `evaluate_call`; in
neither case is the string returned. -/
theorem block_ordinary_value_is_rejected :
    veer_block_node.evaluate example_block_string { output := [], local_stack := [] }
      = (Except.error { cls := exception_class.invalid_operation_error,
                        message := "Can not use a #return statement inside a #block.",
                        location := some ⟨"f", 7, 1⟩ },
         { output := [], local_stack := [] }) ∧
    veer_block_node.evaluate_call yield_children example_block_string
        { output := [], local_stack := [] } []
      = (Except.error { cls := exception_class.invalid_operation_error,
                        message := "Can not use a #return statement inside a #block.",
                        location := some ⟨"f", 7, 1⟩ },
         { output := [], local_stack := [] }) :=
  ⟨rfl, rfl⟩

/-- C11, as the code behaves: when the function invoked by a Block in `evaluate`, or the
children's aggregate in `evaluate_call`, yields a value that is not Undefined, Break or
Continue, the value is not returned: an invalid-operation error with the message "Can not
use a #return statement inside a #block." and the Block's location is raised. -/
theorem block_rejects_ordinary_value {N : Type}
    (evaluate_children : expression_evaluation_context → List N →
      result expression_evaluation_context datum)
    (node : veer_block_node N expression_evaluation_context)
    (context : expression_evaluation_context) (v : datum)
    (context1 : expression_evaluation_context)
    (hu : v.is_undefined = false) (hb : v.is_break = false) (hc : v.is_continue = false) :
    (∀ f : function_type expression_evaluation_context,
      node.function = some f → f context [] = (Except.ok v, context1) →
      veer_block_node.evaluate node context
        = (Except.error { cls := exception_class.invalid_operation_error,
                          message := "Can not use a #return statement inside a #block.",
                          location := some node.location }, context1)) ∧
    (∀ arguments : List datum,
      evaluate_children context.push node.children = (Except.ok v, context1) →
      veer_block_node.evaluate_call evaluate_children node context arguments
        = (Except.error { cls := exception_class.invalid_operation_error,
                          message := "Can not use a #return statement inside a #block.",
                          location := some node.location }, context1.pop)) := by
  constructor
  · intro f hf hcall
    simp [veer_block_node.evaluate, hf, hcall, hu, hb, hc, invalid_operation_error,
      error.set_location]
  · intro arguments hchildren
    simp [veer_block_node.evaluate_call, hchildren, hu, hb, hc, invalid_operation_error,
      error.set_location]

/-- Witness of C11 as amended, on the number 7 yielded by the children of a Block. -/
theorem block_rejects_ordinary_value_witness :
    veer_block_node.evaluate_call yield_children
        { location := ⟨"f", 3, 1⟩, name := "x", children := [datum.number 7],
          function := none, super_function := none }
        { output := [], local_stack := [] } []
      = (Except.error { cls := exception_class.invalid_operation_error,
                        message := "Can not use a #return statement inside a #block.",
                        location := some ⟨"f", 3, 1⟩ },
         { output := [], local_stack := [] }) :=
  (block_rejects_ordinary_value yield_children
    { location := ⟨"f", 3, 1⟩, name := "x", children := [datum.number 7],
      function := none, super_function := none }
    { output := [], local_stack := [] } (datum.number 7)
    { output := [], local_stack := [[]] } rfl rfl rfl).2 [] rfl

/-! ## Theorems: stencil_top_node -/

/-- C12 as stated fails: a Top node whose child yields Break returns Break from `evaluate`;
no error is raised. -/
theorem top_returns_break :
    stencil_top_node.evaluate yield_children example_top_break ([] : List Char)
      = (Except.ok datum.break_, []) :=
  rfl

/-- C12, as the code behaves: `stencil_top_node::evaluate` makes no check for control
signals: whatever value the children's aggregate is (Break, Continue, a Return value or any
other), `evaluate` returns that value unchanged, and it raises only when the evaluation of
the children raised. -/
theorem top_evaluate_returns_children_value {N σ : Type}
    (evaluate_children : σ → List N → result σ datum) (node : stencil_top_node N)
    (context : σ) :
    (∀ v context1, evaluate_children context node.children = (Except.ok v, context1) →
      stencil_top_node.evaluate evaluate_children node context = (Except.ok v, context1)) ∧
    (∀ e context1,
      stencil_top_node.evaluate evaluate_children node context = (Except.error e, context1) →
      ∃ e0, evaluate_children context node.children = (Except.error e0, context1)) := by
  constructor
  · intro v context1 h
    simp only [stencil_top_node.evaluate, h]
  · intro e context1 h
    unfold stencil_top_node.evaluate at h
    split at h
    · simp at h
    · rename_i e0 c0 heq
      split at h
      · simp only [Prod.mk.injEq] at h
        exact ⟨e0, by rw [heq, h.2]⟩
      · simp only [Prod.mk.injEq] at h
        exact ⟨e0, by rw [heq, h.2]⟩

/-- Witness of C12 as amended: a Top node whose child yields Continue returns Continue. -/
theorem top_evaluate_returns_children_value_witness :
    stencil_top_node.evaluate yield_children
        { location := ⟨"f", 1, 1⟩, children := [datum.undefined, datum.continue_] }
        ([] : List Char)
      = (Except.ok datum.continue_, []) :=
  (top_evaluate_returns_children_value yield_children
    { location := ⟨"f", 1, 1⟩, children := [datum.undefined, datum.continue_] }
    ([] : List Char)).1 datum.continue_ [] rfl

/-! ## Theorems: evaluate_call and the scope stack -/

/-- C15: `evaluate_call` evaluates the Block's children in the context with one new
innermost frame pushed, and depends on the children evaluator through that one call only;
whenever the children's evaluation completes, whatever value it yields, the context
afterwards is the one the children left with its innermost frame popped.  So when the
children left the frames below their own untouched, the scope stack after the call is the
scope stack before it: same depth, same frames. -/
theorem evaluate_call_pushes_and_pops {N : Type}
    (evaluate_children : expression_evaluation_context → List N →
      result expression_evaluation_context datum)
    (node : veer_block_node N expression_evaluation_context)
    (context : expression_evaluation_context) (arguments : List datum) (v : datum)
    (context1 : expression_evaluation_context)
    (hchildren : evaluate_children context.push node.children = (Except.ok v, context1)) :
    context.push.local_stack = [] :: context.local_stack ∧
    context.push.output = context.output ∧
    (∀ other : expression_evaluation_context → List N →
        result expression_evaluation_context datum,
      other context.push node.children = evaluate_children context.push node.children →
      veer_block_node.evaluate_call other node context arguments
        = veer_block_node.evaluate_call evaluate_children node context arguments) ∧
    (veer_block_node.evaluate_call evaluate_children node context arguments).2
      = context1.pop ∧
    (∀ frame, context1.local_stack = frame :: context.local_stack →
      (veer_block_node.evaluate_call evaluate_children node context arguments).2.local_stack
        = context.local_stack) ∧
    stencil_block_node.evaluate_call evaluate_children node context arguments
      = veer_block_node.evaluate_call evaluate_children node context arguments := by
  have hpop : (veer_block_node.evaluate_call evaluate_children node context arguments).2
      = context1.pop := by
    simp only [veer_block_node.evaluate_call, hchildren]
    split
    · rfl
    · split
      · rfl
      · split <;> rfl
  refine ⟨rfl, rfl, ?_, hpop, ?_, rfl⟩
  · intro other hother
    simp only [veer_block_node.evaluate_call, hother]
  · intro frame hframe
    rw [hpop]
    simp [expression_evaluation_context.pop, hframe]

/-- Witness of C15: a Block with the text child "b", called on a context with one frame
holding x = 1, writes "b" and leaves exactly that one frame. -/
theorem evaluate_call_pushes_and_pops_witness :
    (veer_block_node.evaluate_call evaluate_text_children example_block_text
        { output := ['a'], local_stack := [[("x", datum.number 1)]] } []).2.local_stack
      = [[("x", datum.number 1)]] :=
  (evaluate_call_pushes_and_pops evaluate_text_children example_block_text
    { output := ['a'], local_stack := [[("x", datum.number 1)]] } [] datum.undefined
    { output := ['a', 'b'], local_stack := [[], [("x", datum.number 1)]] } rfl).2.2.2.2.1
    [] rfl

/-- C16 as stated fails: a Block whose second child raises, called on a context with an
empty scope stack, lets the error out with the pushed frame still on the stack: the depth
is 1 after the call and was 0 before. -/
theorem evaluate_call_leaves_frame_on_error :
    veer_block_node.evaluate_call evaluate_children_or_raise example_block_raising
        { output := [], local_stack := [] } []
      = (Except.error (invalid_operation_error "child raised"),
         { output := ['a'], local_stack := [[]] }) ∧
    (veer_block_node.evaluate_call evaluate_children_or_raise example_block_raising
        { output := [], local_stack := [] } []).2.local_stack.length = 1 ∧
    ({ output := [], local_stack := [] } : expression_evaluation_context).local_stack.length
      = 0 :=
  ⟨rfl, rfl, rfl⟩

/-- C16, as the code behaves: when the evaluation of the Block's children raises inside
`evaluate_call`, the error leaves the function as it is and the context is the one the
children left: the pushed frame is not popped.  So when the children left the scope stack
at the depth they were given, it is one frame deeper after the call than before. -/
theorem evaluate_call_error_keeps_frame {N : Type}
    (evaluate_children : expression_evaluation_context → List N →
      result expression_evaluation_context datum)
    (node : veer_block_node N expression_evaluation_context)
    (context : expression_evaluation_context) (arguments : List datum) (e : error)
    (context1 : expression_evaluation_context)
    (hchildren : evaluate_children context.push node.children = (Except.error e, context1)) :
    veer_block_node.evaluate_call evaluate_children node context arguments
      = (Except.error e, context1) ∧
    (context1.local_stack.length = context.push.local_stack.length →
      (veer_block_node.evaluate_call evaluate_children node context arguments).2.local_stack.length
        = context.local_stack.length + 1) ∧
    stencil_block_node.evaluate_call evaluate_children node context arguments
      = veer_block_node.evaluate_call evaluate_children node context arguments := by
  have hcall : veer_block_node.evaluate_call evaluate_children node context arguments
      = (Except.error e, context1) := by
    simp only [veer_block_node.evaluate_call, hchildren]
  refine ⟨hcall, ?_, rfl⟩
  intro hdepth
  rw [hcall]
  simpa [expression_evaluation_context.push] using hdepth

/-- Witness of C16 as amended, on the Block whose second child raises. -/
theorem evaluate_call_error_keeps_frame_witness :
    veer_block_node.evaluate_call evaluate_children_or_raise example_block_raising
        { output := [], local_stack := [[("x", datum.number 1)]] } []
      = (Except.error (invalid_operation_error "child raised"),
         { output := ['a'], local_stack := [[], [("x", datum.number 1)]] }) :=
  (evaluate_call_error_keeps_frame evaluate_children_or_raise example_block_raising
    { output := [], local_stack := [[("x", datum.number 1)]] } []
    (invalid_operation_error "child raised")
    { output := ['a'], local_stack := [[], [("x", datum.number 1)]] } rfl).1

/-! ## Theorems: the structural builders of veer_if_node -/

/-- C18: `found_elif` and `found_else` return false, and leave the node as it is, when the
number of children groups differs from the number of expressions (an else branch was
opened); otherwise they return true, `found_elif` appending one expression, one location
and one empty children group, `found_else` appending one empty children group only.  Hence
after an accepted `found_else` a further `found_else` and a further `found_elif` are both
rejected. -/
theorem if_found_elif_found_else {N E : Type} (node : veer_if_node N E)
    (location location2 : parse_location) (expression expression2 : E) :
    (node.children_groups.length ≠ node.expressions.length →
      node.found_elif location expression = (false, node) ∧
      node.found_else location = (false, node)) ∧
    (node.children_groups.length = node.expressions.length →
      node.found_elif location expression
        = (true, { location := node.location
                   children_groups := node.children_groups ++ [[]]
                   expressions := node.expressions ++ [expression]
                   expression_locations := node.expression_locations ++ [location] }) ∧
      node.found_else location
        = (true, { location := node.location
                   children_groups := node.children_groups ++ [[]]
                   expressions := node.expressions
                   expression_locations := node.expression_locations }) ∧
      (node.found_else location).2.found_else location2
        = (false, (node.found_else location).2) ∧
      (node.found_else location).2.found_elif location2 expression2
        = (false, (node.found_else location).2)) := by
  constructor
  · intro hne
    simp [veer_if_node.found_elif, veer_if_node.found_else, hne]
  · intro heq
    have hne : (node.children_groups ++ [([] : List N)]).length ≠ node.expressions.length := by
      simp only [List.length_append, List.length_singleton]
      omega
    refine ⟨?_, ?_, ?_, ?_⟩
    · simp [veer_if_node.found_elif, heq]
    · simp [veer_if_node.found_else, heq]
    · simp only [veer_if_node.found_else, heq, ne_eq, not_true_eq_false, if_false]
      simp only [hne, ne_eq, not_false_eq_true, if_true]
    · simp only [veer_if_node.found_else, heq, ne_eq, not_true_eq_false, if_false,
        veer_if_node.found_elif]
      simp only [hne, ne_eq, not_false_eq_true, if_true]

/-- Witness of C18: on a freshly constructed If node `found_else` is accepted once; a second
`found_else` and a later `found_elif` are rejected. -/
theorem if_found_elif_found_else_witness :
    ((veer_if_node.construct ⟨"f", 1, 1⟩ (datum.boolean true) :
        veer_if_node veer_string_node datum).found_else ⟨"f", 3, 1⟩).1 = true ∧
    (((veer_if_node.construct ⟨"f", 1, 1⟩ (datum.boolean true) :
        veer_if_node veer_string_node datum).found_else ⟨"f", 3, 1⟩).2.found_else
          ⟨"f", 5, 1⟩).1 = false ∧
    (((veer_if_node.construct ⟨"f", 1, 1⟩ (datum.boolean true) :
        veer_if_node veer_string_node datum).found_else ⟨"f", 3, 1⟩).2.found_elif
          ⟨"f", 5, 1⟩ (datum.boolean false)).1 = false :=
  have h := (if_found_elif_found_else
    (veer_if_node.construct ⟨"f", 1, 1⟩ (datum.boolean true) :
      veer_if_node veer_string_node datum)
    ⟨"f", 3, 1⟩ ⟨"f", 5, 1⟩ (datum.boolean true) (datum.boolean false)).2 rfl
  ⟨congrArg Prod.fst h.2.1, congrArg Prod.fst h.2.2.1, congrArg Prod.fst h.2.2.2⟩

/-- C19: on an If node whose children groups are `earlier ++ [back]`, `append` returns true
and hands the last group `back` and the child to `append_child`; the groups before the last
one, the expressions and the expression locations stay as they are.  With an `append_child`
that puts the new child last, the child is the last element of the last children group. -/
theorem if_append_targets_last_group {N E : Type} (append_child : List N → N → List N)
    (node : veer_if_node N E) (x : N) (earlier : List (List N)) (back : List N)
    (hgroups : node.children_groups = earlier ++ [back])
    (hchild : ∀ g y, (append_child g y).getLast? = some y) :
    ∃ node', node.append append_child x = some (true, node') ∧
      node'.children_groups = earlier ++ [append_child back x] ∧
      (∃ last, node'.children_groups.getLast? = some last ∧ last.getLast? = some x) ∧
      node'.children_groups.length = node.children_groups.length ∧
      node'.expressions = node.expressions ∧
      node'.expression_locations = node.expression_locations ∧
      node'.location = node.location := by
  have hlast : node.children_groups.getLast? = some back := by
    rw [hgroups]; simp
  have hdrop : node.children_groups.dropLast = earlier := by
    rw [hgroups]; simp
  refine ⟨{ node with
      children_groups := node.children_groups.dropLast ++ [append_child back x] },
    by simp only [veer_if_node.append, hlast], ?_, ?_, ?_, rfl, rfl, rfl⟩
  · simp only [hdrop]
  · exact ⟨append_child back x, by simp, hchild back x⟩
  · simp [hdrop, hgroups]

/-- Witness of C19: appending the text "c" to an If node with the groups ["a"] and ["b"]
gives the groups ["a"] and ["b", "c"]. -/
theorem if_append_targets_last_group_witness :
    ∃ node', veer_if_node.append (fun g y => g ++ [y]) example_if_false_else
        ⟨⟨"f", 3, 1⟩, ['c']⟩ = some (true, node') ∧
      node'.children_groups
        = [[⟨⟨"f", 1, 9⟩, ['a']⟩]] ++ [[⟨⟨"f", 2, 9⟩, ['b']⟩] ++ [⟨⟨"f", 3, 1⟩, ['c']⟩]] :=
  have h := if_append_targets_last_group (fun g y => g ++ [y]) example_if_false_else
    (⟨⟨"f", 3, 1⟩, ['c']⟩ : veer_string_node) [[⟨⟨"f", 1, 9⟩, ['a']⟩]]
    [⟨⟨"f", 2, 9⟩, ['b']⟩] rfl (by intro g y; simp)
  match h with
  | ⟨node', h1, h2, _⟩ => ⟨node', h1, h2⟩

/-! ## Theorems: veer_string_node::evaluate -/

/-- C20: `veer_string_node::evaluate` returns Undefined and leaves the context with the
node's text appended to the output and the scope stack as it was. -/
theorem text_evaluate_writes_text (node : veer_string_node)
    (context : expression_evaluation_context) :
    veer_string_node.evaluate node context
      = (Except.ok datum.undefined,
         { output := context.output ++ node.text, local_stack := context.local_stack }) ∧
    veer_string_node.evaluate node context
      = (Except.ok datum.undefined, context.write node.text) :=
  ⟨rfl, rfl⟩

/-! ## Theorems: construction and post_process of the block nodes -/

theorem post_process_children_keeps_stack {N σ : Type}
    (cpp : N → expression_post_process_context σ →
      result (N × expression_post_process_context σ) Unit)
    (hkeep : ∀ child c child' c', cpp child c = (Except.ok (), (child', c')) →
      c'.super_stack = c.super_stack)
    (children : List N) :
    ∀ (c : expression_post_process_context σ) (children' : List N)
      (c' : expression_post_process_context σ),
      post_process_children cpp children c = (Except.ok (), (children', c')) →
      c'.super_stack = c.super_stack := by
  induction children with
  | nil =>
    intro c children' c' h
    simp only [post_process_children, Prod.mk.injEq, true_and] at h
    rw [← h.2]
  | cons child rest ih =>
    intro c children' c' h
    rcases hc : cpp child c with ⟨r, child1, c1⟩
    cases r with
    | error e => simp [post_process_children, hc] at h
    | ok u =>
      rcases hrest : post_process_children cpp rest c1 with ⟨r2, rest1, c2⟩
      simp only [post_process_children, hc, hrest, Prod.mk.injEq] at h
      obtain ⟨hr, -, hc2⟩ := h
      subst hr hc2
      rw [ih c1 rest1 c2 hrest]
      exact hkeep child c child1 c1 hc

theorem post_process_children_recorded {N P : Type} (cpp : N → P → result (N × P) Unit)
    (children : List N) :
    ∀ (c : P) (log : List (N × P)),
      (post_process_children (recording_post_process cpp) children (c, log)).1
        = (post_process_children cpp children c).1 ∧
      (post_process_children (recording_post_process cpp) children (c, log)).2.1
        = (post_process_children cpp children c).2.1 ∧
      (post_process_children (recording_post_process cpp) children (c, log)).2.2.1
        = (post_process_children cpp children c).2.2 ∧
      ((post_process_children cpp children c).1 = Except.ok () →
        ((post_process_children (recording_post_process cpp) children (c, log)).2.2.2).map
            Prod.fst
          = log.map Prod.fst ++ children) := by
  induction children with
  | nil =>
    intro c log
    simp [post_process_children]
  | cons child rest ih =>
    intro c log
    rcases hc : cpp child c with ⟨r, child1, c1⟩
    cases r with
    | error e => simp [post_process_children, recording_post_process, hc]
    | ok u =>
      obtain ⟨h1, h2, h3, h4⟩ := ih c1 (log ++ [(child, c)])
      rcases hrest : post_process_children cpp rest c1 with ⟨r2, rest1, c2⟩
      rcases hrec : post_process_children (recording_post_process cpp) rest
          (c1, log ++ [(child, c)]) with ⟨r3, rest3, c3, log3⟩
      rw [hrest, hrec] at h1 h2 h3 h4
      simp only at h1 h2 h3 h4
      simp only [post_process_children, recording_post_process, hc, hrest, hrec]
      refine ⟨h1, by rw [h2], h3, ?_⟩
      intro hok
      rw [h4 hok]
      simp

theorem children_visited_stack {N σ : Type}
    (cpp : N → expression_post_process_context σ →
      result (N × expression_post_process_context σ) Unit)
    (hkeep : ∀ child c child' c', cpp child c = (Except.ok (), (child', c')) →
      c'.super_stack = c.super_stack)
    (stack : List (Option (function_type σ))) (children : List N) :
    ∀ (c : expression_post_process_context σ)
      (log : List (N × expression_post_process_context σ)),
      c.super_stack = stack → (∀ entry ∈ log, entry.2.super_stack = stack) →
      ∀ entry ∈ (post_process_children (recording_post_process cpp) children (c, log)).2.2.2,
        entry.2.super_stack = stack := by
  induction children with
  | nil =>
    intro c log _ hlog
    simpa [post_process_children] using hlog
  | cons child rest ih =>
    intro c log hc hlog
    have hlog' : ∀ entry ∈ log ++ [(child, c)], entry.2.super_stack = stack := by
      intro entry hentry
      rcases List.mem_append.mp hentry with h | h
      · exact hlog entry h
      · simp only [List.mem_singleton] at h
        subst h
        exact hc
    rcases hcpp : cpp child c with ⟨r, child1, c1⟩
    cases r with
    | error e =>
      simpa [post_process_children, recording_post_process, hcpp] using hlog'
    | ok u =>
      have hc1 : c1.super_stack = stack := by
        rw [hkeep child c child1 c1 hcpp]
        exact hc
      have := ih c1 (log ++ [(child, c)]) hc1 hlog'
      rcases hrec : post_process_children (recording_post_process cpp) rest
          (c1, log ++ [(child, c)]) with ⟨r3, rest3, c3, log3⟩
      rw [hrec] at this
      simpa [post_process_children, recording_post_process, hcpp, hrec] using this

theorem block_post_process_outcome {N σ : Type} (cla : N → N)
    (cpp : N → expression_post_process_context σ →
      result (N × expression_post_process_context σ) Unit)
    (hkeep : ∀ child c child' c', cpp child c = (Except.ok (), (child', c')) →
      c'.super_stack = c.super_stack)
    (node : veer_block_node N σ) (context : expression_post_process_context σ)
    (f : function_type σ) (hf : context.get_function node.name = some f) :
    ∃ outcome, veer_block_node.post_process cla cpp node context = some outcome ∧
      outcome.2.1.function = some f ∧
      outcome.2.1.name = node.name ∧
      outcome.2.1.location = node.location ∧
      outcome.2.1.super_function = node.super_function ∧
      outcome.2.2.functions
        = (post_process_children cpp (left_align_last cla node.children)
            (context.push_super node.super_function)).2.2.functions ∧
      (outcome.1 = Except.ok () → outcome.2.2.super_stack = context.super_stack) := by
  rcases hloop : post_process_children cpp (left_align_last cla node.children)
      (context.push_super node.super_function) with ⟨r, children1, c1⟩
  cases r with
  | error e =>
    refine ⟨(Except.error e,
      ({ node with children := children1, function := some f }, c1)),
      by simp only [veer_block_node.post_process, hf, hloop], rfl, rfl, rfl, rfl, rfl, ?_⟩
    intro h
    simp at h
  | ok u =>
    have hstack : c1.super_stack = node.super_function :: context.super_stack :=
      post_process_children_keeps_stack cpp hkeep _ _ _ _ hloop
    have hpop : c1.pop_super = some { c1 with super_stack := context.super_stack } := by
      simp only [expression_post_process_context.pop_super, hstack]
    exact ⟨(Except.ok (), ({ node with children := children1, function := some f },
        { c1 with super_stack := context.super_stack })),
      by simp only [veer_block_node.post_process, hf, hloop, hpop], rfl, rfl, rfl, rfl, rfl,
      fun _ => rfl⟩

/-- C13: constructing Block A and then Block B under the same name `n` on a post-process
context registers each body under `n` and stores in `super_function` what was registered
under `n` just before: A gets the earlier registration (none if there was none), B gets A's
body; other names are left alone.  Afterwards `post_process`, run on any context in which
`n` still resolves to B's body, sets `function` of A and of B (whatever children were
appended meanwhile) to B's body. -/
theorem block_construct_registers_body {N σ : Type}
    (context : expression_post_process_context σ) (location_a location_b : parse_location)
    (n : String) (body_a body_b : function_type σ)
    (a b : veer_block_node N σ) (context_a context_b : expression_post_process_context σ)
    (ha : veer_block_node.construct location_a context n body_a = (a, context_a))
    (hb : veer_block_node.construct location_b context_a n body_b = (b, context_b)) :
    a.name = n ∧ b.name = n ∧
    context_a.get_function n = some body_a ∧
    a.super_function = context.get_function n ∧
    context_b.get_function n = some body_b ∧
    b.super_function = some body_a ∧
    (∀ m, m ≠ n → context_b.get_function m = context.get_function m) ∧
    context_b.super_stack = context.super_stack ∧
    (∀ (cla : N → N)
      (cpp : N → expression_post_process_context σ →
        result (N × expression_post_process_context σ) Unit)
      (c : expression_post_process_context σ) (children_a children_b : List N),
      (∀ child c0 child' c', cpp child c0 = (Except.ok (), (child', c')) →
        c'.super_stack = c0.super_stack) →
      c.get_function n = some body_b →
      (∃ outcome, veer_block_node.post_process cla cpp { a with children := children_a } c
          = some outcome ∧ outcome.2.1.function = some body_b
          ∧ outcome.2.1.super_function = context.get_function n) ∧
      (∃ outcome, veer_block_node.post_process cla cpp { b with children := children_b } c
          = some outcome ∧ outcome.2.1.function = some body_b
          ∧ outcome.2.1.super_function = some body_a)) ∧
    stencil_block_node.construct location_a context n body_a
      = (veer_block_node.construct location_a context n body_a :
          veer_block_node N σ × expression_post_process_context σ) := by
  simp only [veer_block_node.construct, expression_post_process_context.set_function,
    Prod.mk.injEq] at ha hb
  obtain ⟨ha1, ha2⟩ := ha
  obtain ⟨hb1, hb2⟩ := hb
  subst ha1 ha2 hb1 hb2
  refine ⟨rfl, rfl, ?_, rfl, ?_, ?_, ?_, rfl, ?_, rfl⟩
  · simp [expression_post_process_context.get_function]
  · simp [expression_post_process_context.get_function]
  · simp
  · intro m hm
    simp [expression_post_process_context.get_function, hm]
  · intro cla cpp c children_a children_b hkeep hc
    constructor
    · obtain ⟨outcome, h1, h2, -, -, h5, -⟩ := block_post_process_outcome cla cpp hkeep
        { location := location_a, name := n, children := children_a, function := none,
          super_function := context.functions n } c body_b hc
      exact ⟨outcome, h1, h2, h5⟩
    · obtain ⟨outcome, h1, h2, -, -, h5, -⟩ := block_post_process_outcome cla cpp hkeep
        { location := location_b, name := n, children := children_b, function := none,
          super_function := (if n = n then some body_a else context.functions n) }
        c body_b hc
      exact ⟨outcome, h1, h2, by rw [h5]; simp⟩

/-- Witness of C13: block A and then block B constructed under the name "x" on an empty
post-process context: "x" resolves to B's body, B's super function is A's body and A's is
empty. -/
theorem block_construct_registers_body_witness :
    example_registry.get_function "x" = some example_body_b ∧
    (veer_block_node.construct (N := veer_string_node) ⟨"b", 1, 1⟩
      (veer_block_node.construct (N := veer_string_node) ⟨"a", 1, 1⟩
        (empty_post_process_context expression_evaluation_context) "x" example_body_a).2
      "x" example_body_b).1.super_function = some example_body_a ∧
    (veer_block_node.construct (N := veer_string_node) ⟨"a", 1, 1⟩
      (empty_post_process_context expression_evaluation_context) "x"
      example_body_a).1.super_function = none :=
  have h := block_construct_registers_body (N := veer_string_node)
    (empty_post_process_context expression_evaluation_context) ⟨"a", 1, 1⟩ ⟨"b", 1, 1⟩ "x"
    example_body_a example_body_b
    (veer_block_node.construct ⟨"a", 1, 1⟩
      (empty_post_process_context expression_evaluation_context) "x" example_body_a).1
    (veer_block_node.construct ⟨"b", 1, 1⟩
      (veer_block_node.construct (N := veer_string_node) ⟨"a", 1, 1⟩
        (empty_post_process_context expression_evaluation_context) "x" example_body_a).2
      "x" example_body_b).1
    (veer_block_node.construct (N := veer_string_node) ⟨"a", 1, 1⟩
      (empty_post_process_context expression_evaluation_context) "x" example_body_a).2
    example_registry rfl rfl
  ⟨h.2.2.2.2.1, h.2.2.2.2.2.1, h.2.2.2.1⟩

theorem block_evaluate_context {N σ : Type} (x : veer_block_node N σ) (f : function_type σ)
    (hx : x.function = some f) (context : σ) :
    (veer_block_node.evaluate x context).2 = (f context []).2 := by
  simp only [veer_block_node.evaluate, hx]
  split
  · rename_i e c1 heq
    rw [heq]
    split <;> rfl
  · rename_i tmp c1 heq
    rw [heq]
    split
    · rfl
    · split
      · rfl
      · split <;> rfl

/-- C14: `evaluate` of a Block calls the function `post_process` resolved for its name, on
the empty argument vector, and depends on nothing else of that function.  When that
function is the body of Block B (B was registered last under the name), evaluating Block A,
or any Block whose resolved function is B's body, leaves the context, and so the output,
that `evaluate_call` on B leaves, and returns Undefined with B's children evaluated when
those yield Undefined. -/
theorem block_evaluate_invokes_resolved_function {N : Type}
    (ec : expression_evaluation_context → List N →
      result expression_evaluation_context datum)
    (cla : N → N)
    (cpp : N → expression_post_process_context expression_evaluation_context →
      result (N × expression_post_process_context expression_evaluation_context) Unit)
    (a b a2 : veer_block_node N expression_evaluation_context)
    (registry registry2 : expression_post_process_context expression_evaluation_context)
    (body_b : function_type expression_evaluation_context)
    (context : expression_evaluation_context)
    (hresolved : registry.get_function a.name = some body_b)
    (hpost : veer_block_node.post_process cla cpp a registry
      = some (Except.ok (), (a2, registry2)))
    (hbody : ∀ c arguments, body_b c arguments = veer_block_node.evaluate_call ec b c arguments) :
    a2.function = some body_b ∧
    (∀ x : veer_block_node N expression_evaluation_context, x.function = some body_b →
      (∀ g : function_type expression_evaluation_context,
        g context [] = body_b context [] →
        veer_block_node.evaluate { x with function := some g } context
          = veer_block_node.evaluate x context) ∧
      (veer_block_node.evaluate x context).2
        = (veer_block_node.evaluate_call ec b context []).2 ∧
      (∀ context1, ec context.push b.children = (Except.ok datum.undefined, context1) →
        veer_block_node.evaluate x context = (Except.ok datum.undefined, context1.pop))) ∧
    stencil_block_node.evaluate a2 context = veer_block_node.evaluate a2 context := by
  refine ⟨?_, ?_, rfl⟩
  · simp only [veer_block_node.post_process, hresolved] at hpost
    split at hpost
    · simp at hpost
    · split at hpost
      · simp at hpost
      · simp only [Option.some.injEq, Prod.mk.injEq, true_and] at hpost
        rw [← hpost.1]
  · intro x hx
    refine ⟨?_, ?_, ?_⟩
    · intro g hg
      simp only [veer_block_node.evaluate, hx, hg]
    · rw [block_evaluate_context x body_b hx context, hbody]
    · intro context1 hchildren
      have hcall : body_b context [] = (Except.ok datum.undefined, context1.pop) := by
        rw [hbody]
        simp [veer_block_node.evaluate_call, hchildren, datum.is_break, datum.is_continue,
          datum.is_undefined]
      simp [veer_block_node.evaluate, hx, hcall, datum.is_break, datum.is_continue,
        datum.is_undefined]

/-- Witness of C14: block A (text "A") post-processed on the context in which block B
(text "B") was registered last under the same name writes "B" when evaluated. -/
theorem block_evaluate_invokes_resolved_function_witness :
    veer_block_node.evaluate { example_block_a with function := some example_body_b }
        { output := [], local_stack := [] }
      = (Except.ok datum.undefined, { output := ['B'], local_stack := [] }) :=
  ((block_evaluate_invokes_resolved_function evaluate_text_children
    veer_string_node.left_align text_post_process example_block_a example_block_b
    { example_block_a with function := some example_body_b } example_registry
    example_registry example_body_b { output := [], local_stack := [] } rfl rfl
    (fun _ _ => rfl)).2.1
    { example_block_a with function := some example_body_b } rfl).2.2
    { output := ['B'], local_stack := [[]] } rfl

/-- C17: `post_process` of a Block whose name resolves pushes the Block's `super_function`
on the super stack, post-processes the children with that stack and pops once.  Provided
each child's `post_process` that completes leaves the super stack as it found it: every
child is visited with `super_function` on top of the stack the Block was given;
`post_process` always has an outcome (its pop never meets an empty stack); and when it
completes, every child was visited, in document order, and the super stack is the one the
Block was given, which is what a Block nested in another one needs. -/
theorem block_post_process_pairs_super_stack {N σ : Type} (cla : N → N)
    (cpp : N → expression_post_process_context σ →
      result (N × expression_post_process_context σ) Unit)
    (node : veer_block_node N σ) (context : expression_post_process_context σ)
    (f : function_type σ)
    (hkeep : ∀ child c child' c', cpp child c = (Except.ok (), (child', c')) →
      c'.super_stack = c.super_stack)
    (hf : context.get_function node.name = some f) :
    (context.push_super node.super_function).super_stack
      = node.super_function :: context.super_stack ∧
    (∀ entry ∈ children_visited cpp (left_align_last cla node.children)
        (context.push_super node.super_function),
      entry.2.super_stack = node.super_function :: context.super_stack) ∧
    (∃ outcome, veer_block_node.post_process cla cpp node context = some outcome ∧
      (outcome.1 = Except.ok () →
        outcome.2.2.super_stack = context.super_stack ∧
        (children_visited cpp (left_align_last cla node.children)
            (context.push_super node.super_function)).map Prod.fst
          = left_align_last cla node.children)) ∧
    stencil_block_node.post_process cla cpp node context
      = veer_block_node.post_process cla cpp node context := by
  refine ⟨rfl, ?_, ?_, rfl⟩
  · exact children_visited_stack cpp hkeep _ _ _ [] rfl (by simp)
  · obtain ⟨outcome, h1, -, -, -, -, -, h7⟩ :=
      block_post_process_outcome cla cpp hkeep node context f hf
    refine ⟨outcome, h1, ?_⟩
    intro hok
    refine ⟨h7 hok, ?_⟩
    have hrec := (post_process_children_recorded cpp (left_align_last cla node.children)
      (context.push_super node.super_function) []).2.2.2
    have hloop : (post_process_children cpp (left_align_last cla node.children)
        (context.push_super node.super_function)).1 = Except.ok () := by
      simp only [veer_block_node.post_process, hf] at h1
      split at h1
      · rename_i e children1 c1 heq
        simp only [Option.some.injEq] at h1
        rw [← h1] at hok
        simp at hok
      · rename_i u children1 c1 heq
        rw [heq]
    simpa [children_visited] using hrec hloop

/-- Witness of C17: the Block with the text child "b", post-processed on a context whose
super stack holds one entry, completes and leaves that stack. -/
theorem block_post_process_pairs_super_stack_witness :
    ∃ outcome, veer_block_node.post_process veer_string_node.left_align text_post_process
        example_block_text
        { functions := fun _ => some example_body_a, super_stack := [none] } = some outcome ∧
      (outcome.1 = Except.ok () →
        outcome.2.2.super_stack = [none] ∧
        (children_visited text_post_process
            (left_align_last veer_string_node.left_align example_block_text.children)
            (expression_post_process_context.push_super
              { functions := fun _ => some example_body_a, super_stack := [none] }
              example_block_text.super_function)).map Prod.fst
          = left_align_last veer_string_node.left_align example_block_text.children) :=
  (block_post_process_pairs_super_stack veer_string_node.left_align text_post_process
    example_block_text { functions := fun _ => some example_body_a, super_stack := [none] }
    example_body_a
    (by
      intro child c child' c' h
      simp only [text_post_process, Prod.mk.injEq, true_and] at h
      rw [h.2])
    rfl).2.2.1

/-! ## Theorems: errors passing through Top and Block -/

/-- C24 as stated fails: a Block whose resolved function raises a parse error without
location lets it out of `evaluate` as it is, still without a location. -/
theorem block_evaluate_parse_error_keeps_no_location :
    veer_block_node.evaluate example_block_parse_error []
      = (Except.error { cls := exception_class.parse_error, message := "unexpected token",
                        location := none }, []) :=
  rfl

/-- C24, as the code behaves: when the function `evaluate` of a Block invokes raises, an
invalid-operation error leaves `evaluate` after `merge_location`, so with the Block's
location when it had none; an error of any other class leaves `evaluate` unchanged, so
without a location when it had none. -/
theorem block_evaluate_merges_location {N σ : Type} (node : veer_block_node N σ)
    (context : σ) (f : function_type σ) (e : error) (context1 : σ)
    (hf : node.function = some f)
    (hraise : f context [] = (Except.error e, context1)) :
    (e.cls = exception_class.invalid_operation_error →
      veer_block_node.evaluate node context
        = (Except.error (e.merge_location node.location), context1) ∧
      (e.location = none →
        (e.merge_location node.location).location = some node.location)) ∧
    (e.cls ≠ exception_class.invalid_operation_error →
      veer_block_node.evaluate node context = (Except.error e, context1)) ∧
    stencil_block_node.evaluate node context = veer_block_node.evaluate node context := by
  refine ⟨?_, ?_, rfl⟩
  · intro hcls
    refine ⟨by simp [veer_block_node.evaluate, hf, hraise, hcls], ?_⟩
    intro hnone
    simp [error.merge_location, hnone]
  · intro hcls
    simp [veer_block_node.evaluate, hf, hraise, hcls]

/-- Witness of C24 as amended: a Block at line 7 whose function raises an invalid-operation
error without location raises it located at line 7. -/
theorem block_evaluate_merges_location_witness :
    veer_block_node.evaluate
        ({ location := ⟨"f", 7, 1⟩, name := "x", children := [],
           function := some (fun context _ =>
             (Except.error (invalid_operation_error "bad operand"), context)),
           super_function := none } : veer_block_node veer_string_node (List Char)) []
      = (Except.error { cls := exception_class.invalid_operation_error,
                        message := "bad operand", location := some ⟨"f", 7, 1⟩ }, []) :=
  ((block_evaluate_merges_location
    ({ location := ⟨"f", 7, 1⟩, name := "x", children := [],
       function := some (fun context _ =>
         (Except.error (invalid_operation_error "bad operand"), context)),
       super_function := none } : veer_block_node veer_string_node (List Char)) []
    (fun context _ => (Except.error (invalid_operation_error "bad operand"), context))
    (invalid_operation_error "bad operand") [] rfl rfl).1 rfl).1

/-! ## Theorems: huffman_tree -/

/-- C28: `get`, with the state on a node pair and the code bit `b`, reads entry `b` of the
pair: an entry 0 raises the parse error "Code not in huffman tree."; a positive entry is
returned less one, which is not negative; a negative entry makes `get` return a negative
number and leaves the state `-entry` positions after that entry. -/
theorem huffman_get_cases (t : huffman_tree) (b : Bool) (state entry : Int)
    (hread : huffman_tree.read t.tree (state + (if b then 1 else 0)) = some entry) :
    (entry = 0 →
      t.get b state = some (Except.error (parse_error "Code not in huffman tree."),
        state + (if b then 1 else 0))) ∧
    (0 < entry →
      t.get b state
        = some (Except.ok (entry - 1), state + (if b then 1 else 0) - entry) ∧
      0 ≤ entry - 1) ∧
    (entry < 0 →
      t.get b state
        = some (Except.ok (entry - 1), state + (if b then 1 else 0) + -entry) ∧
      entry - 1 < 0) := by
  refine ⟨?_, ?_, ?_⟩
  · intro h
    simp [huffman_tree.get, hread, h]
  · intro h
    have hne : entry ≠ 0 := by omega
    exact ⟨by simp only [huffman_tree.get, hread, hne, if_false], by omega⟩
  · intro h
    have hne : entry ≠ 0 := by omega
    refine ⟨?_, by omega⟩
    simp only [huffman_tree.get, hread, hne, if_false]
    congr 2

/-- Witness of C28 on the tree [-2, 4, 0, 8]: bit 1 at the root returns the symbol 3, bit 0
at the root returns -3 and moves to the pair at index 2, and bit 0 there raises. -/
theorem huffman_get_cases_witness :
    huffman_tree.get { tree := [-2, 4, 0, 8] } true 0
      = some (Except.ok (4 - 1), 0 + 1 - 4) ∧
    huffman_tree.get { tree := [-2, 4, 0, 8] } false 0
      = some (Except.ok (-2 - 1), 0 + 0 + - -2) ∧
    huffman_tree.get { tree := [-2, 4, 0, 8] } false 2
      = some (Except.error (parse_error "Code not in huffman tree."), 2) :=
  ⟨((huffman_get_cases { tree := [-2, 4, 0, 8] } true 0 4 (by decide)).2.1 (by decide)).1,
   ((huffman_get_cases { tree := [-2, 4, 0, 8] } false 0 (-2) (by decide)).2.2
      (by decide)).1,
   (huffman_get_cases { tree := [-2, 4, 0, 8] } false 2 0 (by decide)).1 rfl⟩

/-! ## Theorems: left_align in post_process -/

theorem left_align_last_append {N : Type} (cla : N → N) (init : List N) (last : N) :
    left_align_last cla (init ++ [last]) = init ++ [cla last] := by
  simp [left_align_last]

theorem post_process_groups_recorded {N P : Type} (cla : N → N)
    (cpp : N → P → result (N × P) Unit) (groups : List (List N)) :
    ∀ (c : P) (log : List (N × P)),
      (veer_if_node.post_process_groups cla (recording_post_process cpp) groups (c, log)).1
        = (veer_if_node.post_process_groups cla cpp groups c).1 ∧
      (veer_if_node.post_process_groups cla (recording_post_process cpp) groups (c, log)).2.1
        = (veer_if_node.post_process_groups cla cpp groups c).2.1 ∧
      (veer_if_node.post_process_groups cla (recording_post_process cpp) groups
          (c, log)).2.2.1
        = (veer_if_node.post_process_groups cla cpp groups c).2.2 ∧
      ((veer_if_node.post_process_groups cla cpp groups c).1 = Except.ok () →
        ((veer_if_node.post_process_groups cla (recording_post_process cpp) groups
            (c, log)).2.2.2).map Prod.fst
          = log.map Prod.fst ++ (groups.map (left_align_last cla)).flatten) := by
  induction groups with
  | nil =>
    intro c log
    simp [veer_if_node.post_process_groups]
  | cons children rest ih =>
    intro c log
    obtain ⟨h1, h2, h3, h4⟩ :=
      post_process_children_recorded cpp (left_align_last cla children) c log
    rcases hplain : post_process_children cpp (left_align_last cla children) c with
      ⟨r, children1, c1⟩
    rcases hrec : post_process_children (recording_post_process cpp)
        (left_align_last cla children) (c, log) with ⟨r', children1', c1', log1⟩
    rw [hplain, hrec] at h1 h2 h3 h4
    simp only at h1 h2 h3 h4
    subst h1 h2 h3
    cases r' with
    | error e => simp [veer_if_node.post_process_groups, hplain, hrec]
    | ok u =>
      obtain ⟨g1, g2, g3, g4⟩ := ih c1' log1
      rcases hplain2 : veer_if_node.post_process_groups cla cpp rest c1' with
        ⟨r2, rest1, c2⟩
      rcases hrec2 : veer_if_node.post_process_groups cla (recording_post_process cpp) rest
          (c1', log1) with ⟨r3, rest3, c3, log3⟩
      rw [hplain2, hrec2] at g1 g2 g3 g4
      simp only at g1 g2 g3 g4
      simp only [veer_if_node.post_process_groups, hplain, hrec, hplain2, hrec2]
      refine ⟨g1, by rw [g2], g3, ?_⟩
      intro hok
      rw [g4 hok, h4 rfl]
      simp

theorem post_process_expressions_beside_log {N E P : Type}
    (ppe : E → parse_location → P → result (E × P) Unit) (n : Nat) :
    ∀ (i : Nat) (es : List E) (ls : List parse_location) (c : P) (log : List (N × P)),
      veer_if_node.post_process_expressions (beside_log ppe) n i es ls (c, log)
        = (veer_if_node.post_process_expressions ppe n i es ls c).map
            (fun r => (r.1, (r.2.1, (r.2.2, log)))) := by
  induction n with
  | zero =>
    intro i es ls c log
    simp [veer_if_node.post_process_expressions]
  | succ n ih =>
    intro i es ls c log
    cases he : es[i]? with
    | none => simp [veer_if_node.post_process_expressions, he]
    | some e =>
      cases hl : ls[i]? with
      | none => simp [veer_if_node.post_process_expressions, he, hl]
      | some l =>
        rcases hp : ppe e l c with ⟨r, e1, c1⟩
        cases r with
        | error err =>
          simp [veer_if_node.post_process_expressions, he, hl, beside_log, hp]
        | ok u =>
          simp only [veer_if_node.post_process_expressions, he, hl, beside_log, hp]
          exact ih (i + 1) (es.set i e1) ls c1 log

/-- C22: `post_process` left-aligns the last child of a child sequence, and that child
only, before it post-processes the children in order.  The statement at the head of every
`post_process` leaves an empty sequence alone and turns `init ++ [last]` into `init` followed
by the left-aligned `last`.  When `post_process` completes, the children it post-processed
are, in order and as they were when their turn came: for a Top and for a Block the
children with the last one left-aligned, for an If the children of every group with the
last one of each group left-aligned. -/
theorem post_process_left_aligns_last_child {N E P σ : Type} (cla : N → N) :
    left_align_last cla [] = [] ∧
    (∀ (init : List N) (last : N), left_align_last cla (init ++ [last]) = init ++ [cla last]) ∧
    (∀ (cpp : N → P → result (N × P) Unit) (top : stencil_top_node N) (context : P),
      (stencil_top_node.post_process cla cpp top context).1 = Except.ok () →
      stencil_top_node.visited cla cpp top context = left_align_last cla top.children) ∧
    (∀ (cpp : N → expression_post_process_context σ →
          result (N × expression_post_process_context σ) Unit)
        (block : veer_block_node N σ) (context : expression_post_process_context σ) out,
      veer_block_node.post_process cla cpp block context = some (Except.ok (), out) →
      (children_visited cpp (left_align_last cla block.children)
          (context.push_super block.super_function)).map Prod.fst
        = left_align_last cla block.children) ∧
    (∀ (ppe : E → parse_location → P → result (E × P) Unit)
        (cpp : N → P → result (N × P) Unit) (node : veer_if_node N E) (context : P) out,
      veer_if_node.post_process ppe cla cpp node context = some (Except.ok (), out) →
      veer_if_node.visited ppe cla cpp node context
        = some ((node.children_groups.map (left_align_last cla)).flatten)) := by
  refine ⟨rfl, left_align_last_append cla, ?_, ?_, ?_⟩
  · intro cpp top context hok
    have hrec := (post_process_children_recorded cpp (left_align_last cla top.children)
      context []).2.2.2
    rcases hplain : post_process_children cpp (left_align_last cla top.children) context with
      ⟨r, children1, c1⟩
    simp only [stencil_top_node.post_process, hplain] at hok
    rw [hplain] at hrec
    rcases hr : post_process_children (recording_post_process cpp)
        (left_align_last cla top.children) (context, []) with ⟨r', children1', c1', log1⟩
    rw [hr] at hrec
    simp only [stencil_top_node.visited, stencil_top_node.post_process, hr]
    simpa using hrec hok
  · intro cpp block context out hpost
    have hrec := (post_process_children_recorded cpp (left_align_last cla block.children)
      (context.push_super block.super_function) []).2.2.2
    have hloop : (post_process_children cpp (left_align_last cla block.children)
        (context.push_super block.super_function)).1 = Except.ok () := by
      unfold veer_block_node.post_process at hpost
      simp only at hpost
      split at hpost
      · simp at hpost
      · split at hpost
        · simp at hpost
        · rename_i u children1 c1 heq
          rw [heq]
    simpa [children_visited] using hrec hloop
  · intro ppe cpp node context out hpost
    unfold veer_if_node.post_process at hpost
    split at hpost
    · rename_i hlen
      split at hpost
      · simp at hpost
      · simp at hpost
      · rename_i u expressions1 context1 hexpr
        rcases hplain : veer_if_node.post_process_groups cla cpp node.children_groups
            context1 with ⟨r, groups1, c2⟩
        rw [hplain] at hpost
        simp only [Option.some.injEq, Prod.mk.injEq] at hpost
        have hgroups := (post_process_groups_recorded cla cpp node.children_groups context1
          []).2.2.2
        rw [hplain] at hgroups
        rcases hrec : veer_if_node.post_process_groups cla (recording_post_process cpp)
            node.children_groups (context1, []) with ⟨r', groups1', c2', log2⟩
        rw [hrec] at hgroups
        have hbeside := post_process_expressions_beside_log (N := N) ppe
          node.expressions.length 0 node.expressions node.expression_locations context []
        rw [hexpr] at hbeside
        simp only [Option.map_some'] at hbeside
        have := hgroups hpost.1
        unfold veer_if_node.visited veer_if_node.post_process
        rw [if_pos hlen, hbeside]
        simp only [hrec, Option.map_some']
        simpa using this
    · simp at hpost

/-- Witness of C22: a Top node with the texts "a \n " and "b\n  " post-processes the first
as it is and the second left-aligned to "b\n". -/
theorem post_process_left_aligns_last_child_witness :
    stencil_top_node.visited veer_string_node.left_align text_post_process
        { location := ⟨"f", 1, 1⟩,
          children := [⟨⟨"f", 1, 1⟩, ['a', ' ', '\n', ' ']⟩,
                       ⟨⟨"f", 2, 1⟩, ['b', '\n', ' ', ' ']⟩] } ()
      = [⟨⟨"f", 1, 1⟩, ['a', ' ', '\n', ' ']⟩, ⟨⟨"f", 2, 1⟩, ['b', '\n']⟩] :=
  (post_process_left_aligns_last_child (E := Unit) (P := Unit) (σ := Unit)
    veer_string_node.left_align).2.2.1 text_post_process
    { location := ⟨"f", 1, 1⟩,
      children := [⟨⟨"f", 1, 1⟩, ['a', ' ', '\n', ' ']⟩,
                   ⟨⟨"f", 2, 1⟩, ['b', '\n', ' ', ' ']⟩] } () rfl

/-! ## Theorems: documents of Text nodes and If nodes -/

theorem evaluate_text_children_writes (children : List veer_string_node) :
    ∀ context : expression_evaluation_context,
      evaluate_text_children context children
        = (Except.ok datum.undefined,
           { output := context.output ++ (children.map (fun n => n.text)).flatten,
             local_stack := context.local_stack }) := by
  induction children with
  | nil =>
    intro context
    simp [evaluate_text_children]
  | cons child rest ih =>
    intro context
    simp only [evaluate_text_children, veer_string_node.evaluate, ih,
      expression_evaluation_context.write]
    simp

theorem evaluate_children_text (children : List veer_string_node) :
    ∀ context : expression_evaluation_context,
      evaluate_children (fun c n => some (veer_string_node.evaluate n c)) context children
        = some (evaluate_text_children context children) := by
  induction children with
  | nil =>
    intro context
    simp [evaluate_children, evaluate_text_children]
  | cons child rest ih =>
    intro context
    simp only [evaluate_children, evaluate_text_children, veer_string_node.evaluate,
      datum.is_undefined, if_true]
    exact ih _

theorem evaluate_loop_selected_branch {N E σ : Type} (truthy : datum → Bool)
    (ee : σ → E → parse_location → result σ datum) (ec : σ → List N → result σ datum)
    (node : veer_if_node N E) (context : σ) (value : E → datum)
    (hee : ∀ e l, ee context e l = (Except.ok (value e), context))
    (hempty : ec context [] = (Except.ok datum.undefined, context))
    (hlen : node.expressions.length = node.expression_locations.length)
    (hgroups : node.expressions.length ≤ node.children_groups.length) (n : Nat) :
    ∀ i, i + n = node.expressions.length →
      veer_if_node.evaluate_loop truthy ee ec node n i context
        = some (ec context (selected_branch truthy value (node.expressions.drop i)
            (node.children_groups.drop i))) := by
  induction n with
  | zero =>
    intro i hi
    have hi' : i = node.expressions.length := by omega
    subst hi'
    simp only [veer_if_node.evaluate_loop, List.drop_length, selected_branch,
      List.headD_eq_head?_getD, List.head?_drop]
    by_cases helse : node.children_groups.length > node.expressions.length
    · simp [helse, List.getElem?_eq_getElem helse]
    · have hnone : node.children_groups[node.expressions.length]? = none :=
        List.getElem?_eq_none (by omega)
      simp [helse, hnone, hempty]
  | succ n ih =>
    intro i hi
    have hie : i < node.expressions.length := by omega
    have hil : i < node.expression_locations.length := by omega
    have hig : i < node.children_groups.length := by omega
    have hdrop : node.expressions.drop i
        = node.expressions[i] :: node.expressions.drop (i + 1) :=
      List.drop_eq_getElem_cons hie
    simp only [veer_if_node.evaluate_loop, List.getElem?_eq_getElem hie,
      List.getElem?_eq_getElem hil, hee, List.getElem?_eq_getElem hig]
    rw [hdrop]
    simp only [selected_branch, List.headD_eq_head?_getD, List.head?_drop,
      List.getElem?_eq_getElem hig, Option.getD_some, List.tail_drop]
    cases hv : truthy (value node.expressions[i]) with
    | true => simp
    | false =>
      simp only [Bool.false_eq_true, if_false]
      exact ih (i + 1) (by omega)

theorem evaluate_document_children_writes {E : Type} (truthy : datum → Bool)
    (value : List scope → E → datum)
    (ee : expression_evaluation_context → E → parse_location →
      result expression_evaluation_context datum)
    (hee : ∀ c e l, ee c e l = (Except.ok (value c.local_stack e), c))
    (children : List (document_child E)) :
    ∀ context : expression_evaluation_context,
      (∀ node, document_child.if_node node ∈ children →
        node.expressions.length = node.expression_locations.length ∧
        node.expressions.length ≤ node.children_groups.length) →
      evaluate_children (document_child.evaluate truthy ee) context children
        = some (Except.ok datum.undefined,
            { output := context.output ++ (children.map
                (document_child.selected_text truthy (value context.local_stack))).flatten,
              local_stack := context.local_stack }) := by
  induction children with
  | nil =>
    intro context _
    simp [evaluate_children]
  | cons child rest ih =>
    intro context hwf
    have hrest : ∀ node, document_child.if_node node ∈ rest →
        node.expressions.length = node.expression_locations.length ∧
        node.expressions.length ≤ node.children_groups.length :=
      fun node h => hwf node (List.mem_cons_of_mem _ h)
    cases child with
    | text node =>
      simp only [evaluate_children, document_child.evaluate, veer_string_node.evaluate,
        datum.is_undefined, if_true]
      rw [ih _ hrest]
      simp [document_child.selected_text, expression_evaluation_context.write]
    | if_node node =>
      obtain ⟨hlen, hgroups⟩ := hwf node (List.mem_cons_self _ _)
      have hloop := evaluate_loop_selected_branch truthy ee evaluate_text_children node
        context (value context.local_stack) (fun e l => hee context e l)
        (by simp [evaluate_text_children]) hlen hgroups node.expressions.length 0
        (by omega)
      simp only [List.drop_zero] at hloop
      simp only [evaluate_children, document_child.evaluate, veer_if_node.evaluate, hlen,
        if_true]
      rw [← hlen, hloop, evaluate_text_children_writes]
      simp only [datum.is_undefined, if_true]
      rw [ih _ hrest]
      simp [document_child.selected_text]

/-- C21: for a Top node whose children are Text nodes and well-formed If nodes over Text
nodes, with conditions that are evaluated without side effect and without error,
`evaluate` returns Undefined and leaves the scope stack as it was and the output extended
by the concatenation, in document order, of the text of each Text child and the texts of
the selected branch of each If child.  The children evaluator of the Top node is any one
that agrees with the modelled `evaluate_children` where that is defined; on Text nodes the
modelled `evaluate_children` is the in-order evaluation used inside the If nodes. -/
theorem top_evaluate_writes_children_in_order {E : Type} (truthy : datum → Bool)
    (value : List scope → E → datum)
    (ee : expression_evaluation_context → E → parse_location →
      result expression_evaluation_context datum)
    (ec : expression_evaluation_context → List (document_child E) →
      result expression_evaluation_context datum)
    (top : stencil_top_node (document_child E)) (context : expression_evaluation_context)
    (hee : ∀ c e l, ee c e l = (Except.ok (value c.local_stack e), c))
    (hec : ∀ c children r,
      evaluate_children (document_child.evaluate truthy ee) c children = some r →
      ec c children = r)
    (hwf : ∀ node, document_child.if_node node ∈ top.children →
      node.expressions.length = node.expression_locations.length ∧
      node.expressions.length ≤ node.children_groups.length) :
    stencil_top_node.evaluate ec top context
      = (Except.ok datum.undefined,
         { output := context.output ++ (top.children.map
             (document_child.selected_text truthy (value context.local_stack))).flatten,
           local_stack := context.local_stack }) ∧
    (∀ c g, evaluate_children (fun c n => some (veer_string_node.evaluate n c)) c g
      = some (evaluate_text_children c g)) := by
  refine ⟨?_, fun c g => evaluate_children_text g c⟩
  have h := hec context top.children _
    (evaluate_document_children_writes truthy value ee hee top.children context hwf)
  simp only [stencil_top_node.evaluate, h]

/-- Witness of C21: Top[Text("Hello "), If(true, [Text("World")], else [Text("Nobody")])]
writes "Hello World". -/
theorem top_evaluate_writes_children_in_order_witness :
    stencil_top_node.evaluate evaluate_document_children example_hello_world
        { output := [], local_stack := [[("name", datum.string ['x'])]] }
      = (Except.ok datum.undefined,
         { output := ['H', 'e', 'l', 'l', 'o', ' ', 'W', 'o', 'r', 'l', 'd'],
           local_stack := [[("name", datum.string ['x'])]] }) :=
  (top_evaluate_writes_children_in_order datum.to_bool (fun _ e => e) literal_condition
    evaluate_document_children example_hello_world
    { output := [], local_stack := [[("name", datum.string ['x'])]] }
    (fun _ _ _ => rfl)
    (by
      intro c children r h
      simp only [evaluate_document_children, h, Option.getD_some])
    (by
      intro node hnode
      simp only [example_hello_world, List.mem_cons, document_child.if_node.injEq,
        List.mem_singleton, reduceCtorEq, false_or, List.not_mem_nil, or_false] at hnode
      subst hnode
      exact ⟨rfl, by decide⟩)).1

/-! ## Theorems: evaluate and the node structure -/

theorem evaluate_children_keeps_nodes {E : Type}
    (child_evaluate : document E → Nat → Option (result (document E) datum))
    (hchild : ∀ d child r d1, child_evaluate d child = some (r, d1) → d1.nodes = d.nodes) :
    ∀ (children : List Nat) (d : document E) r d1,
      evaluate_children child_evaluate d children = some (r, d1) → d1.nodes = d.nodes := by
  intro children
  induction children with
  | nil =>
    intro d r d1 h
    simp only [evaluate_children, Option.some.injEq, Prod.mk.injEq] at h
    rw [← h.2]
  | cons child rest ih =>
    intro d r d1 h
    unfold evaluate_children at h
    cases hc : child_evaluate d child with
    | none => simp [hc] at h
    | some out =>
      obtain ⟨r2, d2⟩ := out
      have h2 := hchild d child r2 d2 hc
      rw [hc] at h
      cases r2 with
      | error e =>
        simp only [Option.some.injEq, Prod.mk.injEq] at h
        rw [← h.2, h2]
      | ok value =>
        simp only [] at h
        split at h
        · rw [ih d2 r d1 h, h2]
        · simp only [Option.some.injEq, Prod.mk.injEq] at h
          rw [← h.2, h2]

theorem evaluate_call_keeps_nodes {E : Type}
    (child_evaluate : document E → Nat → Option (result (document E) datum))
    (hchild : ∀ d child r d1, child_evaluate d child = some (r, d1) → d1.nodes = d.nodes)
    (d : document E) (this : Nat) (arguments : List datum) (r : Except error datum)
    (d1 : document E)
    (h : document.evaluate_call child_evaluate d this arguments = some (r, d1)) :
    d1.nodes = d.nodes := by
  unfold document.evaluate_call at h
  split at h
  · rename_i node hnode
    split at h
    · simp at h
    · rename_i e d2 hc
      have := evaluate_children_keeps_nodes child_evaluate hchild _ _ _ _ hc
      simp only [Option.some.injEq, Prod.mk.injEq] at h
      rw [← h.2, this]
    · rename_i tmp d2 hc
      have hn := evaluate_children_keeps_nodes child_evaluate hchild _ _ _ _ hc
      split at h
      · split at h
        · simp only [Option.some.injEq, Prod.mk.injEq] at h
          rw [← h.2]; exact hn
        · split at h
          · simp only [Option.some.injEq, Prod.mk.injEq] at h
            rw [← h.2]; exact hn
          · split at h
            · simp only [Option.some.injEq, Prod.mk.injEq] at h
              rw [← h.2]; exact hn
            · simp only [Option.some.injEq, Prod.mk.injEq] at h
              rw [← h.2]; exact hn
      · simp at h
  · simp at h

theorem evaluate_loop_keeps_nodes {E : Type} (truthy : datum → Bool)
    (ee : document E → E → parse_location → result (document E) datum)
    (hee : ∀ d e l, (ee d e l).2.nodes = d.nodes)
    (child_evaluate : document E → Nat → Option (result (document E) datum))
    (hchild : ∀ d child r d1, child_evaluate d child = some (r, d1) → d1.nodes = d.nodes)
    (this : Nat) :
    ∀ (remaining i : Nat) (d : document E) r d1,
      document.evaluate_loop truthy ee child_evaluate this remaining i d = some (r, d1) →
      d1.nodes = d.nodes := by
  intro remaining
  induction remaining with
  | zero =>
    intro i d r d1 h
    unfold document.evaluate_loop at h
    split at h
    · split at h
      · split at h
        · exact evaluate_children_keeps_nodes child_evaluate hchild _ _ _ _ h
        · simp at h
      · simp only [Option.some.injEq, Prod.mk.injEq] at h
        rw [← h.2]
    · simp at h
  | succ remaining ih =>
    intro i d r d1 h
    unfold document.evaluate_loop at h
    split at h
    · split at h
      · rename_i expression expression_location _ _
        have hframe := hee d expression expression_location
        split at h
        · rename_i e d2 heq
          rw [heq] at hframe
          simp only [Option.some.injEq, Prod.mk.injEq] at h
          rw [← h.2]; exact hframe
        · rename_i condition d2 heq
          rw [heq] at hframe
          split at h
          · split at h
            · split at h
              · rw [evaluate_children_keeps_nodes child_evaluate hchild _ _ _ _ h]
                exact hframe
              · simp at h
            · simp at h
          · rw [ih (i + 1) d2 r d1 h]
            exact hframe
      · simp at h
    · simp at h

theorem evaluate_keeps_nodes {E : Type} (truthy : datum → Bool)
    (ee : document E → E → parse_location → result (document E) datum)
    (hee : ∀ d e l, (ee d e l).2.nodes = d.nodes) :
    ∀ (depth : Nat) (d : document E) (this : Nat) r d1,
      document.evaluate truthy ee depth d this = some (r, d1) → d1.nodes = d.nodes := by
  intro depth
  induction depth with
  | zero => intro d this r d1 h; simp [document.evaluate] at h
  | succ depth ih =>
    intro d this r d1 h
    unfold document.evaluate at h
    split at h
    · simp at h
    · simp only [Option.some.injEq, Prod.mk.injEq] at h
      rw [← h.2]
    · split at h
      · exact evaluate_loop_keeps_nodes truthy ee hee _ ih this _ _ _ _ _ h
      · simp at h
    · split at h
      · simp at h
      · rename_i value d2 hc
        simp only [Option.some.injEq, Prod.mk.injEq] at h
        rw [← h.2]
        exact evaluate_children_keeps_nodes _ ih _ _ _ _ hc
      · rename_i e d2 hc
        have hn := evaluate_children_keeps_nodes _ ih _ _ _ _ hc
        split at h
        · split at h
          · simp only [Option.some.injEq, Prod.mk.injEq] at h
            rw [← h.2]; exact hn
          · simp only [Option.some.injEq, Prod.mk.injEq] at h
            rw [← h.2]; exact hn
        · simp at h
    · split at h
      · simp only [Option.some.injEq, Prod.mk.injEq] at h
        rw [← h.2]
      · split at h
        · simp at h
        · rename_i r2 d2 hc
          have hn := evaluate_call_keeps_nodes _ ih _ _ _ _ _ hc
          split at h
          · split at h
            · split at h
              · simp only [Option.some.injEq, Prod.mk.injEq] at h
                rw [← h.2]; exact hn
              · simp only [Option.some.injEq, Prod.mk.injEq] at h
                rw [← h.2]; exact hn
            · split at h
              · simp only [Option.some.injEq, Prod.mk.injEq] at h
                rw [← h.2]; exact hn
              · split at h
                · simp only [Option.some.injEq, Prod.mk.injEq] at h
                  rw [← h.2]; exact hn
                · split at h
                  · simp only [Option.some.injEq, Prod.mk.injEq] at h
                    rw [← h.2]; exact hn
                  · simp only [Option.some.injEq, Prod.mk.injEq] at h
                    rw [← h.2]; exact hn
          · simp at h

theorem evaluate_children_more {E : Type}
    (ce ce1 : document E → Nat → Option (result (document E) datum))
    (hmore : ∀ d child x, ce d child = some x → ce1 d child = some x) :
    ∀ (children : List Nat) (d : document E) x,
      evaluate_children ce d children = some x →
      evaluate_children ce1 d children = some x := by
  intro children
  induction children with
  | nil => intro d x h; simpa [evaluate_children] using h
  | cons child rest ih =>
    intro d x h
    unfold evaluate_children at h ⊢
    cases hc : ce d child with
    | none => simp [hc] at h
    | some out =>
      rw [hc] at h
      rw [hmore d child out hc]
      obtain ⟨r2, d2⟩ := out
      cases r2 with
      | error e => exact h
      | ok value =>
        simp only [] at h ⊢
        split
        · rename_i hv
          rw [if_pos hv] at h
          exact ih d2 x h
        · rename_i hv
          rw [if_neg hv] at h
          exact h

theorem evaluate_call_more {E : Type}
    (ce ce1 : document E → Nat → Option (result (document E) datum))
    (hmore : ∀ d child x, ce d child = some x → ce1 d child = some x)
    (d : document E) (this : Nat) (arguments : List datum) x
    (h : document.evaluate_call ce d this arguments = some x) :
    document.evaluate_call ce1 d this arguments = some x := by
  unfold document.evaluate_call at h ⊢
  cases hnode : d.nodes[this]? with
  | none => simp [hnode] at h
  | some n =>
    cases n with
    | block node =>
      simp only [hnode] at h ⊢
      cases hc : evaluate_children ce { d with context := d.context.push } node.children with
      | none => simp [hc] at h
      | some out =>
        rw [hc] at h
        rw [evaluate_children_more ce ce1 hmore _ _ _ hc]
        exact h
    | text node => simp [hnode] at h
    | if_node node => simp [hnode] at h
    | top node => simp [hnode] at h

theorem evaluate_loop_more {E : Type} (truthy : datum → Bool)
    (ee : document E → E → parse_location → result (document E) datum)
    (ce ce1 : document E → Nat → Option (result (document E) datum))
    (hmore : ∀ d child x, ce d child = some x → ce1 d child = some x) (this : Nat) :
    ∀ (remaining i : Nat) (d : document E) x,
      document.evaluate_loop truthy ee ce this remaining i d = some x →
      document.evaluate_loop truthy ee ce1 this remaining i d = some x := by
  intro remaining
  induction remaining with
  | zero =>
    intro i d x h
    unfold document.evaluate_loop at h ⊢
    cases hnode : d.nodes[this]? with
    | none => simp [hnode] at h
    | some n =>
      cases n with
      | if_node node =>
        simp only [hnode] at h ⊢
        by_cases hgt : node.children_groups.length > node.expressions.length
        · rw [if_pos hgt] at h ⊢
          cases hg : node.children_groups[node.expressions.length]? with
          | none => simp [hg] at h
          | some children =>
            simp only [hg] at h ⊢
            exact evaluate_children_more ce ce1 hmore _ _ _ h
        · rw [if_neg hgt] at h ⊢
          exact h
      | text node => simp [hnode] at h
      | block node => simp [hnode] at h
      | top node => simp [hnode] at h
  | succ remaining ih =>
    intro i d x h
    unfold document.evaluate_loop at h ⊢
    cases hnode : d.nodes[this]? with
    | none => simp [hnode] at h
    | some n =>
      cases n with
      | if_node node =>
        simp only [hnode] at h ⊢
        cases he : node.expressions[i]? with
        | none => simp [he] at h
        | some expression =>
          cases hl : node.expression_locations[i]? with
          | none => simp [he, hl] at h
          | some expression_location =>
            simp only [he, hl] at h ⊢
            rcases hee : ee d expression expression_location with ⟨r2, d2⟩
            rw [hee] at h
            cases r2 with
            | error e => exact h
            | ok condition =>
              simp only [] at h ⊢
              by_cases hv : truthy condition = true
              · rw [if_pos hv] at h ⊢
                cases hnode2 : d2.nodes[this]? with
                | none => simp [hnode2] at h
                | some n2 =>
                  cases n2 with
                  | if_node node2 =>
                    simp only [hnode2] at h ⊢
                    cases hg : node2.children_groups[i]? with
                    | none => simp [hg] at h
                    | some children =>
                      simp only [hg] at h ⊢
                      exact evaluate_children_more ce ce1 hmore _ _ _ h
                  | text node2 => simp [hnode2] at h
                  | block node2 => simp [hnode2] at h
                  | top node2 => simp [hnode2] at h
              · rw [if_neg hv] at h ⊢
                exact ih (i + 1) d2 x h
      | text node => simp [hnode] at h
      | block node => simp [hnode] at h
      | top node => simp [hnode] at h

theorem evaluate_more {E : Type} (truthy : datum → Bool)
    (ee : document E → E → parse_location → result (document E) datum) :
    ∀ (depth : Nat) (d : document E) (this : Nat) x,
      document.evaluate truthy ee depth d this = some x →
      document.evaluate truthy ee (depth + 1) d this = some x := by
  intro depth
  induction depth with
  | zero => intro d this x h; simp [document.evaluate] at h
  | succ depth ih =>
    intro d this x h
    unfold document.evaluate at h ⊢
    cases hnode : d.nodes[this]? with
    | none => simp [hnode] at h
    | some n =>
      cases n with
      | text node =>
        simp only [hnode] at h ⊢
        exact h
      | if_node node =>
        simp only [hnode] at h ⊢
        by_cases hlen : node.expressions.length = node.expression_locations.length
        · rw [if_pos hlen] at h ⊢
          exact evaluate_loop_more truthy ee _ _ ih this _ _ _ _ h
        · rw [if_neg hlen] at h
          simp at h
      | top node =>
        simp only [hnode] at h ⊢
        cases hc : evaluate_children (document.evaluate truthy ee depth) d node.children with
        | none => simp [hc] at h
        | some out =>
          rw [hc] at h
          rw [evaluate_children_more _ _ ih _ _ _ hc]
          exact h
      | block node =>
        simp only [hnode] at h ⊢
        cases hf : node.function with
        | none =>
          simp only [hf] at h ⊢
          exact h
        | some callee =>
          simp only [hf] at h ⊢
          cases hc : document.evaluate_call (document.evaluate truthy ee depth) d callee
              [] with
          | none => simp [hc] at h
          | some out =>
            rw [hc] at h
            rw [evaluate_call_more _ _ ih _ _ _ _ hc]
            exact h

/-- C25: `evaluate` leaves every node of the document as it found it, whether it returns or
raises.  The document lies in a store, every member function is handed the store and hands
it back, and the four `evaluate` bodies, `evaluate_call` and the run over the children are
followed through every call they make; expressions are evaluated by a helper that is pure
with respect to the document (spec 4.1).  Whenever `evaluate` on the node at position
`this` returns or raises, the nodes afterwards are the nodes before; hence `evaluate` on the
document left behind, against an equal context, writes the same output and returns or
raises the same; and a larger bound on the call depth gives the same outcome. -/
theorem evaluate_keeps_node_structure {E : Type} (truthy : datum → Bool)
    (ee : document E → E → parse_location → result (document E) datum)
    (hee : ∀ d e l, (ee d e l).2.nodes = d.nodes)
    (depth : Nat) (d : document E) (this : Nat) (r : Except error datum) (d1 : document E)
    (h : document.evaluate truthy ee depth d this = some (r, d1)) :
    d1.nodes = d.nodes ∧
    document.evaluate truthy ee depth { context := d.context, nodes := d1.nodes } this
      = some (r, d1) ∧
    document.evaluate truthy ee (depth + 1) d this = some (r, d1) := by
  have hn := evaluate_keeps_nodes truthy ee hee depth d this r d1 h
  refine ⟨hn, ?_, evaluate_more truthy ee depth d this _ h⟩
  rw [hn]
  exact h

/-- Witness of C25: the example document, evaluated at its Top node against an empty
context, writes "Hello WorldHi" and afterwards holds the nodes it held before. -/
theorem evaluate_keeps_node_structure_witness :
    document.evaluate datum.to_bool literal_condition_in_document 4
        { context := { output := [], local_stack := [] }, nodes := example_document_nodes } 0
      = some (Except.ok datum.undefined,
          { context := { output := ['H', 'e', 'l', 'l', 'o', ' ', 'W', 'o', 'r', 'l', 'd',
                                    'H', 'i'],
                         local_stack := [] },
            nodes := example_document_nodes }) ∧
    document.evaluate datum.to_bool literal_condition_in_document 4
        { context := { output := [], local_stack := [] }, nodes := example_document_nodes } 0
      = document.evaluate datum.to_bool literal_condition_in_document 5
        { context := { output := [], local_stack := [] }, nodes := example_document_nodes } 0 :=
  ⟨rfl,
   Eq.trans rfl (evaluate_keeps_node_structure datum.to_bool literal_condition_in_document
     (fun _ _ _ => rfl) 4
     { context := { output := [], local_stack := [] }, nodes := example_document_nodes } 0
     (Except.ok datum.undefined)
     { context := { output := ['H', 'e', 'l', 'l', 'o', ' ', 'W', 'o', 'r', 'l', 'd',
                               'H', 'i'],
                    local_stack := [] },
       nodes := example_document_nodes } rfl).2.2.symm⟩

/-! ## Theorems: base64 -/

theorem base64_decode_encode_char :
    ∀ v, v < 64 → base64_decode_char (base64_encode_char v) = (v : Int) := by
  decide

theorem shift_left_or (x k y : Nat) (h : y < 2 ^ k) : (x <<< k) ||| y = x * 2 ^ k + y := by
  rw [Nat.shiftLeft_eq, Nat.mul_comm, ← Nat.mul_add_lt_is_or h]

theorem and_0x3f (x : Nat) : x &&& 0x3f = x % 64 := Nat.and_pow_two_sub_one_eq_mod x 6

theorem and_0xff (x : Nat) : x &&& 0xff = x % 256 := Nat.and_pow_two_sub_one_eq_mod x 8

theorem base64_group_of_two (a b : Nat) (hb : b < 256) :
    (a <<< 16) ||| (b <<< 8) = a * 65536 + b * 256 := by
  rw [shift_left_or a 16 (b <<< 8) (by rw [Nat.shiftLeft_eq]; omega), Nat.shiftLeft_eq]
  norm_num

theorem base64_group_of_three (a b c : Nat) (hb : b < 256) (hc : c < 256) :
    (a <<< 16) ||| (b <<< 8) ||| c = a * 65536 + b * 256 + c := by
  rw [base64_group_of_two a b hb]
  have h := shift_left_or (a * 256 + b) 8 c (by omega)
  rw [Nat.shiftLeft_eq] at h
  have e : (a * 256 + b) * 2 ^ 8 = a * 65536 + b * 256 := by ring
  rw [e] at h
  exact h

theorem base64_sextets (v1 v2 v3 v4 : Nat) (h2 : v2 < 64) (h3 : v3 < 64) (h4 : v4 < 64) :
    ((((v1 <<< 6) ||| v2) <<< 6) ||| v3) <<< 6 ||| v4
      = ((v1 * 64 + v2) * 64 + v3) * 64 + v4 := by
  rw [shift_left_or v1 6 v2 (by omega), shift_left_or _ 6 v3 (by omega),
    shift_left_or _ 6 v4 (by omega)]
  norm_num

theorem base64_decode_loop_value (c : Char) (v : Nat)
    (hc : base64_decode_char c = (v : Int)) (rest : List Char) (group group_size : Nat)
    (dst : List Nat) :
    base64_decode_loop (c :: rest) group group_size dst
      = if group_size + 1 = 4 then
          base64_decode_loop rest 0 0
            (dst ++ [((group <<< 6) ||| v) >>> 16, (((group <<< 6) ||| v) >>> 8) &&& 0xff,
                     ((group <<< 6) ||| v) &&& 0xff])
        else
          base64_decode_loop rest ((group <<< 6) ||| v) (group_size + 1) dst := by
  have h2 : (v : Int) ≠ -2 := by omega
  have h1 : (v : Int) ≠ -1 := by omega
  simp only [base64_decode_loop, hc, h2, h1, if_false, Int.toNat_ofNat]

theorem base64_decode_loop_skip (c : Char) (hc : base64_decode_char c = -1)
    (rest : List Char) (group group_size : Nat) (dst : List Nat) (hs : group_size ≠ 4) :
    base64_decode_loop (c :: rest) group group_size dst
      = base64_decode_loop rest group group_size dst := by
  simp [base64_decode_loop, hc, hs]

theorem base64_round_trip_group (b0 b1 b2 : Nat) (h0 : b0 < 256) (h1 : b1 < 256)
    (h2 : b2 < 256) (rest : List Char) (dst : List Nat) :
    base64_decode_loop
        (base64_encode_char (((b0 <<< 16) ||| (b1 <<< 8) ||| b2) >>> 18)
          :: base64_encode_char ((((b0 <<< 16) ||| (b1 <<< 8) ||| b2) >>> 12) &&& 0x3f)
          :: base64_encode_char ((((b0 <<< 16) ||| (b1 <<< 8) ||| b2) >>> 6) &&& 0x3f)
          :: base64_encode_char (((b0 <<< 16) ||| (b1 <<< 8) ||| b2) &&& 0x3f) :: rest)
        0 0 dst
      = base64_decode_loop rest 0 0 (dst ++ [b0, b1, b2]) := by
  rw [base64_group_of_three b0 b1 b2 h1 h2]
  simp only [Nat.shiftRight_eq_div_pow, and_0x3f]
  have e1 : (b0 * 65536 + b1 * 256 + b2) / 2 ^ 18 < 64 := by norm_num; omega
  have e2 : (b0 * 65536 + b1 * 256 + b2) / 2 ^ 12 % 64 < 64 := by omega
  have e3 : (b0 * 65536 + b1 * 256 + b2) / 2 ^ 6 % 64 < 64 := by omega
  have e4 : (b0 * 65536 + b1 * 256 + b2) % 64 < 64 := by omega
  rw [base64_decode_loop_value _ _ (base64_decode_encode_char _ e1),
    if_neg (by decide),
    base64_decode_loop_value _ _ (base64_decode_encode_char _ e2),
    if_neg (by decide),
    base64_decode_loop_value _ _ (base64_decode_encode_char _ e3),
    if_neg (by decide),
    base64_decode_loop_value _ _ (base64_decode_encode_char _ e4),
    if_pos (by decide)]
  simp only [Nat.zero_shiftLeft, Nat.zero_or]
  rw [base64_sextets _ _ _ _ e2 e3 e4]
  simp only [Nat.shiftRight_eq_div_pow, and_0xff]
  congr 2
  norm_num
  refine ⟨by omega, by omega, by omega⟩

theorem base64_round_trip_one (b0 : Nat) (h0 : b0 < 256) (dst : List Nat) :
    ∃ g, base64_decode_loop
        [base64_encode_char ((b0 <<< 16) >>> 18),
         base64_encode_char (((b0 <<< 16) >>> 12) &&& 0x3f), '=', '='] 0 0 dst
      = Except.ok (g, 2, dst) ∧ (g <<< 12) >>> 16 = b0 := by
  simp only [Nat.shiftLeft_eq, Nat.shiftRight_eq_div_pow, and_0x3f]
  have e1 : b0 * 2 ^ 16 / 2 ^ 18 < 64 := by norm_num; omega
  have e2 : b0 * 2 ^ 16 / 2 ^ 12 % 64 < 64 := by omega
  refine ⟨(((0 <<< 6) ||| (b0 * 2 ^ 16 / 2 ^ 18)) <<< 6) ||| (b0 * 2 ^ 16 / 2 ^ 12 % 64),
    ?_, ?_⟩
  · rw [base64_decode_loop_value _ _ (base64_decode_encode_char _ e1), if_neg (by decide),
      base64_decode_loop_value _ _ (base64_decode_encode_char _ e2), if_neg (by decide),
      base64_decode_loop_skip '=' (by decide) _ _ _ _ (by decide),
      base64_decode_loop_skip '=' (by decide) _ _ _ _ (by decide)]
    rfl
  · simp only [Nat.zero_shiftLeft, Nat.zero_or]
    rw [shift_left_or _ 6 _ e2]
    norm_num
    omega

theorem base64_round_trip_two (b0 b1 : Nat) (h0 : b0 < 256) (h1 : b1 < 256)
    (dst : List Nat) :
    ∃ g, base64_decode_loop
        [base64_encode_char (((b0 <<< 16) ||| (b1 <<< 8)) >>> 18),
         base64_encode_char ((((b0 <<< 16) ||| (b1 <<< 8)) >>> 12) &&& 0x3f),
         base64_encode_char ((((b0 <<< 16) ||| (b1 <<< 8)) >>> 6) &&& 0x3f), '='] 0 0 dst
      = Except.ok (g, 3, dst) ∧ (g <<< 6) >>> 16 = b0 ∧ ((g <<< 6) >>> 8) &&& 0xff = b1 := by
  rw [base64_group_of_two b0 b1 h1]
  simp only [Nat.shiftRight_eq_div_pow, and_0x3f]
  have e1 : (b0 * 65536 + b1 * 256) / 2 ^ 18 < 64 := by norm_num; omega
  have e2 : (b0 * 65536 + b1 * 256) / 2 ^ 12 % 64 < 64 := by omega
  have e3 : (b0 * 65536 + b1 * 256) / 2 ^ 6 % 64 < 64 := by omega
  refine ⟨((((0 <<< 6) ||| ((b0 * 65536 + b1 * 256) / 2 ^ 18)) <<< 6)
      ||| ((b0 * 65536 + b1 * 256) / 2 ^ 12 % 64)) <<< 6
      ||| ((b0 * 65536 + b1 * 256) / 2 ^ 6 % 64), ?_, ?_⟩
  · rw [base64_decode_loop_value _ _ (base64_decode_encode_char _ e1), if_neg (by decide),
      base64_decode_loop_value _ _ (base64_decode_encode_char _ e2), if_neg (by decide),
      base64_decode_loop_value _ _ (base64_decode_encode_char _ e3), if_neg (by decide),
      base64_decode_loop_skip '=' (by decide) _ _ _ _ (by decide)]
    rfl
  · simp only [Nat.zero_shiftLeft, Nat.zero_or]
    rw [shift_left_or _ 6 _ e2, shift_left_or _ 6 _ e3]
    simp only [Nat.shiftLeft_eq, and_0xff]
    norm_num
    constructor <;> omega

theorem base64_decode_loop_encode (b : List Nat) :
    (∀ x ∈ b, x < 256) → ∀ dst : List Nat,
      ∃ g s dst', base64_decode_loop (base64_encode b) 0 0 dst = Except.ok (g, s, dst') ∧
        ((s = 0 ∧ dst' = dst ++ b) ∨
         (s = 2 ∧ dst' ++ [(g <<< 12) >>> 16] = dst ++ b) ∨
         (s = 3 ∧ dst' ++ [(g <<< 6) >>> 16, ((g <<< 6) >>> 8) &&& 0xff] = dst ++ b)) := by
  induction b using base64_encode.induct with
  | case1 =>
    intro _ dst
    exact ⟨0, 0, dst, rfl, Or.inl ⟨rfl, by simp⟩⟩
  | case2 b0 =>
    intro hb dst
    obtain ⟨g, h1, h2⟩ := base64_round_trip_one b0 (hb b0 (by simp)) dst
    exact ⟨g, 2, dst, h1, Or.inr (Or.inl ⟨rfl, by rw [h2]⟩)⟩
  | case3 b0 b1 =>
    intro hb dst
    obtain ⟨g, h1, h2, h3⟩ :=
      base64_round_trip_two b0 b1 (hb b0 (by simp)) (hb b1 (by simp)) dst
    exact ⟨g, 3, dst, h1, Or.inr (Or.inr ⟨rfl, by rw [h2, h3]⟩)⟩
  | case4 b0 b1 b2 rest ih =>
    intro hb dst
    have hrest : ∀ x ∈ rest, x < 256 := fun x hx => hb x (by simp [hx])
    obtain ⟨g, s, dst', h1, h2⟩ := ih hrest (dst ++ [b0, b1, b2])
    refine ⟨g, s, dst', ?_, ?_⟩
    · simp only [base64_encode, List.cons_append, List.nil_append]
      rw [base64_round_trip_group b0 b1 b2 (hb b0 (by simp)) (hb b1 (by simp))
        (hb b2 (by simp))]
      exact h1
    · simpa using h2

/-- C29: for every byte sequence, `base64_decode` of its `base64_encode` returns that byte
sequence and raises nothing. -/
theorem base64_round_trip (b : List Nat) (hbytes : ∀ x ∈ b, x < 256) :
    base64_decode (base64_encode b) = some (Except.ok b) := by
  obtain ⟨g, s, dst', h1, h2⟩ := base64_decode_loop_encode b hbytes []
  simp only [base64_decode, h1]
  rcases h2 with ⟨hs, hd⟩ | ⟨hs, hd⟩ | ⟨hs, hd⟩
  · subst hs
    simp [hd]
  · subst hs
    simp only [List.nil_append] at hd
    simp [hd]
  · subst hs
    simp only [List.nil_append] at hd
    simp [hd]

/-- Witness of C29 on the empty sequence and on sequences of one, two, three and four
bytes. -/
theorem base64_round_trip_witness :
    base64_decode (base64_encode []) = some (Except.ok []) ∧
    base64_decode (base64_encode [255]) = some (Except.ok [255]) ∧
    base64_decode (base64_encode [72, 105]) = some (Except.ok [72, 105]) ∧
    base64_decode (base64_encode [0, 128, 255]) = some (Except.ok [0, 128, 255]) ∧
    base64_decode (base64_encode [77, 97, 110, 33]) = some (Except.ok [77, 97, 110, 33]) :=
  ⟨base64_round_trip [] (by decide), base64_round_trip [255] (by decide),
   base64_round_trip [72, 105] (by decide), base64_round_trip [0, 128, 255] (by decide),
   base64_round_trip [77, 97, 110, 33] (by decide)⟩

theorem base64_decode_char_cases (c : Char) :
    (base64_alphabet c = true ∧ ∃ v : Nat, v < 64 ∧ base64_decode_char c = (v : Int)) ∨
    (base64_alphabet c = false ∧ base64_skipped c = true ∧ base64_decode_char c = -1) ∨
    (base64_alphabet c = false ∧ base64_skipped c = false ∧ base64_decode_char c = -2) := by
  have hA : 'A'.toNat = 65 := rfl
  have hZ : 'Z'.toNat = 90 := rfl
  have ha : 'a'.toNat = 97 := rfl
  have hz : 'z'.toNat = 122 := rfl
  have h0 : '0'.toNat = 48 := rfl
  have h9 : '9'.toNat = 57 := rfl
  unfold base64_decode_char base64_alphabet base64_skipped
  simp only [hA, hZ, ha, hz, h0, h9]
  by_cases h1 : 65 ≤ c.toNat ∧ c.toNat ≤ 90
  · left
    refine ⟨by simp [h1], (c.toNat - 65), by omega, ?_⟩
    simp only [h1, and_self, if_true]
    omega
  · by_cases h2 : 97 ≤ c.toNat ∧ c.toNat ≤ 122
    · left
      refine ⟨by simp [h2], (c.toNat - 97 + 26), by omega, ?_⟩
      simp only [h1, h2, and_self, if_true, if_false]
      omega
    · by_cases h3 : 48 ≤ c.toNat ∧ c.toNat ≤ 57
      · left
        refine ⟨by simp [h3], (c.toNat - 48 + 52), by omega, ?_⟩
        simp only [h1, h2, h3, and_self, if_true, if_false]
        omega
      · by_cases h4 : c = '+' ∨ c = '-'
        · left
          refine ⟨?_, 62, by omega, ?_⟩
          · rcases h4 with h | h <;> simp [h]
          · simp only [h1, h2, h3, h4, if_true, if_false]
            rfl
        · by_cases h5 : c = '/' ∨ c = '_'
          · left
            refine ⟨?_, 63, by omega, ?_⟩
            · rcases h5 with h | h <;> simp [h]
            · simp only [h1, h2, h3, h4, h5, if_true, if_false]
              rfl
          · right
            have halpha : decide ((65 ≤ c.toNat ∧ c.toNat ≤ 90) ∨
                (97 ≤ c.toNat ∧ c.toNat ≤ 122) ∨ (48 ≤ c.toNat ∧ c.toNat ≤ 57) ∨
                c = '+' ∨ c = '-' ∨ c = '/' ∨ c = '_') = false := by
              rw [decide_eq_false_iff_not]
              rintro (h | h | h | h | h | h | h)
              · exact h1 h
              · exact h2 h
              · exact h3 h
              · exact h4 (Or.inl h)
              · exact h4 (Or.inr h)
              · exact h5 (Or.inl h)
              · exact h5 (Or.inr h)
            by_cases h6 : c = ' ' ∨ c = '\n' ∨ c = '\r' ∨ c = '='
            · left
              refine ⟨halpha, by simp [h6], ?_⟩
              simp only [h1, h2, h3, h4, h5, h6, if_true, if_false]
            · right
              refine ⟨halpha, by simp [h6], ?_⟩
              simp only [h1, h2, h3, h4, h5, h6, if_false]

theorem base64_decode_loop_outcome (src : List Char) :
    ∀ (group group_size : Nat) (dst : List Nat), group_size < 4 →
      ((∃ c ∈ src, base64_alphabet c = false ∧ base64_skipped c = false) ∧
        base64_decode_loop src group group_size dst
          = Except.error (parse_error "Unexpected character")) ∨
      ((∀ c ∈ src, base64_alphabet c = true ∨ base64_skipped c = true) ∧
        ∃ group' dst', base64_decode_loop src group group_size dst
          = Except.ok (group', (group_size + src.countP base64_alphabet) % 4, dst')) := by
  induction src with
  | nil =>
    intro group group_size dst hs
    right
    refine ⟨by simp, group, dst, ?_⟩
    simp [base64_decode_loop, Nat.mod_eq_of_lt hs]
  | cons c rest ih =>
    intro group group_size dst hs
    rcases base64_decode_char_cases c with ⟨hal, v, hv, hc⟩ | ⟨hal, hsk, hc⟩ | ⟨hal, hsk, hc⟩
    · rw [base64_decode_loop_value c v hc]
      by_cases h4 : group_size + 1 = 4
      · rw [if_pos h4]
        rcases ih 0 0 (dst ++ [((group <<< 6) ||| v) >>> 16,
            (((group <<< 6) ||| v) >>> 8) &&& 0xff, ((group <<< 6) ||| v) &&& 0xff])
            (by omega) with ⟨⟨d, hd, hd2⟩, herr⟩ | ⟨hall, g', dst', hok⟩
        · exact Or.inl ⟨⟨d, List.mem_cons_of_mem _ hd, hd2⟩, herr⟩
        · right
          refine ⟨?_, g', dst', ?_⟩
          · intro d hd
            rcases List.mem_cons.mp hd with h | h
            · subst h; exact Or.inl hal
            · exact hall d h
          · rw [hok, List.countP_cons_of_pos _ _ hal]
            congr 3
            omega
      · rw [if_neg h4]
        rcases ih ((group <<< 6) ||| v) (group_size + 1) dst (by omega) with
          ⟨⟨d, hd, hd2⟩, herr⟩ | ⟨hall, g', dst', hok⟩
        · exact Or.inl ⟨⟨d, List.mem_cons_of_mem _ hd, hd2⟩, herr⟩
        · right
          refine ⟨?_, g', dst', ?_⟩
          · intro d hd
            rcases List.mem_cons.mp hd with h | h
            · subst h; exact Or.inl hal
            · exact hall d h
          · rw [hok, List.countP_cons_of_pos _ _ hal]
            congr 3
            omega
    · rw [base64_decode_loop_skip c hc _ _ _ _ (by omega)]
      rcases ih group group_size dst hs with ⟨⟨d, hd, hd2⟩, herr⟩ | ⟨hall, g', dst', hok⟩
      · exact Or.inl ⟨⟨d, List.mem_cons_of_mem _ hd, hd2⟩, herr⟩
      · right
        refine ⟨?_, g', dst', ?_⟩
        · intro d hd
          rcases List.mem_cons.mp hd with h | h
          · subst h; exact Or.inr hsk
          · exact hall d h
        · rw [hok, List.countP_cons_of_neg _ _ (by simp [hal])]
    · left
      refine ⟨⟨c, List.mem_cons_self _ _, hal, hsk⟩, ?_⟩
      simp [base64_decode_loop, hc]

/-- C30: `base64_decode` raises a parse error exactly when the input holds a character that
is neither an alphabet character (letter, digit, '+', '-', '/', '_') nor one of space,
line-feed, carriage return and '=', or when the number of alphabet characters in the input
is 1 modulo 4; on every other input it returns a byte sequence. -/
theorem base64_decode_raises_iff (src : List Char) :
    ((∃ e, base64_decode src = some (Except.error e) ∧ e.cls = exception_class.parse_error) ↔
      ((∃ c ∈ src, base64_alphabet c = false ∧ base64_skipped c = false) ∨
        src.countP base64_alphabet % 4 = 1)) ∧
    (¬ ((∃ c ∈ src, base64_alphabet c = false ∧ base64_skipped c = false) ∨
        src.countP base64_alphabet % 4 = 1) →
      ∃ bytes, base64_decode src = some (Except.ok bytes)) := by
  rcases base64_decode_loop_outcome src 0 0 [] (by omega) with
    ⟨⟨d, hd, hd2⟩, herr⟩ | ⟨hall, g', dst', hok⟩
  · have hdec : base64_decode src
        = some (Except.error (parse_error "Unexpected character")) := by
      simp only [base64_decode, herr]
    refine ⟨⟨fun _ => Or.inl ⟨d, hd, hd2⟩, fun _ => ⟨_, hdec, rfl⟩⟩, ?_⟩
    intro hnot
    exact absurd (Or.inl ⟨d, hd, hd2⟩) hnot
  · have hnone : ¬ ∃ c ∈ src, base64_alphabet c = false ∧ base64_skipped c = false := by
      rintro ⟨c, hc, h1, h2⟩
      rcases hall c hc with h | h
      · rw [h] at h1; exact Bool.noConfusion h1
      · rw [h] at h2; exact Bool.noConfusion h2
    simp only [Nat.zero_add] at hok
    have hlt : src.countP base64_alphabet % 4 < 4 := Nat.mod_lt _ (by omega)
    by_cases h1 : src.countP base64_alphabet % 4 = 1
    · have hdec : base64_decode src
          = some (Except.error (parse_error "Unexpected number of characters")) := by
        simp [base64_decode, hok, h1]
      refine ⟨⟨fun _ => Or.inr h1, fun _ => ⟨_, hdec, rfl⟩⟩, ?_⟩
      intro hnot
      exact absurd (Or.inr h1) hnot
    · have hdec : ∃ bytes, base64_decode src = some (Except.ok bytes) := by
        simp only [base64_decode, hok]
        by_cases h0 : src.countP base64_alphabet % 4 = 0
        · exact ⟨dst', by simp [h0]⟩
        · by_cases h2 : src.countP base64_alphabet % 4 = 2
          · exact ⟨dst' ++ [(g' <<< 12) >>> 16], by simp [h2]⟩
          · have h3 : src.countP base64_alphabet % 4 = 3 := by omega
            exact ⟨dst' ++ [(g' <<< 6) >>> 16, ((g' <<< 6) >>> 8) &&& 0xff], by simp [h3]⟩
      refine ⟨⟨?_, ?_⟩, fun _ => hdec⟩
      · rintro ⟨e, he, -⟩
        obtain ⟨bytes, hb⟩ := hdec
        rw [hb] at he
        simp at he
      · rintro (h | h)
        · exact absurd h hnone
        · exact absurd h h1

/-- Witness of C30: "QUJD IA==" has six alphabet characters and only known characters, so
`base64_decode` returns a byte sequence. -/
theorem base64_decode_raises_iff_witness :
    ∃ bytes, base64_decode ['Q', 'U', 'J', 'D', ' ', 'I', 'A', '=', '=']
      = some (Except.ok bytes) :=
  (base64_decode_raises_iff ['Q', 'U', 'J', 'D', ' ', 'I', 'A', '=', '=']).2 (by decide)

/-! ## Theorems: huffman_tree, adding and decoding -/

theorem code_bit_cases (code : Int) (n : Nat) :
    huffman_tree.code_bit code n = ((decide (huffman_tree.code_bit code n = 1)).toNat : Int) := by
  unfold huffman_tree.code_bit
  rcases Int.emod_two_eq (code >>> n) with h | h <;> simp [h]

theorem read_nat (tree : List Int) (n : Nat) :
    huffman_tree.read tree (n : Int) = tree[n]? := by
  simp [huffman_tree.read]

theorem bool_to_int (b : Bool) : (if b then (1 : Int) else 0) = (b.toNat : Int) := by
  cases b <;> rfl

theorem code_bits_upper (code : Int) (k : Nat) :
    huffman_tree.code_bits code (k + 1)
      = huffman_tree.upper_bits code k ++ [decide (huffman_tree.code_bit code 0 = 1)] := by
  induction k with
  | zero => rfl
  | succ k ih =>
    rw [huffman_tree.code_bits, ih]
    rfl

theorem walk_keeps (tree tree1 : List Int) (hk : huffman_tree.keeps tree tree1) :
    ∀ (bs : List Bool) (p q : Nat), huffman_tree.walk tree p bs = some q →
      huffman_tree.walk tree1 p bs = some q := by
  intro bs
  induction bs with
  | nil => intro p q h; simpa [huffman_tree.walk] using h
  | cons b bs ih =>
    intro p q h
    unfold huffman_tree.walk at h ⊢
    cases hv : tree[p + b.toNat]? with
    | none => simp [hv] at h
    | some v =>
      rw [hv] at h
      by_cases hneg : v < 0
      · rw [hk _ _ hv (by omega)]
        simp only [hneg, if_true] at h ⊢
        exact ih _ _ h
      · simp [hneg] at h

theorem stores_keeps (tree tree1 : List Int) (e : huffman_code) (hs : 0 ≤ e.symbol)
    (hk : huffman_tree.keeps tree tree1) (h : huffman_tree.stores tree e) :
    huffman_tree.stores tree1 e := by
  obtain ⟨bs, b, q, hb, hw, hv⟩ := h
  exact ⟨bs, b, q, hb, walk_keeps tree tree1 hk bs 0 q hw, hk _ _ hv (by omega)⟩

theorem keeps_trans (a b c : List Int) (h1 : huffman_tree.keeps a b)
    (h2 : huffman_tree.keeps b c) : huffman_tree.keeps a c :=
  fun i v hv hne => h2 i v (h1 i v hv hne) hne

theorem feed_of_walk (t : huffman_tree) (b : Bool) (v : Int) (q : Nat) (hpos : 0 < v)
    (hv : t.tree[q + b.toNat]? = some v) :
    ∀ (bs : List Bool) (p : Nat), huffman_tree.walk t.tree p bs = some q →
      ∃ rs, t.feed (p : Int) (bs ++ [b]) = some (rs ++ [v - 1]) ∧ (∀ r ∈ rs, r < 0) ∧
        rs.length = bs.length := by
  intro bs
  induction bs with
  | nil =>
    intro p h
    simp only [huffman_tree.walk, Option.some.injEq] at h
    subst h
    refine ⟨[], ?_, by simp, rfl⟩
    have hr : huffman_tree.read t.tree ((p : Int) + (if b then 1 else 0)) = some v := by
      rw [bool_to_int, ← Nat.cast_add, read_nat, hv]
    have hne : v ≠ 0 := by omega
    simp [huffman_tree.feed, huffman_tree.get, hr, hne]
  | cons c bs ih =>
    intro p h
    unfold huffman_tree.walk at h
    cases hw : t.tree[p + c.toNat]? with
    | none => simp [hw] at h
    | some w =>
      rw [hw] at h
      by_cases hneg : w < 0
      · simp only [hneg, if_true] at h
        obtain ⟨rs, hf, hall, hlen⟩ := ih _ h
        have hr : huffman_tree.read t.tree ((p : Int) + (if c then 1 else 0)) = some w := by
          rw [bool_to_int, ← Nat.cast_add, read_nat, hw]
        have hne : w ≠ 0 := by omega
        have hst : (p : Int) + (if c then 1 else 0) - w
            = ((p + c.toNat + (-w).toNat : Nat) : Int) := by
          rw [bool_to_int]; push_cast; omega
        refine ⟨(w - 1) :: rs, ?_, ?_, by simp [hlen]⟩
        · simp only [List.cons_append, huffman_tree.feed, huffman_tree.get, hr, hne, if_false,
            hst, List.append_eq, hf, Option.map_some']
        · intro r hr
          rcases List.mem_cons.1 hr with h1 | h1
          · omega
          · exact hall r h1
      · simp [hneg] at h

theorem getElem?_new_pair (tree : List Int) (i : Nat) (x : Int) (j : Nat) :
    (tree.set i x ++ [0, 0])[j]?
      = if j < tree.length then (if i = j then some x else tree[j]?)
        else if j < tree.length + 2 then some 0 else none := by
  by_cases hj : j < tree.length
  · rw [List.getElem?_append_left (by simpa using hj), List.getElem?_set, if_pos hj]
    by_cases hij : i = j
    · subst hij; simp [hj]
    · simp [hij]
  · rw [List.getElem?_append_right (by simpa using hj), if_neg hj]
    simp only [List.length_set]
    by_cases h2 : j < tree.length + 2
    · have : j - tree.length = 0 ∨ j - tree.length = 1 := by omega
      rcases this with h | h <;> simp [h, h2]
    · have : 2 ≤ j - tree.length := by omega
      rw [if_neg h2]
      exact List.getElem?_eq_none (by simpa using this)

theorem keeps_new_pair (tree : List Int) (i : Nat) (x : Int) (h0 : tree[i]? = some 0) :
    huffman_tree.keeps tree (tree.set i x ++ [0, 0]) := by
  intro j v hv hne
  have hj : j < tree.length := (List.getElem?_eq_some.1 hv).1
  rw [getElem?_new_pair, if_pos hj]
  by_cases hij : i = j
  · subst hij; rw [h0] at hv; exact absurd (Option.some.inj hv).symm hne
  · rw [if_neg hij, hv]

theorem keeps_set (tree : List Int) (i : Nat) (x : Int) (h0 : tree[i]? = some 0) :
    huffman_tree.keeps tree (tree.set i x) := by
  intro j v hv hne
  rw [List.getElem?_set]
  by_cases hij : i = j
  · subst hij; rw [h0] at hv; exact absurd (Option.some.inj hv).symm hne
  · rw [if_neg hij, hv]

theorem new_address_lt (addr : Nat → List Bool) (n : Nat) (a : List Bool) (j : Nat)
    (h : j < n) : huffman_tree.new_address addr n a j = addr j := by
  unfold huffman_tree.new_address
  rw [if_neg (by omega), if_neg (by omega)]

theorem new_address_first (addr : Nat → List Bool) (n : Nat) (a : List Bool) :
    huffman_tree.new_address addr n a n = a ++ [false] := by
  simp [huffman_tree.new_address]

theorem new_address_second (addr : Nat → List Bool) (n : Nat) (a : List Bool) :
    huffman_tree.new_address addr n a (n + 1) = a ++ [true] := by
  simp [huffman_tree.new_address]

theorem addressed_new_pair (tree : List Int) (addr : Nat → List Bool) (i : Nat)
    (hadd : huffman_tree.addressed tree addr) (hi : i < tree.length) :
    huffman_tree.addressed (tree.set i (-((tree.length : Int) - (i : Int))) ++ [0, 0])
      (huffman_tree.new_address addr tree.length (addr i)) := by
  obtain ⟨hlen, ha0, ha1, hent⟩ := hadd
  refine ⟨by simp, ?_, ?_, ?_⟩
  · rw [new_address_lt _ _ _ _ (by omega)]; exact ha0
  · rw [new_address_lt _ _ _ _ (by omega)]; exact ha1
  · intro j v hv hneg
    rw [getElem?_new_pair] at hv
    by_cases hj : j < tree.length
    · rw [if_pos hj] at hv
      by_cases hij : i = j
      · subst hij
        rw [if_pos rfl] at hv
        have hv1 : v = -((tree.length : Int) - (i : Int)) := (Option.some.inj hv).symm
        have ht : i + (-v).toNat = tree.length := by omega
        rw [ht]
        refine ⟨by simp, ?_, ?_⟩
        · rw [new_address_first, new_address_lt _ _ _ _ hi]
        · rw [new_address_second, new_address_lt _ _ _ _ hi]
      · rw [if_neg hij] at hv
        obtain ⟨h1, h2, h3⟩ := hent j v hv hneg
        refine ⟨by simp; omega, ?_, ?_⟩
        · rw [new_address_lt _ _ _ _ (by omega), new_address_lt _ _ _ _ hj]
          exact h2
        · rw [new_address_lt _ _ _ _ (by omega), new_address_lt _ _ _ _ hj]
          exact h3
    · rw [if_neg hj] at hv
      by_cases h2 : j < tree.length + 2
      · rw [if_pos h2] at hv
        have := Option.some.inj hv
        omega
      · rw [if_neg h2] at hv
        exact absurd hv (by simp)

theorem holds_new_pair (tree : List Int) (addr : Nat → List Bool) (i : Nat)
    (leaves inner : List huffman_code)
    (hh : huffman_tree.holds tree addr leaves inner) (hi : i < tree.length)
    (hin : ∃ e ∈ inner, addr i <+: e.bits ∧ addr i ≠ e.bits) :
    huffman_tree.holds (tree.set i (-((tree.length : Int) - (i : Int))) ++ [0, 0])
      (huffman_tree.new_address addr tree.length (addr i)) leaves inner := by
  obtain ⟨hleaf, hinner⟩ := hh
  constructor
  · intro j v hv hpos
    rw [getElem?_new_pair] at hv
    by_cases hj : j < tree.length
    · rw [if_pos hj] at hv
      by_cases hij : i = j
      · rw [if_pos hij] at hv
        have := Option.some.inj hv
        omega
      · rw [if_neg hij] at hv
        rw [new_address_lt _ _ _ _ hj]
        exact hleaf j v hv hpos
    · rw [if_neg hj] at hv
      by_cases h2 : j < tree.length + 2
      · rw [if_pos h2] at hv
        have := Option.some.inj hv
        omega
      · rw [if_neg h2] at hv
        exact absurd hv (by simp)
  · intro j v hv hneg
    rw [getElem?_new_pair] at hv
    by_cases hj : j < tree.length
    · rw [if_pos hj] at hv
      rw [new_address_lt _ _ _ _ hj]
      by_cases hij : i = j
      · subst hij; exact hin
      · rw [if_neg hij] at hv
        exact hinner j v hv hneg
    · rw [if_neg hj] at hv
      by_cases h2 : j < tree.length + 2
      · rw [if_pos h2] at hv
        have := Option.some.inj hv
        omega
      · rw [if_neg h2] at hv
        exact absurd hv (by simp)

theorem addressed_set_leaf (tree : List Int) (addr : Nat → List Bool) (i : Nat) (x : Int)
    (hx : 0 < x) (hadd : huffman_tree.addressed tree addr) :
    huffman_tree.addressed (tree.set i x) addr := by
  obtain ⟨hlen, ha0, ha1, hent⟩ := hadd
  refine ⟨by simpa using hlen, ha0, ha1, ?_⟩
  intro j v hv hneg
  rw [List.getElem?_set] at hv
  by_cases hij : i = j
  · rw [if_pos hij] at hv
    split at hv
    · have := Option.some.inj hv
      omega
    · exact absurd hv (by simp)
  · rw [if_neg hij] at hv
    simpa using hent j v hv hneg

theorem holds_set_leaf (tree : List Int) (addr : Nat → List Bool) (i : Nat)
    (S : List huffman_code) (e : huffman_code) (hs : 0 ≤ e.symbol) (hbits : e.bits = addr i)
    (hh : huffman_tree.holds tree addr S (e :: S)) :
    huffman_tree.holds (tree.set i (e.symbol + 1)) addr (e :: S) (e :: S) := by
  obtain ⟨hleaf, hinner⟩ := hh
  constructor
  · intro j v hv hpos
    rw [List.getElem?_set] at hv
    by_cases hij : i = j
    · rw [if_pos hij] at hv
      split at hv
      · exact ⟨e, List.mem_cons_self _ _, hij ▸ hbits, (Option.some.inj hv).symm⟩
      · exact absurd hv (by simp)
    · rw [if_neg hij] at hv
      obtain ⟨e', he', h1, h2⟩ := hleaf j v hv hpos
      exact ⟨e', List.mem_cons_of_mem _ he', h1, h2⟩
  · intro j v hv hneg
    rw [List.getElem?_set] at hv
    by_cases hij : i = j
    · rw [if_pos hij] at hv
      split at hv
      · have := Option.some.inj hv
        omega
      · exact absurd hv (by simp)
    · rw [if_neg hij] at hv
      exact hinner j v hv hneg

theorem holds_more_inner (tree : List Int) (addr : Nat → List Bool)
    (S : List huffman_code) (e : huffman_code)
    (hh : huffman_tree.holds tree addr S S) : huffman_tree.holds tree addr S (e :: S) := by
  refine ⟨hh.1, ?_⟩
  intro j v hv hneg
  obtain ⟨e', he', h⟩ := hh.2 j v hv hneg
  exact ⟨e', List.mem_cons_of_mem _ he', h⟩

theorem in_int_iff (x : Int) : in_int x ↔ -2147483648 ≤ x ∧ x ≤ 2147483647 := Iff.rfl

theorem static_cast_int_of_in_int (x : Int) (h : in_int x) : static_cast_int x = x := by
  rw [in_int_iff] at h
  unfold static_cast_int int_min
  omega

theorem add_descend_new_pair (nc : Int → Option Int) (M : Int) (hM : M ≤ int_max)
    (hcast : ∀ v, -M ≤ v → v ≤ M → nc v = some v) (tree : List Int) (i : Nat)
    (hi : i < tree.length) (hlen : (tree.length : Int) ≤ M) (hv : tree[i]? = some 0) :
    huffman_tree.add_descend nc (i : Int) tree
      = some ((tree.length : Int),
          tree.set i (-((tree.length : Int) - (i : Int))) ++ [0, 0]) := by
  have hM1 : M ≤ 2147483647 := hM
  have hsc : static_cast_int (tree.length : Int) = (tree.length : Int) :=
    static_cast_int_of_in_int _ ((in_int_iff _).2 (by omega))
  have hchecks : in_int ((tree.length : Int) - (i : Int)) ∧
      in_int (-((tree.length : Int) - (i : Int))) ∧
      in_int ((i : Int) - -((tree.length : Int) - (i : Int))) :=
    ⟨(in_int_iff _).2 (by omega), (in_int_iff _).2 (by omega), (in_int_iff _).2 (by omega)⟩
  have hnc : nc (-((tree.length : Int) - (i : Int)))
      = some (-((tree.length : Int) - (i : Int))) := hcast _ (by omega) (by omega)
  have hoff : (i : Int) - -((tree.length : Int) - (i : Int)) = (tree.length : Int) := by omega
  unfold huffman_tree.add_descend
  rw [read_nat, hv]
  simp only [lt_irrefl, if_false, if_true, hsc]
  rw [if_pos hchecks, hnc]
  simp only [hoff, huffman_tree.write, Int.toNat_ofNat]

theorem add_descend_follow (nc : Int → Option Int) (tree : List Int) (i : Nat) (v : Int)
    (hv : tree[i]? = some v) (hneg : v < 0) (htarget : (i : Int) - v ≤ int_max) :
    huffman_tree.add_descend nc (i : Int) tree = some ((i : Int) - v, tree) := by
  have h1 : ¬ 0 < v := by omega
  have h2 : ¬ v = 0 := by omega
  have h3 : in_int ((i : Int) - v) := by
    have : (i : Int) - v ≤ 2147483647 := htarget
    exact (in_int_iff _).2 (by omega)
  unfold huffman_tree.add_descend
  rw [read_nat, hv]
  simp only [h1, h2, h3, if_false, if_true]

theorem add_loop_inserts (nc : Int → Option Int) (M : Int) (hM : M ≤ int_max)
    (hcast : ∀ v, -M ≤ v → v ≤ M → nc v = some v)
    (S : List huffman_code) (e : huffman_code) (code : Int)
    (last : Bool) (hfree : ∀ e' ∈ S, ¬ e'.bits <+: e.bits) :
    ∀ (k : Nat) (tree : List Int) (addr : Nat → List Bool) (p : Nat) (pre : List Bool),
      k < 32 → (tree.length : Int) + 2 * (k : Int) ≤ M →
      huffman_tree.addressed tree addr → huffman_tree.holds tree addr S (e :: S) →
      p + 1 < tree.length → addr p = pre ++ [false] → addr (p + 1) = pre ++ [true] →
      pre ++ huffman_tree.upper_bits code k ++ [last] = e.bits →
      ∃ (q : Nat) (tree1 : List Int) (addr1 : Nat → List Bool),
        huffman_tree.add_loop nc code k (p : Int) tree = some ((q : Int), tree1) ∧
        huffman_tree.keeps tree tree1 ∧
        huffman_tree.addressed tree1 addr1 ∧ huffman_tree.holds tree1 addr1 S (e :: S) ∧
        q + 1 < tree1.length ∧
        addr1 q = pre ++ huffman_tree.upper_bits code k ++ [false] ∧
        addr1 (q + 1) = pre ++ huffman_tree.upper_bits code k ++ [true] ∧
        huffman_tree.walk tree1 p (huffman_tree.upper_bits code k) = some q ∧
        (tree1.length : Int) ≤ (tree.length : Int) + 2 * (k : Int) := by
  have hM1 : M ≤ 2147483647 := hM
  intro k
  induction k with
  | zero =>
    intro tree addr p pre _ _ hadd hh hp ha0 ha1 _
    exact ⟨p, tree, addr, rfl, fun _ _ h _ => h, hadd, hh, hp,
      by simpa [huffman_tree.upper_bits] using ha0,
      by simpa [huffman_tree.upper_bits] using ha1, rfl, by simp⟩
  | succ k ih =>
    intro tree addr p pre hk hroom hadd hh hp ha0 ha1 hbits
    have hi : p + (decide (huffman_tree.code_bit code (k + 1) = 1)).toNat < tree.length := by
      cases decide (huffman_tree.code_bit code (k + 1) = 1) <;> simp <;> omega
    have hai : addr (p + (decide (huffman_tree.code_bit code (k + 1) = 1)).toNat)
        = pre ++ [decide (huffman_tree.code_bit code (k + 1) = 1)] := by
      cases decide (huffman_tree.code_bit code (k + 1) = 1)
      · simpa using ha0
      · simpa using ha1
    have hpre : (pre ++ [decide (huffman_tree.code_bit code (k + 1) = 1)])
        ++ huffman_tree.upper_bits code k ++ [last] = e.bits := by
      rw [← hbits]; simp [huffman_tree.upper_bits]
    have hproper : addr (p + (decide (huffman_tree.code_bit code (k + 1) = 1)).toNat) <+: e.bits
        ∧ addr (p + (decide (huffman_tree.code_bit code (k + 1) = 1)).toNat) ≠ e.bits := by
      rw [hai, ← hpre]
      refine ⟨⟨huffman_tree.upper_bits code k ++ [last], by simp⟩, ?_⟩
      intro h
      have := congrArg List.length h
      simp at this
    have hoff : (p : Int) + huffman_tree.code_bit code (k + 1)
        = ((p + (decide (huffman_tree.code_bit code (k + 1) = 1)).toNat : Nat) : Int) := by
      rw [code_bit_cases code (k + 1), ← Nat.cast_add]
      simp
    obtain ⟨i, hidef⟩ : ∃ i, i = p + (decide (huffman_tree.code_bit code (k + 1) = 1)).toNat :=
      ⟨_, rfl⟩
    rw [← hidef] at hi hai hproper hoff
    obtain ⟨v, hv⟩ : ∃ v, tree[i]? = some v := ⟨tree[i], List.getElem?_eq_getElem hi⟩
    have hin : in_int (i : Int) := (in_int_iff _).2 (by push_cast at hroom; omega)
    unfold huffman_tree.add_loop
    rw [hoff, if_pos ⟨hk, hin⟩]
    by_cases hpos : 0 < v
    · exfalso
      obtain ⟨e', he', hb, _⟩ := hh.1 i v hv hpos
      exact hfree e' he' (hb ▸ hproper.1)
    by_cases hzero : v = 0
    · subst hzero
      rw [add_descend_new_pair nc M hM hcast tree i hi (by push_cast at hroom; omega) hv]
      simp only []
      obtain ⟨q, tree1, addr1, hloop, hkeep, hadd1, hh1, hq, hq0, hq1, hwalk, hsize⟩ :=
        ih (tree.set i (-((tree.length : Int) - (i : Int))) ++ [0, 0])
          (huffman_tree.new_address addr tree.length (addr i)) tree.length
          (pre ++ [decide (huffman_tree.code_bit code (k + 1) = 1)])
          (by omega) (by simp; push_cast at hroom; omega)
          (addressed_new_pair tree addr i hadd hi)
          (holds_new_pair tree addr i S (e :: S) hh hi
            ⟨e, List.mem_cons_self _ _, hproper⟩)
          (by simp)
          (by rw [new_address_first, hai])
          (by rw [new_address_second, hai])
          hpre
      refine ⟨q, tree1, addr1, hloop,
        keeps_trans _ _ _ (keeps_new_pair tree i _ hv) hkeep, hadd1, hh1, hq,
        by simpa [huffman_tree.upper_bits] using hq0,
        by simpa [huffman_tree.upper_bits] using hq1, ?_, ?_⟩
      · have hnew : (tree.set i (-((tree.length : Int) - (i : Int))) ++ [0, 0])[i]?
            = some (-((tree.length : Int) - (i : Int))) := by
          rw [getElem?_new_pair, if_pos hi, if_pos rfl]
        have hi1 : tree1[i]? = some (-((tree.length : Int) - (i : Int))) :=
          hkeep i _ hnew (by omega)
        have htarget : i + (-(-((tree.length : Int) - (i : Int)))).toNat = tree.length := by
          omega
        show huffman_tree.walk tree1 p
          (decide (huffman_tree.code_bit code (k + 1) = 1) :: huffman_tree.upper_bits code k)
            = some q
        unfold huffman_tree.walk
        rw [← hidef, hi1]
        simp only []
        rw [if_pos (by omega), htarget]
        exact hwalk
      · simp at hsize
        push_cast
        omega
    · have hneg : v < 0 := by omega
      obtain ⟨h1, h2, h3⟩ := hadd.2.2.2 i v hv hneg
      have hoff1 : (i : Int) - v = ((i + (-v).toNat : Nat) : Int) := by
        push_cast; omega
      rw [add_descend_follow nc tree i v hv hneg (by push_cast at hroom; omega)]
      simp only []
      rw [hoff1]
      obtain ⟨q, tree1, addr1, hloop, hkeep, hadd1, hh1, hq, hq0, hq1, hwalk, hsize⟩ :=
        ih tree addr (i + (-v).toNat)
          (pre ++ [decide (huffman_tree.code_bit code (k + 1) = 1)])
          (by omega) (by push_cast at hroom; omega)
          hadd hh h1 (by rw [h2, hai]) (by rw [h3, hai]) hpre
      refine ⟨q, tree1, addr1, hloop, hkeep, hadd1, hh1, hq,
        by simpa [huffman_tree.upper_bits] using hq0,
        by simpa [huffman_tree.upper_bits] using hq1, ?_, by push_cast; omega⟩
      show huffman_tree.walk tree1 p
        (decide (huffman_tree.code_bit code (k + 1) = 1) :: huffman_tree.upper_bits code k)
          = some q
      unfold huffman_tree.walk
      rw [← hidef, hkeep i v hv hzero]
      simp only []
      rw [if_pos hneg]
      exact hwalk

theorem add_inserts (nc : Int → Option Int) (M : Int) (hM : M ≤ int_max)
    (hcast : ∀ v, -M ≤ v → v ≤ M → nc v = some v)
    (t : huffman_tree) (S : List huffman_code) (e : huffman_code)
    (hs : 0 ≤ e.symbol) (hsM : e.symbol + 1 ≤ M) (hl : 1 ≤ e.code_length)
    (hl32 : e.code_length ≤ 32) (hcode : in_int e.code)
    (hroom : (t.tree.length : Int) + 2 * (e.code_length - 1) ≤ M)
    (hfree : ∀ e' ∈ S, huffman_code.separate e' e)
    (hvalid : ∀ e' ∈ S, 0 ≤ e'.symbol) (hb : huffman_tree.built t.tree S) :
    ∃ t1, huffman_tree.add nc t e.symbol e.code e.code_length = some t1 ∧
      huffman_tree.built t1.tree (e :: S) ∧
      (t1.tree.length : Int) ≤ (t.tree.length : Int) + 2 * (e.code_length - 1) := by
  have hM1 : M ≤ 2147483647 := hM
  obtain ⟨⟨addr, hadd, hh⟩, hst⟩ := hb
  have hlen : e.code_length.toNat = (e.code_length.toNat - 1) + 1 := by omega
  have hbits : e.bits = huffman_tree.upper_bits e.code (e.code_length.toNat - 1)
      ++ [decide (huffman_tree.code_bit e.code 0 = 1)] := by
    unfold huffman_code.bits
    conv_lhs => rw [hlen]
    exact code_bits_upper _ _
  obtain ⟨q, tree1, addr1, hloop, hkeep, hadd1, hh1, hq, hq0, hq1, hwalk, hsize⟩ :=
    add_loop_inserts nc M hM hcast S e e.code (decide (huffman_tree.code_bit e.code 0 = 1))
      (fun e' he' => (hfree e' he').1) (e.code_length.toNat - 1) t.tree addr 0 []
      (by omega) (by omega)
      hadd (holds_more_inner _ _ _ _ hh) (by have := hadd.1; omega)
      (by simpa using hadd.2.1) (by simpa using hadd.2.2.1) (by simpa using hbits.symm)
  obtain ⟨i, hidef⟩ : ∃ i, i = q + (decide (huffman_tree.code_bit e.code 0 = 1)).toNat :=
    ⟨_, rfl⟩
  have hi : i < tree1.length := by
    rw [hidef]
    cases decide (huffman_tree.code_bit e.code 0 = 1) <;> simp <;> omega
  have hai : addr1 i = e.bits := by
    rw [hidef, hbits]
    cases decide (huffman_tree.code_bit e.code 0 = 1)
    · simpa using hq0
    · simpa using hq1
  have hoff : (q : Int) + huffman_tree.code_bit e.code 0 = (i : Int) := by
    rw [code_bit_cases e.code 0, ← Nat.cast_add, hidef]
  obtain ⟨v, hv⟩ : ∃ v, tree1[i]? = some v := ⟨tree1[i], List.getElem?_eq_getElem hi⟩
  have hzero : v = 0 := by
    rcases lt_trichotomy v 0 with h | h | h
    · exfalso
      obtain ⟨e', he', hp, hne⟩ := hh1.2 i v hv h
      rw [hai] at hp hne
      rcases List.mem_cons.1 he' with h1 | h1
      · exact hne (by rw [h1])
      · exact (hfree e' h1).2 hp
    · exact h
    · exfalso
      obtain ⟨e', he', hb, _⟩ := hh1.1 i v hv h
      exact (hfree e' he').1 (by rw [hb, hai])
  subst hzero
  have hsize1 : (tree1.length : Int) ≤ (t.tree.length : Int) + 2 * (e.code_length - 1) := by
    have : ((e.code_length.toNat - 1 : Nat) : Int) = e.code_length - 1 := by omega
    rw [this] at hsize
    exact hsize
  have hargs : in_int e.symbol ∧ in_int e.code ∧ in_int e.code_length ∧ 1 ≤ e.code_length :=
    ⟨(in_int_iff _).2 (by omega), hcode, (in_int_iff _).2 (by omega), hl⟩
  have hini : in_int (i : Int) := (in_int_iff _).2 (by omega)
  have hfinal : (0 : Int) = 0 ∧ in_int (e.symbol + 1) := ⟨rfl, (in_int_iff _).2 (by omega)⟩
  have hnc : nc (e.symbol + 1) = some (e.symbol + 1) := hcast _ (by omega) hsM
  refine ⟨{ tree := tree1.set i (e.symbol + 1) }, ?_, ⟨⟨addr1, ?_, ?_⟩, ?_⟩, ?_⟩
  · unfold huffman_tree.add
    rw [Nat.cast_zero] at hloop
    rw [if_pos hargs]
    simp only [hloop, hoff, hini, if_true, read_nat, hv, hfinal, and_self, hnc,
      huffman_tree.write, Int.toNat_ofNat]
  · exact addressed_set_leaf tree1 addr1 i _ (by omega) hadd1
  · exact holds_set_leaf tree1 addr1 i S e hs hai.symm hh1
  · intro e' he'
    rcases List.mem_cons.1 he' with h1 | h1
    · subst h1
      refine ⟨_, _, q, hbits, walk_keeps _ _ (keeps_set tree1 i _ hv) _ _ _ hwalk, ?_⟩
      rw [← hidef]
      simp [List.getElem?_set, hi]
    · exact stores_keeps _ _ e' (hvalid e' h1)
        (keeps_trans _ _ _ hkeep (keeps_set tree1 i _ hv)) (hst e' h1)
  · simpa using hsize1


theorem room_cons (e : huffman_code) (rest : List huffman_code) :
    huffman_tree.room (e :: rest) = 2 * (e.code_length - 1) + huffman_tree.room rest := by
  simp [huffman_tree.room]

theorem add_all_stores (nc : Int → Option Int) (M : Int) (hM : M ≤ int_max)
    (hcast : ∀ v, -M ≤ v → v ≤ M → nc v = some v) :
    ∀ (entries : List huffman_code) (t : huffman_tree) (S : List huffman_code),
      (∀ e ∈ entries, 0 ≤ e.symbol ∧ e.symbol + 1 ≤ M ∧ 1 ≤ e.code_length ∧
        e.code_length ≤ 32 ∧ in_int e.code) →
      (t.tree.length : Int) + huffman_tree.room entries ≤ M →
      entries.Pairwise huffman_code.separate →
      (∀ e ∈ entries, ∀ e' ∈ S, huffman_code.separate e' e) →
      (∀ e' ∈ S, 0 ≤ e'.symbol) → huffman_tree.built t.tree S →
      ∃ t1, huffman_tree.add_all nc t entries = some t1 ∧
        huffman_tree.built t1.tree (entries.reverse ++ S) := by
  intro entries
  induction entries with
  | nil => intro t S _ _ _ _ _ hb; exact ⟨t, rfl, by simpa using hb⟩
  | cons e rest ih =>
    intro t S hvalid hroom hpair hfree hS hb
    obtain ⟨hs, hsM, hl, hl32, hcode⟩ := hvalid e (List.mem_cons_self _ _)
    rw [room_cons] at hroom
    have hrest : 0 ≤ huffman_tree.room rest := by
      unfold huffman_tree.room
      apply List.sum_nonneg
      intro x hx
      obtain ⟨y, hy, rfl⟩ := List.mem_map.1 hx
      have := (hvalid y (List.mem_cons_of_mem _ hy)).2.2.1
      omega
    obtain ⟨t1, hadd, hb1, hsize⟩ := add_inserts nc M hM hcast t S e hs hsM hl hl32 hcode
      (by omega) (hfree e (List.mem_cons_self _ _)) hS hb
    rw [List.pairwise_cons] at hpair
    obtain ⟨t2, hall, hb2⟩ := ih t1 (e :: S)
      (fun x hx => hvalid x (List.mem_cons_of_mem _ hx)) (by omega) hpair.2
      (by
        intro x hx e' he'
        rcases List.mem_cons.1 he' with h1 | h1
        · subst h1; exact hpair.1 x hx
        · exact hfree x (List.mem_cons_of_mem _ hx) e' h1)
      (by
        intro e' he'
        rcases List.mem_cons.1 he' with h1 | h1
        · subst h1; exact hs
        · exact hS e' h1)
      hb1
    refine ⟨t2, ?_, by simpa using hb2⟩
    simp only [huffman_tree.add_all, hadd, hall]

theorem built_construct : huffman_tree.built huffman_tree.construct.tree [] := by
  refine ⟨⟨fun j => if j = 0 then [false] else [true], ⟨by simp [huffman_tree.construct],
    by simp, by simp, ?_⟩, ?_, ?_⟩, by simp⟩
  all_goals
    intro i v hv hlt
    exfalso
    have hi : i < 2 := by
      have := (List.getElem?_eq_some.1 hv).1
      simpa [huffman_tree.construct] using this
    have : i = 0 ∨ i = 1 := by omega
    rcases this with h | h <;> subst h <;> simp [huffman_tree.construct] at hv <;> omega

theorem code_bits_length (code : Int) (n : Nat) :
    (huffman_tree.code_bits code n).length = n := by
  induction n with
  | zero => rfl
  | succ n ih => simp [huffman_tree.code_bits, ih]

theorem stores_feed (t : huffman_tree) (e : huffman_code) (hs : 0 ≤ e.symbol)
    (h : huffman_tree.stores t.tree e) :
    ∃ rs, t.feed t.start e.bits = some (rs ++ [e.symbol]) ∧ (∀ r ∈ rs, r < 0) ∧
      rs.length + 1 = e.bits.length := by
  obtain ⟨bs, b, q, hb, hw, hv⟩ := h
  obtain ⟨rs, hf, hneg, hlen⟩ := feed_of_walk t b (e.symbol + 1) q (by omega) hv bs 0 hw
  refine ⟨rs, ?_, hneg, by rw [hb, hlen]; simp⟩
  rw [hb]
  simpa [huffman_tree.start] using hf

theorem add_all_decodes (nc : Int → Option Int) (M : Int) (hM : M ≤ int_max)
    (hcast : ∀ v, -M ≤ v → v ≤ M → nc v = some v) (entries : List huffman_code)
    (hvalid : ∀ e ∈ entries, 0 ≤ e.symbol ∧ e.symbol + 1 ≤ M ∧ 1 ≤ e.code_length ∧
      e.code_length ≤ 32 ∧ in_int e.code)
    (hroom : 2 + huffman_tree.room entries ≤ M)
    (hfree : entries.Pairwise huffman_code.separate) :
    ∃ t, huffman_tree.add_all nc huffman_tree.construct entries = some t ∧
      ∀ e ∈ entries, ∃ rs, t.feed t.start e.bits = some (rs ++ [e.symbol]) ∧
        (∀ r ∈ rs, r < 0) ∧ rs.length + 1 = e.code_length.toNat := by
  obtain ⟨t, hall, hb⟩ := add_all_stores nc M hM hcast entries huffman_tree.construct []
    hvalid (by simpa [huffman_tree.construct] using hroom) hfree
    (by simp) (by simp) built_construct
  refine ⟨t, hall, ?_⟩
  intro e he
  have hmem : e ∈ entries.reverse ++ [] := by simpa using he
  obtain ⟨rs, h1, h2, h3⟩ := stores_feed t e (hvalid e he).1 (hb.2 e hmem)
  refine ⟨rs, h1, h2, ?_⟩
  rw [h3]
  exact code_bits_length e.code e.code_length.toNat

theorem room_perm (order entries : List huffman_code) (h : order.Perm entries) :
    huffman_tree.room order = huffman_tree.room entries :=
  (h.map _).sum_eq

/-- C26 as stated fails: the one entry (symbol 0, code 1, code_length 33) has symbol >= 0
and code_length >= 1 and is a prefix-free set, yet `add` on a fresh tree starts with the
shift `code >> 32`, which an `int` of 32 bits does not define; and for the one entry
(symbol 2147483647, code 0, code_length 1) `add` computes `symbol + 1`, which `int` does not
hold.  Neither call leaves a tree to decode from, also when `T` is `int` itself. -/
theorem huffman_add_outside_int :
    (∀ e ∈ ([⟨0, 1, 33⟩] : List huffman_code), 0 ≤ e.symbol ∧ 1 ≤ e.code_length) ∧
    ([⟨0, 1, 33⟩] : List huffman_code).Pairwise huffman_code.separate ∧
    huffman_tree.add_all (checked_cast int_min int_max) huffman_tree.construct
      [⟨0, 1, 33⟩] = none ∧
    (∀ e ∈ ([⟨2147483647, 0, 1⟩] : List huffman_code), 0 ≤ e.symbol ∧ 1 ≤ e.code_length) ∧
    ([⟨2147483647, 0, 1⟩] : List huffman_code).Pairwise huffman_code.separate ∧
    huffman_tree.add_all (checked_cast int_min int_max) huffman_tree.construct
      [⟨2147483647, 0, 1⟩] = none := by
  refine ⟨by decide, by simp, by decide, by decide, by simp, by decide⟩

/-- C26, as the code behaves: let `M` be a number that both `int` and `T` hold together with
its negative, so that `numeric_cast<T>` keeps every value from -M to M.  Entries with
0 <= symbol, symbol + 1 <= M, 1 <= code_length <= 32 and a code that `int` holds, whose bit
strings are pairwise prefix-free and for which 2 plus twice the sum of the code_length - 1
is at most M, can be added to a fresh tree in any order: every `add` returns, and feeding
the bits of any of the entries, most significant first, to `get` from `start()` then returns
a negative value for every bit but the last and the symbol on the last. -/
theorem huffman_add_then_decode (numeric_cast : Int → Option Int) (M : Int)
    (hM : M ≤ int_max) (hcast : ∀ v, -M ≤ v → v ≤ M → numeric_cast v = some v)
    (entries order : List huffman_code)
    (hvalid : ∀ e ∈ entries, 0 ≤ e.symbol ∧ e.symbol + 1 ≤ M ∧ 1 ≤ e.code_length ∧
      e.code_length ≤ 32 ∧ in_int e.code)
    (hroom : 2 + huffman_tree.room entries ≤ M)
    (hfree : entries.Pairwise huffman_code.separate)
    (horder : order.Perm entries) :
    ∃ t, huffman_tree.add_all numeric_cast huffman_tree.construct order = some t ∧
      ∀ e ∈ entries, ∃ rs, t.feed t.start e.bits = some (rs ++ [e.symbol]) ∧
        (∀ r ∈ rs, r < 0) ∧ rs.length + 1 = e.code_length.toNat := by
  obtain ⟨t, hall, hdec⟩ := add_all_decodes numeric_cast M hM hcast order
    (fun e he => hvalid e (horder.mem_iff.1 he))
    (by rw [room_perm order entries horder]; exact hroom)
    ((List.Perm.pairwise_iff
      (fun {a b} (h : huffman_code.separate a b) =>
        (⟨h.2, h.1⟩ : huffman_code.separate b a)) horder).2 hfree)
  exact ⟨t, hall, fun e he => hdec e (horder.mem_iff.2 he)⟩

theorem checked_cast_keeps (least largest M : Int) (hleast : least ≤ -M)
    (hlargest : M ≤ largest) (v : Int) (h1 : -M ≤ v) (h2 : v ≤ M) :
    checked_cast least largest v = some v := by
  unfold checked_cast
  rw [if_pos ⟨le_trans hleast h1, le_trans h2 hlargest⟩]

/-- Witness of C26: for a `T` of 16 bits, the entries 0, 10, 110, 111 for the symbols 1, 0,
2, 3, added in another order, are all decoded. -/
theorem huffman_add_then_decode_witness :
    ∃ t, huffman_tree.add_all (checked_cast (-32768) 32767) huffman_tree.construct
        [⟨3, 7, 3⟩, ⟨0, 2, 2⟩, ⟨2, 6, 3⟩, ⟨1, 0, 1⟩] = some t ∧
      ∀ e ∈ ([⟨1, 0, 1⟩, ⟨0, 2, 2⟩, ⟨2, 6, 3⟩, ⟨3, 7, 3⟩] : List huffman_code),
        ∃ rs, t.feed t.start e.bits = some (rs ++ [e.symbol]) ∧
          (∀ r ∈ rs, r < 0) ∧ rs.length + 1 = e.code_length.toNat :=
  huffman_add_then_decode (checked_cast (-32768) 32767) 32767 (by decide)
    (checked_cast_keeps (-32768) 32767 32767 (by decide) (by decide))
    [⟨1, 0, 1⟩, ⟨0, 2, 2⟩, ⟨2, 6, 3⟩, ⟨3, 7, 3⟩]
    [⟨3, 7, 3⟩, ⟨0, 2, 2⟩, ⟨2, 6, 3⟩, ⟨1, 0, 1⟩] (by decide) (by decide)
    (by decide) (by decide)

/-! ## Theorems: huffman_tree, from_lengths -/

theorem before_false_iff (a b : symbol_length_t) :
    b.before a = false ↔
      a.length < b.length ∨ (a.length = b.length ∧ a.symbol ≤ b.symbol) := by
  unfold symbol_length_t.before
  by_cases h : b.length = a.length
  · simp [h]
  · simp only [h, if_false, decide_eq_false_iff_not]
    omega

theorem sort_perm (xs : List symbol_length_t) : (huffman_tree.sort xs).Perm xs :=
  List.perm_insertionSort _ xs

theorem sort_by_length (xs : List symbol_length_t) :
    (huffman_tree.sort xs).Pairwise (fun a b => a.length ≤ b.length) := by
  haveI : IsTotal symbol_length_t (fun a b => b.before a = false) :=
    ⟨fun a b => by
      simp only [before_false_iff]
      omega⟩
  haveI : IsTrans symbol_length_t (fun a b => b.before a = false) :=
    ⟨fun a b c => by
      simp only [before_false_iff]
      omega⟩
  have h := List.sorted_insertionSort (fun a b : symbol_length_t => b.before a = false) xs
  refine List.Pairwise.imp ?_ h
  intro a b hab
  have := (before_false_iff a b).1 hab
  omega

theorem from_lengths_loop_next_some (nc : Int → Option Int) :
    ∀ (rest : List symbol_length_t) (previous : huffman_code) (r t : huffman_tree),
      (∀ s ∈ rest, s.length ≠ 0 ∧ previous.code_length ≤ s.length) →
      rest.Pairwise (fun a b => a.length ≤ b.length) →
      huffman_tree.from_lengths_loop nc rest (previous.code + 1) previous.code_length r
        = some t →
      huffman_tree.add_all nc r (huffman_tree.canonical_next previous rest) = some t := by
  intro rest
  induction rest with
  | nil => intro previous r t _ _ h; exact h
  | cons s rest ih =>
    intro previous r t hall hsorted h
    obtain ⟨hne, hle⟩ := hall s (List.mem_cons_self _ _)
    rw [List.pairwise_cons] at hsorted
    unfold huffman_tree.from_lengths_loop at h
    rw [if_pos hne] at h
    unfold huffman_tree.canonical_next huffman_tree.add_all
    simp only []
    split at h
    · cases hadd : huffman_tree.add nc r s.symbol
          ((previous.code + 1) * 2 ^ (s.length - previous.code_length).toNat) s.length with
      | none => rw [hadd] at h; cases h
      | some r1 =>
        rw [hadd] at h
        simp only [] at h ⊢
        split at h
        · exact ih { symbol := s.symbol,
                     code := (previous.code + 1) * 2 ^ (s.length - previous.code_length).toNat,
                     code_length := s.length } r1 t
            (fun x hx => ⟨(hall x (List.mem_cons_of_mem _ hx)).1, hsorted.1 x hx⟩)
            hsorted.2 h
        · cases h
    · cases h

theorem from_lengths_loop_codes_some (nc : Int → Option Int) :
    ∀ (xs : List symbol_length_t) (r t : huffman_tree),
      (∀ s ∈ xs, 0 ≤ s.length) → xs.Pairwise (fun a b => a.length ≤ b.length) →
      huffman_tree.from_lengths_loop nc xs 0 0 r = some t →
      huffman_tree.add_all nc r
          (match xs.filter (fun s => decide (s.length ≠ 0)) with
           | [] => []
           | s :: rest =>
             { symbol := s.symbol, code := 0, code_length := s.length }
             :: huffman_tree.canonical_next
                 { symbol := s.symbol, code := 0, code_length := s.length } rest) = some t := by
  intro xs
  induction xs with
  | nil => intro r t _ _ h; exact h
  | cons s rest ih =>
    intro r t hall hsorted h
    rw [List.pairwise_cons] at hsorted
    have hs := hall s (List.mem_cons_self _ _)
    by_cases h0 : s.length = 0
    · unfold huffman_tree.from_lengths_loop at h
      rw [if_neg (by simpa using h0), h0] at h
      rw [List.filter_cons_of_neg (by simpa using h0)]
      exact ih r t (fun x hx => hall x (List.mem_cons_of_mem _ hx)) hsorted.2 h
    · have hrest : rest.filter (fun s => decide (s.length ≠ 0)) = rest := by
        rw [List.filter_eq_self]
        intro x hx
        have := hsorted.1 x hx
        simp only [ne_eq, decide_not, Bool.not_eq_eq_eq_not, Bool.not_true,
          decide_eq_false_iff_not]
        omega
      rw [List.filter_cons_of_pos (by simpa using h0), hrest]
      unfold huffman_tree.from_lengths_loop at h
      rw [if_pos h0] at h
      unfold huffman_tree.add_all
      simp only [zero_mul, zero_add] at h ⊢
      split at h
      · cases hadd : huffman_tree.add nc r s.symbol 0 s.length with
        | none => rw [hadd] at h; cases h
        | some r1 =>
          rw [hadd] at h
          simp only [] at h ⊢
          split at h
          · have := from_lengths_loop_next_some nc rest
              { symbol := s.symbol, code := 0, code_length := s.length } r1 t
              (fun x hx => ⟨by have := hsorted.1 x hx; omega, hsorted.1 x hx⟩) hsorted.2
              (by simpa using h)
            exact this
          · cases h
      · cases h

theorem from_lengths_loop_next (nc : Int → Option Int) :
    ∀ (rest : List symbol_length_t) (previous : huffman_code) (r : huffman_tree),
      (∀ s ∈ rest, s.length ≠ 0 ∧ previous.code_length ≤ s.length ∧ s.length ≤ 31) →
      0 ≤ previous.code_length →
      rest.Pairwise (fun a b => a.length ≤ b.length) →
      (∀ e ∈ huffman_tree.canonical_next previous rest, in_int e.code ∧ in_int (e.code + 1)) →
      huffman_tree.from_lengths_loop nc rest (previous.code + 1) previous.code_length r
        = huffman_tree.add_all nc r (huffman_tree.canonical_next previous rest) := by
  intro rest
  induction rest with
  | nil => intro previous r _ _ _ _; rfl
  | cons s rest ih =>
    intro previous r hall hlen hsorted hcodes
    obtain ⟨hne, hle, h31⟩ := hall s (List.mem_cons_self _ _)
    rw [List.pairwise_cons] at hsorted
    have hhead := hcodes
      { symbol := s.symbol,
        code := (previous.code + 1) * 2 ^ (s.length - previous.code_length).toNat,
        code_length := s.length } (by simp [huffman_tree.canonical_next])
    simp only [] at hhead
    have hchecks : in_int (s.length - previous.code_length) ∧
        0 ≤ s.length - previous.code_length ∧ s.length - previous.code_length < 32 ∧
        in_int ((previous.code + 1) * 2 ^ (s.length - previous.code_length).toNat) :=
      ⟨(in_int_iff _).2 (by omega), by omega, by omega, hhead.1⟩
    unfold huffman_tree.from_lengths_loop huffman_tree.canonical_next huffman_tree.add_all
    rw [if_pos hne, if_pos hchecks]
    simp only []
    cases hadd : huffman_tree.add nc r s.symbol
        ((previous.code + 1) * 2 ^ (s.length - previous.code_length).toNat) s.length with
    | none => rfl
    | some r1 =>
      simp only []
      rw [if_pos hhead.2]
      exact ih { symbol := s.symbol,
                 code := (previous.code + 1) * 2 ^ (s.length - previous.code_length).toNat,
                 code_length := s.length } r1
        (fun x hx => ⟨(hall x (List.mem_cons_of_mem _ hx)).1, hsorted.1 x hx,
          (hall x (List.mem_cons_of_mem _ hx)).2.2⟩) (by simp only []; omega) hsorted.2
        (fun e he => hcodes e (by
          unfold huffman_tree.canonical_next
          exact List.mem_cons_of_mem _ he))

theorem from_lengths_loop_codes (nc : Int → Option Int) :
    ∀ (xs : List symbol_length_t) (r : huffman_tree),
      (∀ s ∈ xs, 0 ≤ s.length ∧ s.length ≤ 31) →
      xs.Pairwise (fun a b => a.length ≤ b.length) →
      (∀ e ∈ ((match xs.filter (fun s => decide (s.length ≠ 0)) with
           | [] => []
           | s :: rest =>
             { symbol := s.symbol, code := 0, code_length := s.length }
             :: huffman_tree.canonical_next
                 { symbol := s.symbol, code := 0, code_length := s.length } rest) :
           List huffman_code),
        in_int e.code ∧ in_int (e.code + 1)) →
      huffman_tree.from_lengths_loop nc xs 0 0 r
        = huffman_tree.add_all nc r
          (match xs.filter (fun s => decide (s.length ≠ 0)) with
           | [] => []
           | s :: rest =>
             { symbol := s.symbol, code := 0, code_length := s.length }
             :: huffman_tree.canonical_next
                 { symbol := s.symbol, code := 0, code_length := s.length } rest) := by
  intro xs
  induction xs with
  | nil => intro r _ _ _; rfl
  | cons s rest ih =>
    intro r hall hsorted hcodes
    rw [List.pairwise_cons] at hsorted
    have hs := hall s (List.mem_cons_self _ _)
    by_cases h0 : s.length = 0
    · unfold huffman_tree.from_lengths_loop
      rw [if_neg (by simpa using h0), h0]
      rw [List.filter_cons_of_neg (by simpa using h0)] at hcodes ⊢
      exact ih r (fun x hx => hall x (List.mem_cons_of_mem _ hx)) hsorted.2 hcodes
    · have hrest : rest.filter (fun s => decide (s.length ≠ 0)) = rest := by
        rw [List.filter_eq_self]
        intro x hx
        have := hsorted.1 x hx
        simp only [ne_eq, decide_not, Bool.not_eq_eq_eq_not, Bool.not_true,
          decide_eq_false_iff_not]
        omega
      rw [List.filter_cons_of_pos (by simpa using h0), hrest] at hcodes ⊢
      simp only [] at hcodes
      have hchecks : in_int (s.length - 0) ∧ 0 ≤ s.length - 0 ∧ s.length - 0 < 32 ∧
          in_int (0 * 2 ^ (s.length - 0).toNat) :=
        ⟨(in_int_iff _).2 (by omega), by omega, by omega, (in_int_iff _).2 (by simp)⟩
      have hone : in_int (0 * 2 ^ (s.length - 0).toNat + 1) := (in_int_iff _).2 (by simp)
      unfold huffman_tree.from_lengths_loop huffman_tree.add_all
      rw [if_pos h0, if_pos hchecks]
      simp only [zero_mul]
      cases hadd : huffman_tree.add nc r s.symbol 0 s.length with
      | none => rfl
      | some r1 =>
        simp only []
        rw [zero_mul] at hone
        rw [if_pos hone]
        have := from_lengths_loop_next nc rest
          { symbol := s.symbol, code := 0, code_length := s.length } r1
          (fun x hx => ⟨by have := hsorted.1 x hx; omega, hsorted.1 x hx,
            (hall x (List.mem_cons_of_mem _ hx)).2⟩) (by simp only []; omega) hsorted.2
          (fun e he => hcodes e (List.mem_cons_of_mem _ he))
        simpa using this

theorem symbol_lengths_mem (s : symbol_length_t) :
    ∀ (lengths : List Int) (k : Int),
      s ∈ huffman_tree.symbol_lengths k lengths ↔
        ∃ i : Nat, lengths[i]? = some s.length ∧ s.symbol = k + i := by
  intro lengths
  induction lengths with
  | nil => intro k; simp [huffman_tree.symbol_lengths]
  | cons l rest ih =>
    intro k
    simp only [huffman_tree.symbol_lengths, List.mem_cons, ih]
    constructor
    · rintro (h | ⟨i, h1, h2⟩)
      · exact ⟨0, by simp [h], by simp [h]⟩
      · exact ⟨i + 1, by simpa using h1, by rw [h2]; push_cast; ring⟩
    · rintro ⟨i, h1, h2⟩
      cases i with
      | zero =>
        left
        cases s
        simp at h1 h2
        simp [h1, h2]
      | succ i =>
        right
        exact ⟨i, by simpa using h1, by rw [h2]; push_cast; ring⟩

theorem symbol_lengths_map (lengths : List Int) :
    ∀ k, (huffman_tree.symbol_lengths k lengths).map (fun s => s.length) = lengths := by
  induction lengths with
  | nil => intro k; rfl
  | cons l rest ih => intro k; simp [huffman_tree.symbol_lengths, ih]

theorem canonical_next_map :
    ∀ (rest : List symbol_length_t) (previous : huffman_code),
      (huffman_tree.canonical_next previous rest).map
        (fun e => ({ symbol := e.symbol, length := e.code_length } : symbol_length_t))
        = rest := by
  intro rest
  induction rest with
  | nil => intro _; rfl
  | cons s rest ih => intro previous; simp [huffman_tree.canonical_next, ih]

theorem canonical_codes_map (lengths : List Int) :
    (huffman_tree.canonical_codes lengths).map
      (fun e => ({ symbol := e.symbol, length := e.code_length } : symbol_length_t))
      = (huffman_tree.sort (huffman_tree.symbol_lengths 0 lengths)).filter
          (fun s => decide (s.length ≠ 0)) := by
  unfold huffman_tree.canonical_codes
  cases (huffman_tree.sort (huffman_tree.symbol_lengths 0 lengths)).filter
      (fun s => decide (s.length ≠ 0)) with
  | nil => rfl
  | cons s rest => simp [canonical_next_map]

theorem bits_value_lt : ∀ bs : List Bool, huffman_tree.bits_value bs < 2 ^ bs.length := by
  intro bs
  induction bs with
  | nil => simp [huffman_tree.bits_value]
  | cons b bs ih =>
    simp only [huffman_tree.bits_value, List.length_cons, pow_succ]
    cases b <;> simp <;> omega

theorem bits_value_append (xs ys : List Bool) :
    huffman_tree.bits_value (xs ++ ys)
      = huffman_tree.bits_value xs * 2 ^ ys.length + huffman_tree.bits_value ys := by
  induction xs with
  | nil => simp [huffman_tree.bits_value]
  | cons b xs ih =>
    simp only [List.cons_append, huffman_tree.bits_value, List.append_eq, ih,
      List.length_append, pow_add]
    ring

theorem emod_two_pow_succ (c : Int) (n : Nat) :
    c % 2 ^ (n + 1) = (c / 2 ^ n % 2) * 2 ^ n + c % 2 ^ n := by
  have hX : (0 : Int) < 2 ^ n := by positivity
  have h1 := Int.emod_add_ediv c (2 ^ n)
  have h2 := Int.emod_add_ediv (c / 2 ^ n) 2
  have h3 := Int.emod_nonneg c (ne_of_gt hX)
  have h4 := Int.emod_lt_of_pos c hX
  have h5 := Int.emod_two_eq (c / 2 ^ n)
  have hc : c = ((c / 2 ^ n % 2) * 2 ^ n + c % 2 ^ n) + 2 ^ (n + 1) * (c / 2 ^ n / 2) := by
    have : c / 2 ^ n = c / 2 ^ n % 2 + 2 * (c / 2 ^ n / 2) := h2.symm
    calc c = c % 2 ^ n + 2 ^ n * (c / 2 ^ n) := h1.symm
      _ = c % 2 ^ n + 2 ^ n * (c / 2 ^ n % 2 + 2 * (c / 2 ^ n / 2)) := by rw [← this]
      _ = _ := by rw [pow_succ]; ring
  have hlt : (c / 2 ^ n % 2) * 2 ^ n + c % 2 ^ n < 2 ^ (n + 1) := by
    rw [pow_succ]
    rcases h5 with h | h <;> rw [h] <;> omega
  have hge : 0 ≤ (c / 2 ^ n % 2) * 2 ^ n + c % 2 ^ n := by
    rcases h5 with h | h <;> rw [h] <;> omega
  conv_lhs => rw [hc]
  rw [Int.add_mul_emod_self_left, Int.emod_eq_of_lt hge hlt]

theorem bits_value_code_bits (c : Int) :
    ∀ n : Nat, (huffman_tree.bits_value (huffman_tree.code_bits c n) : Int) = c % 2 ^ n := by
  intro n
  induction n with
  | zero => simp [huffman_tree.code_bits, huffman_tree.bits_value, Int.emod_one]
  | succ n ih =>
    rw [emod_two_pow_succ, ← ih]
    simp only [huffman_tree.code_bits, huffman_tree.bits_value, code_bits_length]
    have hb := code_bit_cases c n
    unfold huffman_tree.code_bit at hb ⊢
    rw [Int.shiftRight_eq_div_pow] at hb ⊢
    push_cast at hb ⊢
    rw [← hb]

theorem code_bits_separate (a b : Int) (la lb : Nat) (ha : 0 ≤ a) (hl : la ≤ lb)
    (hab : (a + 1) * 2 ^ (lb - la) ≤ b) (hb : b < 2 ^ lb) :
    ¬ huffman_tree.code_bits a la <+: huffman_tree.code_bits b lb ∧
    ¬ huffman_tree.code_bits b lb <+: huffman_tree.code_bits a la := by
  have hD : (0 : Int) < 2 ^ (lb - la) := by positivity
  have hpow : (2 : Int) ^ lb = 2 ^ la * 2 ^ (lb - la) := by
    rw [← pow_add]; congr 1; omega
  have hb0 : 0 ≤ b := by
    have : 0 ≤ (a + 1) * 2 ^ (lb - la) := by positivity
    omega
  have ha1 : a < 2 ^ la := by
    have h1 : (a + 1) * 2 ^ (lb - la) < 2 ^ la * 2 ^ (lb - la) := by rw [← hpow]; omega
    have := lt_of_mul_lt_mul_right h1 (le_of_lt hD)
    omega
  have hfirst : ¬ huffman_tree.code_bits a la <+: huffman_tree.code_bits b lb := by
    rintro ⟨t, ht⟩
    have hlen : t.length = lb - la := by
      have := congrArg List.length ht
      simp only [List.length_append, code_bits_length] at this
      omega
    have hval := congrArg (fun l => (huffman_tree.bits_value l : Int)) ht
    simp only [bits_value_append] at hval
    push_cast at hval
    rw [bits_value_code_bits, bits_value_code_bits, Int.emod_eq_of_lt ha ha1,
      Int.emod_eq_of_lt hb0 hb, hlen] at hval
    have ht1 : (huffman_tree.bits_value t : Int) < 2 ^ (lb - la) := by
      have := bits_value_lt t
      rw [hlen] at this
      exact_mod_cast this
    have : (a + 1) * 2 ^ (lb - la) = a * 2 ^ (lb - la) + 2 ^ (lb - la) := by ring
    omega
  refine ⟨hfirst, ?_⟩
  intro h
  have hlen := h.length_le
  simp only [code_bits_length] at hlen
  have heq : lb = la := by omega
  subst heq
  have := h.eq_of_length (by simp [code_bits_length])
  exact hfirst (this ▸ List.prefix_refl _)

theorem shift_weight (c lp l : Int) (h : lp ≤ l) :
    ((c * 2 ^ (l - lp).toNat : Int) : ℚ) * 2 ^ (-l) = (c : ℚ) * 2 ^ (-lp) := by
  have hpow : ((2 : ℚ) ^ (l - lp).toNat) = (2 : ℚ) ^ (l - lp) := by
    rw [← zpow_natCast, Int.toNat_of_nonneg (by omega)]
  push_cast
  rw [hpow, mul_assoc, ← zpow_add₀ (by norm_num : (2 : ℚ) ≠ 0)]
  congr 2
  ring

theorem code_lt_of_weight (c l : Int) (hl : 0 ≤ l) (h : ((c : ℚ) + 1) * 2 ^ (-l) ≤ 1) :
    c < 2 ^ l.toNat := by
  have hpos : (0 : ℚ) < 2 ^ l := by positivity
  have h1 : ((c : ℚ) + 1) * 2 ^ (-l) * 2 ^ l ≤ 1 * 2 ^ l :=
    mul_le_mul_of_nonneg_right h hpos.le
  rw [mul_assoc, ← zpow_add₀ (by norm_num : (2 : ℚ) ≠ 0), neg_add_cancel, zpow_zero, mul_one,
    one_mul] at h1
  have hpow : ((2 : ℚ) ^ l) = (2 : ℚ) ^ l.toNat := by
    rw [← zpow_natCast, Int.toNat_of_nonneg hl]
  rw [hpow] at h1
  have h2 : c + 1 ≤ 2 ^ l.toNat := by exact_mod_cast h1
  omega

theorem code_ge_of_weight (a b la lb : Int) (hl : la ≤ lb)
    (h : ((a : ℚ) + 1) * 2 ^ (-la) ≤ (b : ℚ) * 2 ^ (-lb)) :
    (a + 1) * 2 ^ (lb - la).toNat ≤ b := by
  have hpos : (0 : ℚ) < 2 ^ lb := by positivity
  have h1 := mul_le_mul_of_nonneg_right h hpos.le
  rw [mul_assoc, mul_assoc, ← zpow_add₀ (by norm_num : (2 : ℚ) ≠ 0),
    ← zpow_add₀ (by norm_num : (2 : ℚ) ≠ 0), neg_add_cancel, zpow_zero, mul_one] at h1
  have hpow : ((2 : ℚ) ^ (-la + lb)) = (2 : ℚ) ^ (lb - la).toNat := by
    rw [← zpow_natCast, Int.toNat_of_nonneg (by omega)]
    congr 1
    ring
  rw [hpow] at h1
  exact_mod_cast h1

theorem weights_separate (a b : huffman_code) (ha : 0 ≤ a.code) (hla : 0 ≤ a.code_length)
    (hl : a.code_length ≤ b.code_length)
    (hab : ((a.code : ℚ) + 1) * 2 ^ (-a.code_length) ≤ (b.code : ℚ) * 2 ^ (-b.code_length))
    (hb : ((b.code : ℚ) + 1) * 2 ^ (-b.code_length) ≤ 1) :
    huffman_code.separate a b := by
  have h1 := code_ge_of_weight a.code b.code a.code_length b.code_length hl hab
  have h2 := code_lt_of_weight b.code b.code_length (by omega) hb
  have h3 : (b.code_length - a.code_length).toNat
      = b.code_length.toNat - a.code_length.toNat := by omega
  rw [h3] at h1
  exact code_bits_separate a.code b.code a.code_length.toNat b.code_length.toNat ha
    (by omega) h1 h2

theorem weights_sum_nonneg (rest : List symbol_length_t) :
    0 ≤ (rest.map (fun s => (2 : ℚ) ^ (-s.length))).sum := by
  apply List.sum_nonneg
  intro x hx
  obtain ⟨s, _, rfl⟩ := List.mem_map.1 hx
  positivity

theorem canonical_next_bounds :
    ∀ (rest : List symbol_length_t) (previous : huffman_code),
      0 ≤ previous.code → (∀ s ∈ rest, previous.code_length ≤ s.length) →
      rest.Pairwise (fun a b => a.length ≤ b.length) →
      ((previous.code : ℚ) + 1) * 2 ^ (-previous.code_length)
        + (rest.map (fun s => (2 : ℚ) ^ (-s.length))).sum ≤ 1 →
      ∀ e ∈ huffman_tree.canonical_next previous rest,
        ((previous.code : ℚ) + 1) * 2 ^ (-previous.code_length)
            ≤ (e.code : ℚ) * 2 ^ (-e.code_length) ∧
        ((e.code : ℚ) + 1) * 2 ^ (-e.code_length) ≤ 1 ∧
        previous.code_length ≤ e.code_length ∧ 0 ≤ e.code := by
  intro rest
  induction rest with
  | nil => intro previous _ _ _ _ e he; simp [huffman_tree.canonical_next] at he
  | cons s rest ih =>
    intro previous hcode hle hsorted hsum e he
    rw [List.pairwise_cons] at hsorted
    have hs := hle s (List.mem_cons_self _ _)
    have hF := shift_weight (previous.code + 1) previous.code_length s.length hs
    push_cast at hF
    have hrest := weights_sum_nonneg rest
    have hw : (0 : ℚ) < 2 ^ (-s.length) := by positivity
    simp only [List.map_cons, List.sum_cons] at hsum
    have hcode0 : 0 ≤ (previous.code + 1) * 2 ^ (s.length - previous.code_length).toNat := by
      positivity
    simp only [huffman_tree.canonical_next, List.mem_cons] at he
    rcases he with he | he
    · subst he
      simp only []
      push_cast
      refine ⟨by rw [hF], ?_, hs, hcode0⟩
      rw [add_mul, hF]
      linarith
    · have := ih _ hcode0 hsorted.1 hsorted.2 (by
        simp only []
        push_cast
        rw [add_mul, hF]
        linarith) e he
      simp only [] at this
      push_cast at this
      rw [add_mul, hF] at this
      refine ⟨by linarith, this.2.1, by omega, this.2.2.2⟩

theorem canonical_next_separate :
    ∀ (rest : List symbol_length_t) (previous : huffman_code),
      0 ≤ previous.code → 0 ≤ previous.code_length →
      (∀ s ∈ rest, previous.code_length ≤ s.length) →
      rest.Pairwise (fun a b => a.length ≤ b.length) →
      ((previous.code : ℚ) + 1) * 2 ^ (-previous.code_length)
        + (rest.map (fun s => (2 : ℚ) ^ (-s.length))).sum ≤ 1 →
      (previous :: huffman_tree.canonical_next previous rest).Pairwise
        huffman_code.separate := by
  intro rest
  induction rest with
  | nil => intro previous _ _ _ _ _; simp [huffman_tree.canonical_next]
  | cons s rest ih =>
    intro previous hcode hlen hle hsorted hsum
    rw [List.pairwise_cons]
    constructor
    · intro e he
      obtain ⟨h1, h2, h3, _⟩ := canonical_next_bounds (s :: rest) previous hcode hle hsorted
        hsum e he
      exact weights_separate previous e hcode hlen h3 h1 h2
    · rw [List.pairwise_cons] at hsorted
      have hs := hle s (List.mem_cons_self _ _)
      have hF := shift_weight (previous.code + 1) previous.code_length s.length hs
      push_cast at hF
      simp only [List.map_cons, List.sum_cons] at hsum
      have hcode0 : 0 ≤ (previous.code + 1) * 2 ^ (s.length - previous.code_length).toNat := by
        positivity
      exact ih _ hcode0 (by simp only []; omega) hsorted.1 hsorted.2 (by
        simp only []
        push_cast
        rw [add_mul, hF]
        linarith)

theorem kraft_sum_sorted (lengths : List Int) :
    (((huffman_tree.sort (huffman_tree.symbol_lengths 0 lengths)).filter
        (fun s => decide (s.length ≠ 0))).map (fun s => (2 : ℚ) ^ (-s.length))).sum
      = huffman_tree.kraft_sum lengths := by
  have hperm := ((sort_perm (huffman_tree.symbol_lengths 0 lengths)).filter
    (fun s => decide (s.length ≠ 0))).map (fun s => (2 : ℚ) ^ (-s.length))
  rw [hperm.sum_eq]
  unfold huffman_tree.kraft_sum
  conv_rhs => rw [← symbol_lengths_map lengths 0]
  rw [List.filter_map, List.map_map]
  rfl

theorem kraft_nonneg (lengths : List Int) (h : huffman_tree.kraft_sum lengths ≤ 1) :
    ∀ l ∈ lengths, 0 ≤ l := by
  intro l hl
  by_contra hneg
  have hmem : (2 : ℚ) ^ (-l) ∈ (lengths.filter (fun l => decide (l ≠ 0))).map
      (fun l => (2 : ℚ) ^ (-l)) :=
    List.mem_map.2 ⟨l, List.mem_filter.2 ⟨hl, by simp; omega⟩, rfl⟩
  have hle := List.single_le_sum (by
    intro x hx
    obtain ⟨y, _, rfl⟩ := List.mem_map.1 hx
    positivity) _ hmem
  have hpow : (2 : ℚ) ^ (-l) = (2 : ℚ) ^ (-l).toNat := by
    rw [← zpow_natCast, Int.toNat_of_nonneg (by omega)]
  have h2 : (2 : ℚ) ^ 1 ≤ (2 : ℚ) ^ (-l).toNat :=
    pow_le_pow_right₀ (by norm_num) (by omega)
  unfold huffman_tree.kraft_sum at h
  rw [hpow] at hle
  linarith

theorem sorted_mem (lengths : List Int) (s : symbol_length_t) :
    s ∈ huffman_tree.sort (huffman_tree.symbol_lengths 0 lengths) ↔
      ∃ i : Nat, lengths[i]? = some s.length ∧ s.symbol = i := by
  rw [(sort_perm _).mem_iff, symbol_lengths_mem]
  simp

theorem canonical_codes_mem (lengths : List Int) (symbol length : Int) :
    (∃ e ∈ huffman_tree.canonical_codes lengths, e.symbol = symbol ∧ e.code_length = length)
      ↔ length ≠ 0 ∧ ∃ i : Nat, lengths[i]? = some length ∧ symbol = i := by
  have hmap := canonical_codes_map lengths
  have hiff : (({ symbol := symbol, length := length } : symbol_length_t)
      ∈ (huffman_tree.canonical_codes lengths).map
        (fun e => ({ symbol := e.symbol, length := e.code_length } : symbol_length_t)))
      ↔ length ≠ 0 ∧ ∃ i : Nat, lengths[i]? = some length ∧ symbol = i := by
    rw [hmap, List.mem_filter, sorted_mem]
    simp [and_comm]
  rw [← hiff, List.mem_map]
  constructor
  · rintro ⟨e, he, h1, h2⟩
    exact ⟨e, he, by rw [h1, h2]⟩
  · rintro ⟨e, he, h⟩
    injection h with h1 h2
    exact ⟨e, he, h1, h2⟩

theorem canonical_codes_separate (lengths : List Int)
    (h : huffman_tree.kraft_sum lengths ≤ 1) :
    (huffman_tree.canonical_codes lengths).Pairwise huffman_code.separate := by
  have hnonneg := kraft_nonneg lengths h
  have hsum := kraft_sum_sorted lengths
  have hsorted := (sort_by_length (huffman_tree.symbol_lengths 0 lengths)).filter
    (fun s => decide (s.length ≠ 0))
  have hmem : ∀ s ∈ (huffman_tree.sort (huffman_tree.symbol_lengths 0 lengths)).filter
      (fun s => decide (s.length ≠ 0)), 0 ≤ s.length := by
    intro s hs
    obtain ⟨i, hi, _⟩ := (sorted_mem lengths s).1 (List.mem_filter.1 hs).1
    exact hnonneg _ (List.mem_iff_getElem?.2 ⟨i, hi⟩)
  unfold huffman_tree.canonical_codes
  cases hnz : (huffman_tree.sort (huffman_tree.symbol_lengths 0 lengths)).filter
      (fun s => decide (s.length ≠ 0)) with
  | nil => simp
  | cons s rest =>
    rw [hnz] at hsum hsorted hmem
    rw [List.pairwise_cons] at hsorted
    simp only [List.map_cons, List.sum_cons] at hsum
    exact canonical_next_separate rest { symbol := s.symbol, code := 0, code_length := s.length }
      (le_refl _) (hmem s (List.mem_cons_self _ _)) hsorted.1 hsorted.2 (by
        simp only []
        push_cast
        rw [zero_add, one_mul, hsum]
        exact h)

theorem canonical_codes_bounds (lengths : List Int)
    (h : huffman_tree.kraft_sum lengths ≤ 1) :
    ∀ e ∈ huffman_tree.canonical_codes lengths,
      0 ≤ e.code ∧ e.code < 2 ^ e.code_length.toNat := by
  have hnonneg := kraft_nonneg lengths h
  have hsum := kraft_sum_sorted lengths
  have hsorted := (sort_by_length (huffman_tree.symbol_lengths 0 lengths)).filter
    (fun s => decide (s.length ≠ 0))
  have hmem : ∀ s ∈ (huffman_tree.sort (huffman_tree.symbol_lengths 0 lengths)).filter
      (fun s => decide (s.length ≠ 0)), 0 ≤ s.length := by
    intro s hs
    obtain ⟨i, hi, _⟩ := (sorted_mem lengths s).1 (List.mem_filter.1 hs).1
    exact hnonneg _ (List.mem_iff_getElem?.2 ⟨i, hi⟩)
  unfold huffman_tree.canonical_codes
  cases hnz : (huffman_tree.sort (huffman_tree.symbol_lengths 0 lengths)).filter
      (fun s => decide (s.length ≠ 0)) with
  | nil => intro e he; simp at he
  | cons s rest =>
    rw [hnz] at hsum hsorted hmem
    rw [List.pairwise_cons] at hsorted
    simp only [List.map_cons, List.sum_cons] at hsum
    intro e he
    simp only [List.mem_cons] at he
    rcases he with he | he
    · subst he
      exact ⟨le_refl _, by positivity⟩
    · obtain ⟨_, h2, h3, h4⟩ := canonical_next_bounds rest
        { symbol := s.symbol, code := 0, code_length := s.length }
        (le_refl _) hsorted.1 hsorted.2 (by
          simp only []
          push_cast
          rw [zero_add, one_mul, hsum]
          exact h) e he
      simp only [] at h3
      exact ⟨h4, code_lt_of_weight e.code e.code_length
        (le_trans (hmem s (List.mem_cons_self _ _)) h3) h2⟩

theorem room_canonical_codes (lengths : List Int) :
    huffman_tree.room (huffman_tree.canonical_codes lengths)
      = huffman_tree.length_room lengths := by
  have hmap := canonical_codes_map lengths
  have h1 : huffman_tree.room (huffman_tree.canonical_codes lengths)
      = (((huffman_tree.canonical_codes lengths).map
          (fun e => ({ symbol := e.symbol, length := e.code_length } : symbol_length_t))).map
            (fun s => 2 * (s.length - 1))).sum := by
    rw [List.map_map]
    rfl
  rw [h1, hmap]
  have hperm := ((sort_perm (huffman_tree.symbol_lengths 0 lengths)).filter
    (fun s => decide (s.length ≠ 0))).map (fun s => 2 * (s.length - 1))
  rw [hperm.sum_eq]
  unfold huffman_tree.length_room
  conv_rhs => rw [← symbol_lengths_map lengths 0]
  rw [List.filter_map, List.map_map]
  rfl

/-- C27 as stated fails: the table [1, 33] has Kraft sum 1/2 + 2^-33, at most 1, yet
`from_lengths` gives symbol 0 the code 0, counts `code` up to 1 and then runs
`code <<= 32`, a shift by the whole width of `int`, which is not defined: no tree is
returned, also when `T` is `int` itself. -/
theorem from_lengths_shift_outside_int :
    huffman_tree.kraft_sum [1, 33] ≤ 1 ∧
    huffman_tree.from_lengths (checked_cast int_min int_max) [1, 33] = none :=
  ⟨by norm_num [huffman_tree.kraft_sum], by decide⟩

/-- C27, as the code behaves: for a table of lengths >= 0, whenever `from_lengths` returns
a tree it is the tree that adding the canonical code of the table to a fresh tree gives
(code 0 for the first symbol in (length, symbol) order, then (previous code + 1) shifted
left by the increase in length); the coded symbols are the symbols of non-zero length; and
when the Kraft sum is at most 1, every length is at most 30, and the number of symbols and
2 plus twice the sum of the non-zero lengths - 1 are at most a number `M` that `int` and `T`
hold together with its negative, `from_lengths` does return a tree, and it decodes the
canonical code of every coded symbol to that symbol. -/
theorem from_lengths_canonical (numeric_cast : Int → Option Int) (M : Int)
    (hM : M ≤ int_max) (hcast : ∀ v, -M ≤ v → v ≤ M → numeric_cast v = some v)
    (lengths : List Int) :
    ((∀ l ∈ lengths, 0 ≤ l) → ∀ t, huffman_tree.from_lengths numeric_cast lengths = some t →
      huffman_tree.add_all numeric_cast huffman_tree.construct
        (huffman_tree.canonical_codes lengths) = some t) ∧
    (∀ symbol length : Int,
      (∃ e ∈ huffman_tree.canonical_codes lengths, e.symbol = symbol ∧ e.code_length = length)
        ↔ length ≠ 0 ∧ ∃ i : Nat, lengths[i]? = some length ∧ symbol = i) ∧
    (huffman_tree.kraft_sum lengths ≤ 1 → (∀ l ∈ lengths, l ≤ 30) →
      (lengths.length : Int) ≤ M → 2 + huffman_tree.length_room lengths ≤ M →
      ∃ t, huffman_tree.from_lengths numeric_cast lengths = some t ∧
        huffman_tree.add_all numeric_cast huffman_tree.construct
          (huffman_tree.canonical_codes lengths) = some t ∧
        ∀ e ∈ huffman_tree.canonical_codes lengths,
          ∃ rs, t.feed t.start e.bits = some (rs ++ [e.symbol]) ∧
            (∀ r ∈ rs, r < 0) ∧ rs.length + 1 = e.code_length.toNat) := by
  have hM1 : M ≤ 2147483647 := hM
  refine ⟨?_, canonical_codes_mem lengths, ?_⟩
  · intro hnonneg t h
    unfold huffman_tree.from_lengths at h
    split at h
    · unfold huffman_tree.canonical_codes
      exact from_lengths_loop_codes_some numeric_cast _ _ t
        (fun s hs => by
          obtain ⟨i, hi, _⟩ := (sorted_mem lengths s).1 hs
          exact hnonneg _ (List.mem_iff_getElem?.2 ⟨i, hi⟩))
        (sort_by_length _) h
    · cases h
  · intro hkraft h30 hcount hroom
    have hnonneg := kraft_nonneg lengths hkraft
    have hbounds := canonical_codes_bounds lengths hkraft
    have hfacts : ∀ e ∈ huffman_tree.canonical_codes lengths,
        0 ≤ e.symbol ∧ e.symbol + 1 ≤ M ∧ 1 ≤ e.code_length ∧ e.code_length ≤ 30 := by
      intro e he
      obtain ⟨hne, i, hi, hsym⟩ := (canonical_codes_mem lengths e.symbol e.code_length).1
        ⟨e, he, rfl, rfl⟩
      have hmem := List.mem_iff_getElem?.2 ⟨i, hi⟩
      have h1 := hnonneg _ hmem
      have h2 := h30 _ hmem
      have h3 : i < lengths.length := by
        by_contra hge
        rw [List.getElem?_eq_none (by omega)] at hi
        cases hi
      exact ⟨by omega, by omega, by omega, h2⟩
    have hsmall : ∀ e ∈ huffman_tree.canonical_codes lengths,
        0 ≤ e.code ∧ e.code < 1073741824 := by
      intro e he
      obtain ⟨h1, h2⟩ := hbounds e he
      obtain ⟨_, _, h3, h4⟩ := hfacts e he
      have hpow : (2 : Int) ^ e.code_length.toNat ≤ 2 ^ 30 :=
        pow_le_pow_right₀ (by norm_num) (by omega)
      norm_num at hpow
      exact ⟨h1, by omega⟩
    have hloop : huffman_tree.from_lengths numeric_cast lengths
        = huffman_tree.add_all numeric_cast huffman_tree.construct
            (huffman_tree.canonical_codes lengths) := by
      have hin : (∀ l ∈ lengths, in_int l) ∧ (lengths.length : Int) ≤ int_max :=
        ⟨fun l hl => (in_int_iff _).2 (by have := hnonneg l hl; have := h30 l hl; omega),
          le_trans hcount hM⟩
      unfold huffman_tree.from_lengths
      rw [if_pos hin]
      have hcodes := hsmall
      unfold huffman_tree.canonical_codes at hcodes ⊢
      exact from_lengths_loop_codes numeric_cast _ _
        (fun s hs => by
          obtain ⟨i, hi, _⟩ := (sorted_mem lengths s).1 hs
          have hmem := List.mem_iff_getElem?.2 ⟨i, hi⟩
          have := hnonneg _ hmem
          have := h30 _ hmem
          exact ⟨by omega, by omega⟩)
        (sort_by_length _)
        (fun e he => by
          have := hcodes e he
          exact ⟨(in_int_iff _).2 (by omega), (in_int_iff _).2 (by omega)⟩)
    obtain ⟨t, hall, hdec⟩ := add_all_decodes numeric_cast M hM hcast
      (huffman_tree.canonical_codes lengths)
      (fun e he => by
        obtain ⟨h1, h2, h3, h4⟩ := hfacts e he
        have := hsmall e he
        exact ⟨h1, h2, h3, by omega, (in_int_iff _).2 (by omega)⟩)
      (by rw [room_canonical_codes]; exact hroom)
      (canonical_codes_separate lengths hkraft)
    exact ⟨t, by rw [hloop, hall], hall, hdec⟩

/-- Witness of C27: for a `T` of 16 bits, the lengths [2, 1, 3, 3] have Kraft sum 1 and give
the codes 10, 0, 110, 111 to the symbols 0, 1, 2, 3, listed here in (length, symbol) order;
the tree `from_lengths` returns decodes them. -/
theorem from_lengths_canonical_witness :
    huffman_tree.canonical_codes [2, 1, 3, 3]
      = [⟨1, 0, 1⟩, ⟨0, 2, 2⟩, ⟨2, 6, 3⟩, ⟨3, 7, 3⟩] ∧
    huffman_tree.from_lengths (checked_cast (-32768) 32767) [2, 1, 3, 3]
      = some { tree := [2, -1, 1, -1, 3, 4] } ∧
    huffman_tree.add_all (checked_cast (-32768) 32767) huffman_tree.construct
      (huffman_tree.canonical_codes [2, 1, 3, 3]) = some { tree := [2, -1, 1, -1, 3, 4] } ∧
    huffman_tree.kraft_sum [2, 1, 3, 3] ≤ 1 ∧
    ∃ t, huffman_tree.from_lengths (checked_cast (-32768) 32767) [2, 1, 3, 3] = some t ∧
      huffman_tree.add_all (checked_cast (-32768) 32767) huffman_tree.construct
        (huffman_tree.canonical_codes [2, 1, 3, 3]) = some t ∧
      ∀ e ∈ huffman_tree.canonical_codes [2, 1, 3, 3],
        ∃ rs, t.feed t.start e.bits = some (rs ++ [e.symbol]) ∧
          (∀ r ∈ rs, r < 0) ∧ rs.length + 1 = e.code_length.toNat :=
  ⟨by decide, by decide,
   (from_lengths_canonical (checked_cast (-32768) 32767) 32767 (by decide)
      (checked_cast_keeps (-32768) 32767 32767 (by decide) (by decide)) [2, 1, 3, 3]).1 (by decide) _ (by decide),
   by norm_num [huffman_tree.kraft_sum],
   (from_lengths_canonical (checked_cast (-32768) 32767) 32767 (by decide)
      (checked_cast_keeps (-32768) 32767 32767 (by decide) (by decide)) [2, 1, 3, 3]).2.2 (by norm_num [huffman_tree.kraft_sum])
      (by decide) (by decide) (by decide)⟩

/-! ## Theorems: left_align on blanks only -/

/-- C34: `left_align` on a text made only of spaces and tabs, the empty text included,
leaves the empty text (and the location as it was): the scan reaches the start of the text
with `new_text_length` counted down to 0. -/
theorem left_align_all_blanks (node : veer_string_node)
    (hblank : ∀ c ∈ node.text, is_blank c) :
    node.left_align.text = [] ∧ node.left_align.location = node.location := by
  have hscan : veer_string_node.left_align_scan node.text.reverse node.text.length
      = some 0 := by
    have h := left_align_scan_blanks node.text.reverse
      (fun c hc => hblank c (List.mem_reverse.1 hc)) [] node.text.length
    rw [List.append_nil] at h
    rw [h]
    simp [veer_string_node.left_align_scan]
  unfold veer_string_node.left_align
  rw [hscan]
  simp [string_resize]

/-- Witness of C34 on the text space, tab, space, space. -/
theorem left_align_all_blanks_witness :
    (veer_string_node.left_align { location := ⟨"f", 1, 1⟩, text := [' ', '\t', ' ', ' '] }).text
      = [] :=
  (left_align_all_blanks { location := ⟨"f", 1, 1⟩, text := [' ', '\t', ' ', ' '] }
    (by decide)).1

/-! ## Theorems: getAtlasPositionFromPage -/

theorem tdiv_tmod_page (nr : Int) (hnr : 0 ≤ nr) :
    Int.tdiv nr 256 = nr / 256 ∧ Int.tmod nr 256 = nr % 256 ∧
    Int.tdiv (nr % 256) 16 = nr % 256 / 16 ∧
    Int.tmod (nr % 256) 16 = nr % 256 % 16 := by
  have h1 : Int.tmod nr 256 = nr % 256 := Int.tmod_eq_emod hnr (by norm_num)
  have h2 : 0 ≤ nr % 256 := by omega
  refine ⟨Int.tdiv_eq_ediv hnr (by norm_num), h1, ?_, ?_⟩
  · exact Int.tdiv_eq_ediv h2 (by norm_num)
  · exact Int.tmod_eq_emod h2 (by norm_num)

theorem getAtlasPositionFromPage_value (P : PipelineImage.Page_constants) (nr : Int)
    (hnr : 0 ≤ nr) :
    PipelineImage.DeviceShared.getAtlasPositionFromPage P { nr := nr }
      = { x := nr % 256 % 16 * P.widthIncludingBorder + P.border
          y := nr % 256 / 16 * P.heightIncludingBorder + P.border
          z := nr / 256
          w := 1 } := by
  obtain ⟨h1, h2, h3, h4⟩ := tdiv_tmod_page nr hnr
  have h256 : PipelineImage.DeviceShared.atlasNrPagesPerImage = 256 := by decide
  simp only [PipelineImage.DeviceShared.getAtlasPositionFromPage, h256,
    PipelineImage.DeviceShared.atlasNrVerticalPages, h1, h2, h3, h4]

/-- C36: for a page number nr >= 0, `getAtlasPositionFromPage` returns z = nr / 256 and,
with p = nr mod 256, x = (p mod 16) * widthIncludingBorder + border and
y = (p / 16) * heightIncludingBorder + border (and w = 1).  When
0 <= border < widthIncludingBorder and border < heightIncludingBorder, x and y lie inside
the atlas image and two page numbers >= 0 with the same position are the same. -/
theorem getAtlasPositionFromPage_position (P : PipelineImage.Page_constants) (nr : Int)
    (hnr : 0 ≤ nr) :
    PipelineImage.DeviceShared.getAtlasPositionFromPage P { nr := nr }
      = { x := nr % 256 % 16 * P.widthIncludingBorder + P.border
          y := nr % 256 / 16 * P.heightIncludingBorder + P.border
          z := nr / 256
          w := 1 } ∧
    (0 ≤ P.border → P.border < P.widthIncludingBorder →
      P.border < P.heightIncludingBorder →
      0 ≤ (PipelineImage.DeviceShared.getAtlasPositionFromPage P { nr := nr }).x ∧
      (PipelineImage.DeviceShared.getAtlasPositionFromPage P { nr := nr }).x
        < PipelineImage.DeviceShared.atlasImageWidth P ∧
      0 ≤ (PipelineImage.DeviceShared.getAtlasPositionFromPage P { nr := nr }).y ∧
      (PipelineImage.DeviceShared.getAtlasPositionFromPage P { nr := nr }).y
        < PipelineImage.DeviceShared.atlasImageHeight P ∧
      ∀ nr2 : Int, 0 ≤ nr2 →
        PipelineImage.DeviceShared.getAtlasPositionFromPage P { nr := nr2 }
          = PipelineImage.DeviceShared.getAtlasPositionFromPage P { nr := nr } →
        nr2 = nr) := by
  refine ⟨getAtlasPositionFromPage_value P nr hnr, ?_⟩
  intro hb hw hh
  rw [getAtlasPositionFromPage_value P nr hnr]
  have hW : 0 < P.widthIncludingBorder := by omega
  have hH : 0 < P.heightIncludingBorder := by omega
  have hx0 : 0 ≤ nr % 256 % 16 := by omega
  have hx1 : nr % 256 % 16 ≤ 15 := by omega
  have hy0 : 0 ≤ nr % 256 / 16 := by omega
  have hy1 : nr % 256 / 16 ≤ 15 := by omega
  refine ⟨?_, ?_, ?_, ?_, ?_⟩
  · show 0 ≤ nr % 256 % 16 * P.widthIncludingBorder + P.border
    positivity
  · show nr % 256 % 16 * P.widthIncludingBorder + P.border
      < PipelineImage.DeviceShared.atlasImageWidth P
    unfold PipelineImage.DeviceShared.atlasImageWidth
      PipelineImage.DeviceShared.atlasNrHorizontalPages
    nlinarith
  · show 0 ≤ nr % 256 / 16 * P.heightIncludingBorder + P.border
    positivity
  · show nr % 256 / 16 * P.heightIncludingBorder + P.border
      < PipelineImage.DeviceShared.atlasImageHeight P
    unfold PipelineImage.DeviceShared.atlasImageHeight
      PipelineImage.DeviceShared.atlasNrVerticalPages
    nlinarith
  · intro nr2 hnr2 heq
    rw [getAtlasPositionFromPage_value P nr2 hnr2] at heq
    injection heq with hx hy hz _
    have hx2 : nr2 % 256 % 16 = nr % 256 % 16 := by
      have := add_right_cancel hx
      exact mul_right_cancel₀ (ne_of_gt hW) this
    have hy2 : nr2 % 256 / 16 = nr % 256 / 16 := by
      have := add_right_cancel hy
      exact mul_right_cancel₀ (ne_of_gt hH) this
    omega

/-- Witness of C36 with the page 64 x 64 and border 1: page 291 lies in atlas image 1, in
column 3 of row 2, at x = 3 * 66 + 1 and y = 2 * 66 + 1, inside the 1056 x 1056 image. -/
theorem getAtlasPositionFromPage_position_witness :
    PipelineImage.DeviceShared.getAtlasPositionFromPage
        { border := 1, widthIncludingBorder := 66, heightIncludingBorder := 66 } { nr := 291 }
      = { x := 199, y := 133, z := 1, w := 1 } ∧
    (199 : Int) < PipelineImage.DeviceShared.atlasImageWidth
        { border := 1, widthIncludingBorder := 66, heightIncludingBorder := 66 } ∧
    (133 : Int) < PipelineImage.DeviceShared.atlasImageHeight
        { border := 1, widthIncludingBorder := 66, heightIncludingBorder := 66 } :=
  ⟨(getAtlasPositionFromPage_position
      { border := 1, widthIncludingBorder := 66, heightIncludingBorder := 66 } 291
      (by decide)).1,
   ((getAtlasPositionFromPage_position
      { border := 1, widthIncludingBorder := 66, heightIncludingBorder := 66 } 291
      (by decide)).2 (by decide) (by decide) (by decide)).2.1,
   ((getAtlasPositionFromPage_position
      { border := 1, widthIncludingBorder := 66, heightIncludingBorder := 66 } 291
      (by decide)).2 (by decide) (by decide) (by decide)).2.2.2.1⟩

/-! ## Theorems: the structural invariant of veer_if_node -/

theorem well_formed_construct {N E : Type} (location : parse_location) (expression : E) :
    (veer_if_node.construct location expression : veer_if_node N E).well_formed := by
  simp [veer_if_node.well_formed, veer_if_node.construct]

theorem well_formed_found_elif {N E : Type} (node : veer_if_node N E)
    (location : parse_location) (expression : E) (h : node.well_formed) :
    (node.found_elif location expression).2.well_formed := by
  obtain ⟨h1, h2, h3⟩ := h
  unfold veer_if_node.found_elif
  by_cases hne : node.children_groups.length ≠ node.expressions.length
  · rw [if_pos hne]; exact ⟨h1, h2, h3⟩
  · rw [if_neg hne]
    simp only [veer_if_node.well_formed, List.length_append, List.length_singleton]
    omega

theorem well_formed_found_else {N E : Type} (node : veer_if_node N E)
    (location : parse_location) (h : node.well_formed) :
    (node.found_else location).2.well_formed := by
  obtain ⟨h1, h2, h3⟩ := h
  unfold veer_if_node.found_else
  by_cases hne : node.children_groups.length ≠ node.expressions.length
  · rw [if_pos hne]; exact ⟨h1, h2, h3⟩
  · rw [if_neg hne]
    simp only [veer_if_node.well_formed, List.length_append, List.length_singleton]
    omega

theorem well_formed_append {N E : Type} (append_child : List N → N → List N)
    (node : veer_if_node N E) (x : N) (h : node.well_formed) :
    ∃ node1, node.append append_child x = some (true, node1) ∧ node1.well_formed := by
  obtain ⟨h1, h2, h3⟩ := h
  have hne : node.children_groups ≠ [] := by
    intro h0
    rw [h0] at h3
    simp at h3
    omega
  obtain ⟨back, hback⟩ : ∃ back, node.children_groups.getLast? = some back :=
    ⟨_, List.getLast?_eq_getLast _ hne⟩
  refine ⟨{ node with
      children_groups := node.children_groups.dropLast ++ [append_child back x] },
    by simp only [veer_if_node.append, hback], ?_⟩
  have hlen : (node.children_groups.dropLast ++ [append_child back x]).length
      = node.children_groups.length := by
    have : 0 < node.children_groups.length := List.length_pos.2 hne
    simp only [List.length_append, List.length_dropLast, List.length_singleton]
    omega
  simp only [veer_if_node.well_formed, hlen]
  exact ⟨h1, h2, h3⟩

theorem well_formed_build {N E : Type} (append_child : List N → N → List N) :
    ∀ (calls : List (if_builder_call N E)) (node : veer_if_node N E), node.well_formed →
      ∃ node1, veer_if_node.build append_child node calls = some node1 ∧
        node1.well_formed := by
  intro calls
  induction calls with
  | nil => intro node h; exact ⟨node, rfl, h⟩
  | cons call rest ih =>
    intro node h
    cases call with
    | found_elif location expression =>
      exact ih _ (well_formed_found_elif node location expression h)
    | found_else location =>
      exact ih _ (well_formed_found_else node location h)
    | append x =>
      obtain ⟨node1, happ, hwf⟩ := well_formed_append append_child node x h
      obtain ⟨node2, hb, hwf2⟩ := ih node1 hwf
      exact ⟨node2, by simp only [veer_if_node.build, happ, hb], hwf2⟩

theorem evaluate_loop_defined {N E σ : Type} (truthy : datum → Bool)
    (ee : σ → E → parse_location → result σ datum) (ec : σ → List N → result σ datum)
    (node : veer_if_node N E)
    (hloc : node.expressions.length = node.expression_locations.length)
    (hgroups : node.expressions.length ≤ node.children_groups.length) :
    ∀ (remaining i : Nat) (context : σ), remaining + i = node.expressions.length →
      ∃ r, veer_if_node.evaluate_loop truthy ee ec node remaining i context = some r := by
  intro remaining
  induction remaining with
  | zero =>
    intro i context _
    unfold veer_if_node.evaluate_loop
    by_cases hgt : node.children_groups.length > node.expressions.length
    · rw [if_pos hgt, List.getElem?_eq_getElem hgt]
      exact ⟨_, rfl⟩
    · rw [if_neg hgt]
      exact ⟨_, rfl⟩
  | succ remaining ih =>
    intro i context hi
    have h1 : i < node.expressions.length := by omega
    have h2 : i < node.expression_locations.length := by omega
    have h3 : i < node.children_groups.length := by omega
    unfold veer_if_node.evaluate_loop
    rw [List.getElem?_eq_getElem h1, List.getElem?_eq_getElem h2]
    simp only []
    rcases hee : ee context node.expressions[i] node.expression_locations[i] with ⟨r, c1⟩
    cases r with
    | error e => exact ⟨_, rfl⟩
    | ok v =>
      simp only []
      cases hv : truthy v with
      | true =>
        simp only [if_true, List.getElem?_eq_getElem h3]
        exact ⟨_, rfl⟩
      | false =>
        simp only [Bool.false_eq_true, if_false]
        exact ih (i + 1) c1 (by omega)

theorem post_process_expressions_defined {E P : Type}
    (ppe : E → parse_location → P → result (E × P) Unit) :
    ∀ (remaining i : Nat) (expressions : List E) (locations : List parse_location)
      (context : P), remaining + i = expressions.length →
      expressions.length ≤ locations.length →
      ∃ r, veer_if_node.post_process_expressions ppe remaining i expressions locations
        context = some r := by
  intro remaining
  induction remaining with
  | zero => intro i expressions locations context _ _; exact ⟨_, rfl⟩
  | succ remaining ih =>
    intro i expressions locations context hi hle
    have h1 : i < expressions.length := by omega
    have h2 : i < locations.length := by omega
    unfold veer_if_node.post_process_expressions
    rw [List.getElem?_eq_getElem h1, List.getElem?_eq_getElem h2]
    simp only []
    rcases hp : ppe expressions[i] locations[i] context with ⟨r, e1, c1⟩
    cases r with
    | error e => exact ⟨_, rfl⟩
    | ok v =>
      simp only []
      exact ih (i + 1) (expressions.set i e1) locations c1 (by simp; omega) (by simpa using hle)

/-- C33: whatever sequence of `found_elif`, `found_else` and `append` calls follows the
constructor, every call is defined (`append` finds a last children group) and the node
reached has as many expression locations as expressions, at least one expression, and as
many children groups as expressions or one more.  On such a node a further `append` is
defined, and `evaluate` and `post_process` pass their length assertion and keep every index
in range, whatever the evaluators and the context are. -/
theorem if_node_invariant {N E : Type} (append_child : List N → N → List N)
    (location : parse_location) (expression : E) (calls : List (if_builder_call N E)) :
    ∃ node, veer_if_node.build append_child (veer_if_node.construct location expression) calls
        = some node ∧
      node.expressions.length = node.expression_locations.length ∧
      1 ≤ node.expressions.length ∧
      (node.children_groups.length = node.expressions.length ∨
        node.children_groups.length = node.expressions.length + 1) ∧
      (∀ x, ∃ node1, node.append append_child x = some (true, node1)) ∧
      (∀ (σ : Type) (truthy : datum → Bool) (ee : σ → E → parse_location → result σ datum)
          (ec : σ → List N → result σ datum) (context : σ),
        ∃ r, veer_if_node.evaluate truthy ee ec node context = some r) ∧
      (∀ (P : Type) (ppe : E → parse_location → P → result (E × P) Unit) (cla : N → N)
          (cpp : N → P → result (N × P) Unit) (context : P),
        ∃ r, veer_if_node.post_process ppe cla cpp node context = some r) := by
  obtain ⟨node, hbuild, hwf⟩ := well_formed_build append_child calls
    (veer_if_node.construct location expression) (well_formed_construct location expression)
  have hwf1 := hwf
  obtain ⟨h1, h2, h3⟩ := hwf1
  refine ⟨node, hbuild, h1, h2, h3, ?_, ?_, ?_⟩
  · intro x
    obtain ⟨node1, happ, _⟩ := well_formed_append append_child node x hwf
    exact ⟨node1, happ⟩
  · intro σ truthy ee ec context
    unfold veer_if_node.evaluate
    rw [if_pos h1]
    exact evaluate_loop_defined truthy ee ec node h1 (by omega) _ 0 context rfl
  · intro P ppe cla cpp context
    unfold veer_if_node.post_process
    rw [if_pos h1]
    obtain ⟨r, hr⟩ := post_process_expressions_defined ppe node.expressions.length 0
      node.expressions node.expression_locations context rfl (by omega)
    rw [hr]
    rcases r with ⟨r, es, c1⟩
    cases r with
    | error e => exact ⟨_, rfl⟩
    | ok v => exact ⟨_, rfl⟩

/-! ## Theorems: the shape of base64_encode -/

theorem base64_encode_char_standard (v : Nat) :
    base64_standard (base64_encode_char v) = true := by
  by_cases h : v < 64
  · exact (by decide : ∀ v, v < 64 → base64_standard (base64_encode_char v) = true) v h
  · have h1 : ¬ v < 26 := by omega
    have h2 : ¬ v < 52 := by omega
    have h3 : ¬ v < 62 := by omega
    have h4 : ¬ v < 63 := by omega
    simp only [base64_encode_char, h1, h2, h3, h4, if_false]
    decide

/-- C31: for every byte sequence of length n, `base64_encode` returns 4 * ceil(n / 3)
characters: characters of the standard alphabet (letters, digits, '+', '/') followed by
exactly (3 - n mod 3) mod 3 characters '='. -/
theorem base64_encode_shape (b : List Nat) :
    (base64_encode b).length = 4 * ((b.length + 2) / 3) ∧
    ∃ body, base64_encode b = body ++ List.replicate ((3 - b.length % 3) % 3) '=' ∧
      ∀ c ∈ body, base64_standard c = true := by
  induction b using base64_encode.induct with
  | case1 => exact ⟨rfl, [], rfl, by simp⟩
  | case2 b0 =>
    refine ⟨by simp [base64_encode], [base64_encode_char ((b0 <<< 16) >>> 18),
      base64_encode_char (((b0 <<< 16) >>> 12) &&& 0x3f)], rfl, ?_⟩
    intro c hc
    simp only [List.mem_cons, List.mem_singleton, List.not_mem_nil, or_false] at hc
    rcases hc with h | h <;> rw [h] <;> exact base64_encode_char_standard _
  | case3 b0 b1 =>
    refine ⟨by simp [base64_encode], [base64_encode_char (((b0 <<< 16) ||| (b1 <<< 8)) >>> 18),
      base64_encode_char ((((b0 <<< 16) ||| (b1 <<< 8)) >>> 12) &&& 0x3f),
      base64_encode_char ((((b0 <<< 16) ||| (b1 <<< 8)) >>> 6) &&& 0x3f)], rfl, ?_⟩
    intro c hc
    simp only [List.mem_cons, List.mem_singleton, List.not_mem_nil, or_false] at hc
    rcases hc with h | h | h <;> rw [h] <;> exact base64_encode_char_standard _
  | case4 b0 b1 b2 rest ih =>
    obtain ⟨hlen, body, hbody, hall⟩ := ih
    constructor
    · simp only [base64_encode, List.length_append, List.length_cons, List.length_nil, hlen]
      omega
    · refine ⟨[base64_encode_char (((b0 <<< 16) ||| (b1 <<< 8) ||| b2) >>> 18),
        base64_encode_char ((((b0 <<< 16) ||| (b1 <<< 8) ||| b2) >>> 12) &&& 0x3f),
        base64_encode_char ((((b0 <<< 16) ||| (b1 <<< 8) ||| b2) >>> 6) &&& 0x3f),
        base64_encode_char (((b0 <<< 16) ||| (b1 <<< 8) ||| b2) &&& 0x3f)] ++ body, ?_, ?_⟩
      · have hk : (3 - (b0 :: b1 :: b2 :: rest).length % 3) % 3
            = (3 - rest.length % 3) % 3 := by
          simp only [List.length_cons]
          omega
        rw [hk]
        simp only [base64_encode, hbody, List.append_assoc]
      · intro c hc
        rcases List.mem_append.1 hc with h | h
        · simp only [List.mem_cons, List.mem_singleton, List.not_mem_nil, or_false] at h
          rcases h with h | h | h | h <;> rw [h] <;> exact base64_encode_char_standard _
        · exact hall c h

/-! ## Theorems: what base64_decode depends on -/

theorem base64_skipped_value (c : Char) (h : base64_skipped c = true) :
    base64_decode_char c = -1 := by
  simp only [base64_skipped, decide_eq_true_eq] at h
  rcases h with h | h | h | h <;> subst h <;> decide

theorem base64_decode_loop_insert (c : Char) (hc : base64_skipped c = true)
    (post : List Char) :
    ∀ (pre : List Char) (group group_size : Nat) (dst : List Nat), group_size < 4 →
      base64_decode_loop (pre ++ c :: post) group group_size dst
        = base64_decode_loop (pre ++ post) group group_size dst := by
  intro pre
  induction pre with
  | nil =>
    intro group group_size dst hs
    exact base64_decode_loop_skip c (base64_skipped_value c hc) post group group_size dst
      (by omega)
  | cons d pre ih =>
    intro group group_size dst hs
    rcases base64_decode_char_cases d with ⟨_, v, _, hd⟩ | ⟨_, _, hd⟩ | ⟨_, _, hd⟩
    · simp only [List.cons_append]
      rw [base64_decode_loop_value d v hd, base64_decode_loop_value d v hd]
      by_cases h4 : group_size + 1 = 4
      · rw [if_pos h4, if_pos h4]
        exact ih _ _ _ (by omega)
      · rw [if_neg h4, if_neg h4]
        exact ih _ _ _ (by omega)
    · simp only [List.cons_append]
      rw [base64_decode_loop_skip d hd _ _ _ _ (by omega),
        base64_decode_loop_skip d hd _ _ _ _ (by omega)]
      exact ih _ _ _ hs
    · simp [base64_decode_loop, hd]

theorem base64_decode_loop_same_values :
    ∀ (src1 src2 : List Char) (group group_size : Nat) (dst : List Nat),
      src1.map base64_decode_char = src2.map base64_decode_char →
      base64_decode_loop src1 group group_size dst
        = base64_decode_loop src2 group group_size dst := by
  intro src1
  induction src1 with
  | nil =>
    intro src2 group group_size dst h
    cases src2 with
    | nil => rfl
    | cons d rest => simp at h
  | cons c rest ih =>
    intro src2 group group_size dst h
    cases src2 with
    | nil => simp at h
    | cons d rest2 =>
      simp only [List.map_cons, List.cons.injEq] at h
      obtain ⟨hcd, hrest⟩ := h
      simp only [base64_decode_loop, hcd]
      split
      · rfl
      · split
        · split
          · exact ih _ _ _ _ hrest
          · exact ih _ _ _ _ hrest
        · split
          · exact ih _ _ _ _ hrest
          · exact ih _ _ _ _ hrest

theorem base64_decode_loop_filter :
    ∀ (src : List Char) (group group_size : Nat) (dst : List Nat), group_size < 4 →
      (∀ c ∈ src, base64_alphabet c = true ∨ base64_skipped c = true) →
      base64_decode_loop src group group_size dst
        = base64_decode_loop (src.filter base64_alphabet) group group_size dst := by
  intro src
  induction src with
  | nil => intro _ _ _ _ _; rfl
  | cons c rest ih =>
    intro group group_size dst hs hall
    have hrest : ∀ d ∈ rest, base64_alphabet d = true ∨ base64_skipped d = true :=
      fun d hd => hall d (List.mem_cons_of_mem _ hd)
    rcases base64_decode_char_cases c with ⟨hal, v, _, hc⟩ | ⟨hal, _, hc⟩ | ⟨hal, hsk, _⟩
    · rw [List.filter_cons_of_pos hal, base64_decode_loop_value c v hc,
        base64_decode_loop_value c v hc]
      by_cases h4 : group_size + 1 = 4
      · rw [if_pos h4, if_pos h4]
        exact ih _ _ _ (by omega) hrest
      · rw [if_neg h4, if_neg h4]
        exact ih _ _ _ (by omega) hrest
    · rw [List.filter_cons_of_neg (by simp [hal]),
        base64_decode_loop_skip c hc _ _ _ _ (by omega)]
      exact ih _ _ _ hs hrest
    · exfalso
      rcases hall c (List.mem_cons_self _ _) with h | h
      · rw [h] at hal; exact Bool.noConfusion hal
      · rw [h] at hsk; exact Bool.noConfusion hsk

theorem base64_url_safe_value (a b : Char) (h : base64_url_safe_of a b) :
    base64_decode_char a = base64_decode_char b := by
  rcases h with h | ⟨h1, h2⟩ | ⟨h1, h2⟩
  · rw [h]
  · subst h1; subst h2; decide
  · subst h1; subst h2; decide

/-- C32: what `base64_decode` returns or raises depends only on the 6-bit values of the
alphabet characters: two inputs of alphabet characters, spaces, line-feeds, carriage
returns and '=' with the same sequence of values decode alike; a space, line-feed,
carriage return or '=' put in anywhere changes nothing; and neither does writing '-' for
'+' or '_' for '/' at any place. -/
theorem base64_decode_depends_on_values :
    (∀ src1 src2 : List Char,
      (∀ c ∈ src1, base64_alphabet c = true ∨ base64_skipped c = true) →
      (∀ c ∈ src2, base64_alphabet c = true ∨ base64_skipped c = true) →
      base64_values src1 = base64_values src2 →
      base64_decode src1 = base64_decode src2) ∧
    (∀ (pre post : List Char) (c : Char), base64_skipped c = true →
      base64_decode (pre ++ c :: post) = base64_decode (pre ++ post)) ∧
    (∀ src1 src2 : List Char, List.Forall₂ base64_url_safe_of src1 src2 →
      base64_decode src1 = base64_decode src2) := by
  refine ⟨?_, ?_, ?_⟩
  · intro src1 src2 h1 h2 hv
    unfold base64_decode
    rw [base64_decode_loop_filter src1 0 0 [] (by omega) h1,
      base64_decode_loop_filter src2 0 0 [] (by omega) h2,
      base64_decode_loop_same_values _ _ 0 0 [] hv]
  · intro pre post c hc
    unfold base64_decode
    rw [base64_decode_loop_insert c hc post pre 0 0 [] (by omega)]
  · intro src1 src2 h
    have hmap : src1.map base64_decode_char = src2.map base64_decode_char := by
      induction h with
      | nil => rfl
      | cons hab _ ih => simp only [List.map_cons, base64_url_safe_value _ _ hab, ih]
    unfold base64_decode
    rw [base64_decode_loop_same_values _ _ 0 0 [] hmap]

/-- Witness of C32: "T W=F\nu" and "TWFu" decode alike, and so do "+/+/" and "-_+_". -/
theorem base64_decode_depends_on_values_witness :
    base64_decode ['T', ' ', 'W', '=', 'F', '\n', 'u'] = base64_decode ['T', 'W', 'F', 'u'] ∧
    base64_decode (['T', 'W'] ++ '\r' :: ['F', 'u']) = base64_decode (['T', 'W'] ++ ['F', 'u']) ∧
    base64_decode ['+', '/', '+', '/'] = base64_decode ['-', '_', '+', '_'] :=
  ⟨base64_decode_depends_on_values.1 ['T', ' ', 'W', '=', 'F', '\n', 'u'] ['T', 'W', 'F', 'u']
      (by decide) (by decide) (by decide),
   base64_decode_depends_on_values.2.1 ['T', 'W'] ['F', 'u'] '\r' (by decide),
   base64_decode_depends_on_values.2.2 ['+', '/', '+', '/'] ['-', '_', '+', '_']
      (List.Forall₂.cons (Or.inr (Or.inl ⟨rfl, rfl⟩))
        (List.Forall₂.cons (Or.inr (Or.inr ⟨rfl, rfl⟩))
          (List.Forall₂.cons (Or.inl rfl)
            (List.Forall₂.cons (Or.inr (Or.inr ⟨rfl, rfl⟩)) List.Forall₂.nil))))⟩

/-! ## Theorems: the structural invariant of huffman_tree -/

theorem pairs_new_pair (tree : List Int) (i : Nat) (h : huffman_tree.pairs tree) :
    huffman_tree.pairs (tree.set i (-((tree.length : Int) - (i : Int))) ++ [0, 0]) := by
  obtain ⟨h2, heven, hent⟩ := h
  refine ⟨by simp, by simp; omega, ?_⟩
  intro j v hv hneg
  rw [getElem?_new_pair] at hv
  have hlen : ((tree.set i (-((tree.length : Int) - (i : Int))) ++ [0, 0]).length : Int)
      = (tree.length : Int) + 2 := by simp
  rw [hlen]
  by_cases hj : j < tree.length
  · rw [if_pos hj] at hv
    by_cases hij : i = j
    · rw [if_pos hij] at hv
      have hv1 := Option.some.inj hv
      subst hij
      omega
    · rw [if_neg hij] at hv
      have := hent j v hv hneg
      omega
  · rw [if_neg hj] at hv
    by_cases hj2 : j < tree.length + 2
    · rw [if_pos hj2] at hv
      have := Option.some.inj hv
      omega
    · rw [if_neg hj2] at hv
      exact absurd hv (by simp)

theorem pairs_set_leaf (tree : List Int) (i : Nat) (x : Int) (hx : 0 ≤ x)
    (h : huffman_tree.pairs tree) : huffman_tree.pairs (tree.set i x) := by
  obtain ⟨h2, heven, hent⟩ := h
  refine ⟨by simpa using h2, by simpa using heven, ?_⟩
  intro j v hv hneg
  rw [List.getElem?_set] at hv
  by_cases hij : i = j
  · rw [if_pos hij] at hv
    split at hv
    · have := Option.some.inj hv
      omega
    · exact absurd hv (by simp)
  · rw [if_neg hij] at hv
    simpa using hent j v hv hneg

theorem add_descend_some (nc : Int → Option Int)
    (hnc : ∀ v stored, nc v = some stored → stored = v) (tree : List Int) (i : Nat) (v : Int)
    (hv : tree[i]? = some v) (hi : i < tree.length)
    (hlen : (tree.length : Int) ≤ 2147483648) (q : Int) (tree1 : List Int)
    (h : huffman_tree.add_descend nc (i : Int) tree = some (q, tree1)) :
    (v = 0 ∧ (tree.length : Int) ≤ 2147483647 ∧ q = (tree.length : Int) ∧
      tree1 = tree.set i (-((tree.length : Int) - (i : Int))) ++ [0, 0]) ∨
    (v < 0 ∧ q = (i : Int) - v ∧ tree1 = tree) := by
  unfold huffman_tree.add_descend at h
  rw [read_nat, hv] at h
  simp only [] at h
  by_cases hpos : 0 < v
  · rw [if_pos hpos] at h
    cases h
  rw [if_neg hpos] at h
  by_cases hzero : v = 0
  · rw [if_pos hzero] at h
    left
    split at h
    · rename_i hchecks
      simp only [in_int_iff] at hchecks
      have hsc : static_cast_int (tree.length : Int) = (tree.length : Int) := by
        unfold static_cast_int int_min at hchecks ⊢
        omega
      rw [hsc] at h hchecks
      cases hstored : nc (-((tree.length : Int) - (i : Int))) with
      | none => rw [hstored] at h; cases h
      | some stored =>
        rw [hstored] at h
        have hs := hnc _ _ hstored
        simp only [Option.some.injEq, Prod.mk.injEq] at h
        obtain ⟨h1, h2⟩ := h
        refine ⟨hzero, by omega, by omega, ?_⟩
        rw [← h2, hs]
        simp [huffman_tree.write]
    · cases h
  · rw [if_neg hzero] at h
    right
    split at h
    · simp only [Option.some.injEq, Prod.mk.injEq] at h
      exact ⟨by omega, h.1.symm, h.2.symm⟩
    · cases h

theorem add_loop_pairs (nc : Int → Option Int)
    (hnc : ∀ v stored, nc v = some stored → stored = v) (code : Int) :
    ∀ (k : Nat) (tree : List Int) (p : Nat), huffman_tree.pairs tree →
      (tree.length : Int) ≤ 2147483648 → p % 2 = 0 → p + 1 < tree.length →
      ∀ (q : Int) (tree1 : List Int),
        huffman_tree.add_loop nc code k (p : Int) tree = some (q, tree1) →
        huffman_tree.pairs tree1 ∧ (tree1.length : Int) ≤ 2147483648 ∧
        ∃ qn : Nat, q = (qn : Int) ∧ qn % 2 = 0 ∧ qn + 1 < tree1.length := by
  intro k
  induction k with
  | zero =>
    intro tree p h hlen hp hin q tree1 hloop
    simp only [huffman_tree.add_loop, Option.some.injEq, Prod.mk.injEq] at hloop
    obtain ⟨hq, ht⟩ := hloop
    subst ht
    exact ⟨h, hlen, p, hq.symm, hp, hin⟩
  | succ k ih =>
    intro tree p h hlen hp hin q tree1 hloop
    obtain ⟨i, hidef⟩ : ∃ i, i = p + (decide (huffman_tree.code_bit code (k + 1) = 1)).toNat :=
      ⟨_, rfl⟩
    have hi : i < tree.length := by
      rw [hidef]
      cases decide (huffman_tree.code_bit code (k + 1) = 1) <;> simp <;> omega
    have hi2 : i = p ∨ i = p + 1 := by
      rw [hidef]
      cases decide (huffman_tree.code_bit code (k + 1) = 1) <;> simp
    have hoff : (p : Int) + huffman_tree.code_bit code (k + 1) = (i : Int) := by
      rw [code_bit_cases code (k + 1), ← Nat.cast_add, hidef]
    obtain ⟨v, hv⟩ : ∃ v, tree[i]? = some v := ⟨tree[i], List.getElem?_eq_getElem hi⟩
    unfold huffman_tree.add_loop at hloop
    rw [hoff] at hloop
    split at hloop
    · cases hdesc : huffman_tree.add_descend nc (i : Int) tree with
      | none => rw [hdesc] at hloop; cases hloop
      | some r =>
        obtain ⟨q1, tree2⟩ := r
        rw [hdesc] at hloop
        simp only [] at hloop
        rcases add_descend_some nc hnc tree i v hv hi hlen q1 tree2 hdesc with
          ⟨_, hmax, hq1, ht2⟩ | ⟨hneg, hq1, ht2⟩
        · rw [hq1, ht2] at hloop
          exact ih _ tree.length (pairs_new_pair tree i h)
            (by
              have heven := h.2.1
              simp only [List.length_append, List.length_set, List.length_cons,
                List.length_nil]
              push_cast
              omega)
            h.2.1 (by simp) q tree1 hloop
        · obtain ⟨h1, h2, h3⟩ := h.2.2 i v hv hneg
          have hoff1 : (i : Int) - v = ((i + (-v).toNat : Nat) : Int) := by
            push_cast; omega
          rw [hq1, ht2, hoff1] at hloop
          exact ih tree (i + (-v).toNat) h hlen (by omega) (by omega) q tree1 hloop
    · cases hloop

theorem add_pairs (nc : Int → Option Int)
    (hnc : ∀ v stored, nc v = some stored → stored = v) (t t1 : huffman_tree)
    (symbol code code_length : Int) (hs : 0 ≤ symbol)
    (h : huffman_tree.pairs t.tree) (hlen : (t.tree.length : Int) ≤ 2147483648)
    (hadd : huffman_tree.add nc t symbol code code_length = some t1) :
    huffman_tree.pairs t1.tree ∧ (t1.tree.length : Int) ≤ 2147483648 := by
  unfold huffman_tree.add at hadd
  split at hadd
  · cases hloop : huffman_tree.add_loop nc code (code_length.toNat - 1) 0 t.tree with
    | none => rw [hloop] at hadd; cases hadd
    | some r =>
      obtain ⟨q, tree1⟩ := r
      rw [hloop] at hadd
      simp only [] at hadd
      obtain ⟨hp1, hlen1, _⟩ := add_loop_pairs nc hnc code (code_length.toNat - 1) t.tree 0 h
        hlen rfl (by have := h.1; omega) q tree1 (by simpa using hloop)
      split at hadd
      · cases hread : huffman_tree.read tree1 (q + huffman_tree.code_bit code 0) with
        | none => rw [hread] at hadd; cases hadd
        | some v =>
          rw [hread] at hadd
          simp only [] at hadd
          split at hadd
          · cases hstored : nc (symbol + 1) with
            | none => rw [hstored] at hadd; cases hadd
            | some stored =>
              rw [hstored] at hadd
              have hst := hnc _ _ hstored
              have ht := Option.some.inj hadd
              rw [← ht]
              exact ⟨pairs_set_leaf tree1 _ stored (by omega) hp1,
                by simpa [huffman_tree.write] using hlen1⟩
          · cases hadd
      · cases hadd
  · cases hadd

theorem add_all_pairs (nc : Int → Option Int)
    (hnc : ∀ v stored, nc v = some stored → stored = v) :
    ∀ (entries : List huffman_code) (t t1 : huffman_tree),
      (∀ e ∈ entries, 0 ≤ e.symbol) → huffman_tree.pairs t.tree →
      (t.tree.length : Int) ≤ 2147483648 →
      huffman_tree.add_all nc t entries = some t1 → huffman_tree.pairs t1.tree := by
  intro entries
  induction entries with
  | nil =>
    intro t t1 _ h _ hall
    simp only [huffman_tree.add_all, Option.some.injEq] at hall
    rw [← hall]; exact h
  | cons e rest ih =>
    intro t t1 hs h hlen hall
    unfold huffman_tree.add_all at hall
    cases hadd : huffman_tree.add nc t e.symbol e.code e.code_length with
    | none => rw [hadd] at hall; cases hall
    | some t2 =>
      rw [hadd] at hall
      obtain ⟨hp2, hlen2⟩ := add_pairs nc hnc t t2 e.symbol e.code e.code_length
        (hs e (List.mem_cons_self _ _)) h hlen hadd
      exact ih t2 t1 (fun x hx => hs x (List.mem_cons_of_mem _ hx)) hp2 hlen2 hall

theorem checked_cast_value (least largest v stored : Int)
    (h : checked_cast least largest v = some stored) : stored = v := by
  unfold checked_cast at h
  split at h
  · exact (Option.some.inj h).symm
  · cases h

theorem get_while_negative_inside (t : huffman_tree) (h : huffman_tree.pairs t.tree) :
    ∀ (bits : List Bool) (state : Nat), state % 2 = 0 → state + 1 < t.tree.length →
      ∃ results, t.get_while_negative (state : Int) bits = some results := by
  intro bits
  induction bits with
  | nil => intro state _ _; exact ⟨[], rfl⟩
  | cons b rest ih =>
    intro state heven hin
    have hi : state + b.toNat < t.tree.length := by cases b <;> simp <;> omega
    obtain ⟨v, hv⟩ : ∃ v, t.tree[state + b.toNat]? = some v :=
      ⟨_, List.getElem?_eq_getElem hi⟩
    have hr : huffman_tree.read t.tree ((state : Int) + (if b then 1 else 0)) = some v := by
      rw [bool_to_int, ← Nat.cast_add, read_nat, hv]
    unfold huffman_tree.get_while_negative huffman_tree.get
    rw [hr]
    simp only []
    by_cases hzero : v = 0
    · rw [if_pos hzero]
      exact ⟨_, rfl⟩
    · rw [if_neg hzero]
      simp only []
      by_cases hneg : v - 1 < 0
      · rw [if_pos hneg]
        obtain ⟨h1, h2, h3⟩ := h.2.2 (state + b.toNat) v hv (by omega)
        have hst : (state : Int) + (if b then 1 else 0) - v
            = ((state + b.toNat + (-v).toNat : Nat) : Int) := by
          rw [bool_to_int]; push_cast; omega
        rw [hst]
        obtain ⟨results, hres⟩ := ih (state + b.toNat + (-v).toNat)
          (by push_cast at h1; omega) (by push_cast at h3; omega)
        rw [hres]
        exact ⟨_, rfl⟩
      · rw [if_neg hneg]
        exact ⟨_, rfl⟩

/-- C35 as stated fails: `add(-5, 0, 1)` on a fresh tree violates no assumption of `add`,
stays inside `int` and `T`, and leaves the vector [-4, 0], whose negative entry at index 0
refers to index 4, outside the vector; `get` with bit 0 from `start()` then returns the
negative value -5 and the next `get` reads outside the vector. -/
theorem huffman_negative_symbol_breaks_pairs :
    huffman_tree.add (checked_cast int_min int_max) huffman_tree.construct (-5) 0 1
      = some { tree := [-4, 0] } ∧
    ¬ huffman_tree.pairs [-4, 0] ∧
    huffman_tree.get { tree := [-4, 0] } false (huffman_tree.start { tree := [-4, 0] })
      = some (Except.ok (-5), 4) ∧
    huffman_tree.get { tree := [-4, 0] } false 4 = none ∧
    huffman_tree.get_while_negative { tree := [-4, 0] }
      (huffman_tree.start { tree := [-4, 0] }) [false, false] = none := by
  refine ⟨by decide, ?_, rfl, rfl, rfl⟩
  intro h
  have := h.2.2 0 (-4) (by simp) (by decide)
  simp at this

/-- C35, as the code behaves: in every tree reached from the constructor by `add` calls
with symbol >= 0 that return, that is, that violate no assumption of `add`, keep every
`int` operation inside `int` and every shift count below its width, and in which
`numeric_cast<T>` keeps every value it is given, the vector has an even length of at least 2
and every negative entry at an index i refers, by i - entry, to the even index of a later
node pair wholly inside the vector; so `get`, started at `start()` and called for as long as
it returns a negative value, never reads outside the vector. -/
theorem huffman_pairs_invariant (numeric_cast : Int → Option Int)
    (hkeep : ∀ v stored, numeric_cast v = some stored → stored = v)
    (entries : List huffman_code) (t : huffman_tree)
    (hsymbol : ∀ e ∈ entries, 0 ≤ e.symbol)
    (hadd : huffman_tree.add_all numeric_cast huffman_tree.construct entries = some t) :
    huffman_tree.pairs t.tree ∧
    ∀ bits : List Bool, ∃ results, t.get_while_negative t.start bits = some results := by
  have hconstruct : huffman_tree.pairs huffman_tree.construct.tree := by
    refine ⟨by simp [huffman_tree.construct], by simp [huffman_tree.construct], ?_⟩
    intro i v hv hneg
    exfalso
    have hi : i < 2 := by
      have := (List.getElem?_eq_some.1 hv).1
      simpa [huffman_tree.construct] using this
    have : i = 0 ∨ i = 1 := by omega
    rcases this with h | h <;> subst h <;> simp [huffman_tree.construct] at hv <;> omega
  have hp := add_all_pairs numeric_cast hkeep entries huffman_tree.construct t hsymbol
    hconstruct (by simp [huffman_tree.construct]) hadd
  refine ⟨hp, ?_⟩
  intro bits
  have := get_while_negative_inside t hp bits 0 rfl (by have := hp.1; omega)
  simpa [huffman_tree.start] using this

/-- Witness of C35 as amended: for a `T` of 16 bits, after the entries 0, 10, 110, 111 the
vector is [2, -1, 1, -1, 3, 4] and the bits 1, 1, 0 are read inside it. -/
theorem huffman_pairs_invariant_witness :
    huffman_tree.pairs [2, -1, 1, -1, 3, 4] ∧
    ∃ results, huffman_tree.get_while_negative { tree := [2, -1, 1, -1, 3, 4] }
      (huffman_tree.start { tree := [2, -1, 1, -1, 3, 4] }) [true, true, false]
        = some results :=
  ⟨(huffman_pairs_invariant (checked_cast (-32768) 32767) (checked_cast_value _ _)
      [⟨1, 0, 1⟩, ⟨0, 2, 2⟩, ⟨2, 6, 3⟩, ⟨3, 7, 3⟩]
      { tree := [2, -1, 1, -1, 3, 4] } (by decide) (by decide)).1,
   (huffman_pairs_invariant (checked_cast (-32768) 32767) (checked_cast_value _ _)
      [⟨1, 0, 1⟩, ⟨0, 2, 2⟩, ⟨2, 6, 3⟩, ⟨3, 7, 3⟩]
      { tree := [2, -1, 1, -1, 3, 4] } (by decide) (by decide)).2 [true, true, false]⟩

end tt
